import Mathlib

/-!
OpenTurbine: least-squares fitting of beam geometry (`src/math/least_squares_fit.hpp`)

A shallow embedding of `MapGeometricLocations`, the two `ShapeFunctionMatrices`
overloads and `PerformLeastSquaresFitting`, followed by theorems about them.

Modelling conventions.

* `double` is modelled by `ℚ` in the definitions that carry the source's names:
  the statements about them are about exact arithmetic.  Division by zero is `0`
  in `ℚ` (IEEE gives `inf`/`NaN`); every theorem that divides assumes the divisor
  is non-zero.
* The definitions whose names end in `64` are the same functions over `Double`,
  a model of IEEE 754 binary64 with signed zeros, infinities, NaN and rounding
  to nearest, ties to even, after every operation (no fused multiply-add).  They
  show where rounding, overflow and NaN make the code differ from exact
  arithmetic.
* `std::vector<T>` is a `List T`.  `operator[]`, `front()` and `back()` are
  modelled by checked accesses: an access the C++ standard leaves undefined is
  the outcome `Fault.out_of_bounds`.
* `std::array<double, 3>` is `Fin 3 → ℚ`.
* A host `Kokkos::View` with extents `e0 × e1` is a total map on
  `Fin e0 × Fin e1` (zero-initialised on construction, as Kokkos does), with
  checked accesses as well.
* `throw std::invalid_argument(msg)` is the outcome `Fault.invalid_argument msg`.
* Loops `for (i = lo; i < hi; ++i)` are `forLoop lo hi`, a monadic left fold over
  the index range that stops at the first fault.
* `size_t` subtraction is `usub`, which wraps around below zero.  Loop counters
  declared `auto i = 0U` are 32-bit in the source; the model lets them range over
  `Nat`, which agrees with the source whenever `p` and `n` are below `2^32`.
* `LAPACKE_dgesv` is an external library routine: `PerformLeastSquaresFitting`
  takes it as a parameter that maps the order `N`, the system `A` and the
  right-hand side `B` to the status `info` and the contents of the buffer `B`
  after the call.
-/

/-- Host `Kokkos::View<double**>` with extents `e0 × e1`. -/
abbrev HostView (e0 e1 : Nat) := Matrix (Fin e0) (Fin e1) ℚ

/-- Equality of outcomes is decidable when equality of faults and of results is. -/
instance instDecidableEqOutcome {ε α : Type} [DecidableEq ε] [DecidableEq α] :
    DecidableEq (Except ε α)
  | .ok a, .ok b => decidable_of_iff (a = b) (by simp)
  | .error a, .error b => decidable_of_iff (a = b) (by simp)
  | .ok _, .error _ => isFalse (by simp)
  | .error _, .ok _ => isFalse (by simp)

namespace openturbine

/-- Outcomes other than a normal return. -/
inductive Fault where
  | invalid_argument (what : String)
  | out_of_bounds
  deriving DecidableEq, Repr

/-- The alias `using Matrix = std::vector<std::vector<double>>`. -/
abbrev Matrix := List (List ℚ)

/-- The alias for `std::array<double, 3>`. -/
abbrev Array3 := Fin 3 → ℚ

/-- Subtraction of `size_t` values: wraps around modulo `2^64` below zero. -/
def usub (a b : Nat) : Nat :=
  if b ≤ a then a - b else a + 2 ^ 64 - b

/-- The loop `for (i = lo; i < hi; ++i) s = body(i, s)`. -/
def forLoop {σ : Type} (lo hi : Nat) (init : σ) (body : Nat → σ → Except Fault σ) :
    Except Fault σ :=
  (List.range' lo (hi - lo)).foldlM (fun s i => body i s) init

/-- Read `v[i]` of a `std::vector`. -/
def vecRead {α : Type} (v : List α) (i : Nat) : Except Fault α :=
  match v[i]? with
  | some x => .ok x
  | none => .error .out_of_bounds

/-- Write `v[i] = x` of a `std::vector`. -/
def vecWrite {α : Type} (v : List α) (i : Nat) (x : α) : Except Fault (List α) :=
  if i < v.length then .ok (v.set i x) else .error .out_of_bounds

/-- Write `m[k][j] = x` of a `Matrix`. -/
def matWrite (m : Matrix) (k j : Nat) (x : ℚ) : Except Fault Matrix := do
  let row ← vecRead m k
  let row ← vecWrite row j x
  vecWrite m k row

/-- Read `a[d]` of a `std::array<double, 3>`. -/
def arrRead (a : Array3) (d : Nat) : Except Fault ℚ :=
  if h : d < 3 then .ok (a ⟨d, h⟩) else .error .out_of_bounds

/-- Write `a[d] = x` of a `std::array<double, 3>`. -/
def arrWrite (a : Array3) (d : Nat) (x : ℚ) : Except Fault Array3 :=
  if d < 3 then .ok (fun c => if c.val = d then x else a c) else .error .out_of_bounds

/-- A freshly constructed view: all entries zero. -/
def viewZeros (e0 e1 : Nat) : HostView e0 e1 := fun _ _ => 0

/-- Read `V(i, j)`. -/
def viewRead {e0 e1 : Nat} (V : HostView e0 e1) (i j : Nat) : Except Fault ℚ :=
  if h : i < e0 ∧ j < e1 then .ok (V ⟨i, h.1⟩ ⟨j, h.2⟩) else .error .out_of_bounds

/-- Write `V(i, j) = x`. -/
def viewWrite {e0 e1 : Nat} (V : HostView e0 e1) (i j : Nat) (x : ℚ) :
    Except Fault (HostView e0 e1) :=
  if i < e0 ∧ j < e1 then .ok (fun a b => if a.val = i ∧ b.val = j then x else V a b)
  else .error .out_of_bounds

/-- `MapGeometricLocations` (least_squares_fit.hpp, lines 26-43). -/
def MapGeometricLocations (geom_locations : List ℚ) : Except Fault (List ℚ) := do
  let domain_start ← vecRead geom_locations 0
  let domain_end ← vecRead geom_locations (usub geom_locations.length 1)
  if domain_end = domain_start then
    throw (.invalid_argument "Invalid geometric locations: domain start and end points are equal.")
  let mapped_locations : List ℚ := List.replicate geom_locations.length 0
  let domain_span := domain_end - domain_start
  forLoop 0 geom_locations.length mapped_locations fun i mapped_locations => do
    let g ← vecRead geom_locations i
    vecWrite mapped_locations i (2 * (g - domain_start) / domain_span - 1)

/-- Modelled from the spec: `LagrangePolynomialInterpWeights` of
`elements/beams/interpolation.hpp`, which is not among the sources. Section 4.3:
"for each node `k`, the Lagrange basis value
`L_k(x) = Π_{j≠k} (x - x_j)/(x_k - x_j)`"; the weight vector has one weight per
node. The output parameter `weights` is the returned list. -/
def LagrangePolynomialInterpWeights (x : ℚ) (xs : List ℚ) : List ℚ :=
  (List.range xs.length).map fun k =>
    (((List.range xs.length).filter (fun j => j ≠ k)).map
      (fun j => (x - xs.getD j 0) / (xs.getD k 0 - xs.getD j 0))).prod

/-- Modelled from the spec: `LagrangePolynomialDerivWeights` of
`elements/beams/interpolation.hpp`, which is not among the sources. Section 4.3:
"the derivative `L_k'(x)` of the same basis functions, evaluated via the standard
sum-of-products formula", that is
`L_k'(x) = Σ_{i≠k} 1/(x_k - x_i) · Π_{m≠k, m≠i} (x - x_m)/(x_k - x_m)`. -/
def LagrangePolynomialDerivWeights (x : ℚ) (xs : List ℚ) : List ℚ :=
  (List.range xs.length).map fun k =>
    (((List.range xs.length).filter (fun i => i ≠ k)).map
      (fun i =>
        (((List.range xs.length).filter (fun m => m ≠ k ∧ m ≠ i)).map
          (fun m => (x - xs.getD m 0) / (xs.getD k 0 - xs.getD m 0))).prod
          / (xs.getD k 0 - xs.getD i 0))).sum

/-- `ShapeFunctionMatrices(n, p, evaluation_pts)` (lines 53-76), Mode A of the
spec. `GenerateGLLPoints` (`elements/beams/interpolation.hpp`) is not among the
sources and is a parameter. -/
def ShapeFunctionMatrices (GenerateGLLPoints : Nat → List ℚ) (n p : Nat)
    (evaluation_pts : List ℚ) : Except Fault (Matrix × Matrix × List ℚ) := do
  let gll_pts := GenerateGLLPoints (usub p 1)
  let weights : List ℚ := List.replicate p 0
  let shape_functions : Matrix := List.replicate p (List.replicate n 0)
  let derivative_functions : Matrix := List.replicate p (List.replicate n 0)
  let (shape_functions, derivative_functions, _) ←
    forLoop 0 n (shape_functions, derivative_functions, weights)
      fun j (st : Matrix × Matrix × List ℚ) => do
        let x ← vecRead evaluation_pts j
        let weights := LagrangePolynomialInterpWeights x gll_pts
        let shape_functions ← forLoop 0 p st.1 fun k shape_functions => do
          let w ← vecRead weights k
          matWrite shape_functions k j w
        let x ← vecRead evaluation_pts j
        let weights := LagrangePolynomialDerivWeights x gll_pts
        let derivative_functions ← forLoop 0 p st.2.1 fun k derivative_functions => do
          let w ← vecRead weights k
          matWrite derivative_functions k j w
        pure (shape_functions, derivative_functions, weights)
  pure (shape_functions, derivative_functions, gll_pts)

/-- `ShapeFunctionMatrices(input_pts, output_pts)` (lines 85-114), Mode B of the
spec: the second overload, renamed because Lean has no overloading by type. -/
def ShapeFunctionMatricesB (input_pts output_pts : List ℚ) : Except Fault (Matrix × Matrix) := do
  let n_input := input_pts.length
  let n_output := output_pts.length
  let weights : List ℚ := List.replicate n_output 0
  let shape_functions : Matrix := List.replicate n_output (List.replicate n_input 0)
  let (shape_functions, weights) ←
    forLoop 0 n_input (shape_functions, weights) fun j (st : Matrix × List ℚ) => do
      let x ← vecRead input_pts j
      let weights := LagrangePolynomialInterpWeights x output_pts
      let shape_functions ← forLoop 0 n_output st.1 fun k shape_functions => do
        let w ← vecRead weights k
        matWrite shape_functions k j w
      pure (shape_functions, weights)
  let derivative_functions : Matrix := List.replicate n_output (List.replicate n_input 0)
  let (derivative_functions, _) ←
    forLoop 0 n_input (derivative_functions, weights) fun j (st : Matrix × List ℚ) => do
      let x ← vecRead input_pts j
      let weights := LagrangePolynomialDerivWeights x output_pts
      let derivative_functions ← forLoop 0 n_output st.1 fun k derivative_functions => do
        let w ← vecRead weights k
        matWrite derivative_functions k j w
      pure (derivative_functions, weights)
  pure (shape_functions, derivative_functions)

/-- The type of the external routine `LAPACKE_dgesv` as the fit calls it (column
major, `nrhs = 3`, `lda = ldb = N`): from the order `N`, the system `A` and the
right-hand side `B` to the returned status `info` and the contents of `B` after
the call. -/
abbrev Dgesv := (N : Nat) → HostView N N → HostView N 3 → Int × HostView N 3

/-- The system `A` assembled by `PerformLeastSquaresFitting` (lines 141-153) for
`n` columns. -/
def assembleA (p n : Nat) (shape_functions : Matrix) : Except Fault (HostView p p) := do
  let A : HostView p p := viewZeros p p
  let A ← viewWrite A 0 0 1
  let A ← viewWrite A (usub p 1) (usub p 1) 1
  forLoop 0 p A fun j A =>
    forLoop 1 (usub p 1) A fun i A => do
      let sum ← forLoop 0 n (0 : ℚ) fun k sum => do
        let row_i ← vecRead shape_functions i
        let s_ik ← vecRead row_i k
        let row_j ← vecRead shape_functions j
        let s_jk ← vecRead row_j k
        pure (sum + s_ik * s_jk)
      viewWrite A i j sum

/-- The right-hand side `B` assembled by `PerformLeastSquaresFitting`
(lines 155-167) for `n` columns. -/
def assembleB (p n : Nat) (shape_functions : Matrix) (points_to_fit : List Array3) :
    Except Fault (HostView p 3) := do
  let B : HostView p 3 := viewZeros p 3
  let B ← forLoop 0 3 B fun dim B => do
    let first ← vecRead points_to_fit 0
    let c ← arrRead first dim
    let B ← viewWrite B 0 dim c
    let last ← vecRead points_to_fit (usub n 1)
    let c ← arrRead last dim
    viewWrite B (usub p 1) dim c
  forLoop 1 (usub p 1) B fun i B =>
    forLoop 0 n B fun k B =>
      forLoop 0 3 B fun dim B => do
        let row_i ← vecRead shape_functions i
        let s_ik ← vecRead row_i k
        let pt ← vecRead points_to_fit k
        let c ← arrRead pt dim
        let b ← viewRead B i dim
        viewWrite B i dim (b + s_ik * c)

/-- The copy of the view `B` into the returned vector (lines 177-185). -/
def copyResult (p : Nat) (B : HostView p 3) : Except Fault (List Array3) := do
  let result : List Array3 := List.replicate p (fun _ => 0)
  forLoop 0 result.length result fun i result =>
    forLoop 0 3 result fun j result => do
      let b ← viewRead B i j
      let r ← vecRead result i
      let r ← arrWrite r j b
      vecWrite result i r

/-- `PerformLeastSquaresFitting` (lines 128-186). The status returned by
`LAPACKE_dgesv` is discarded, as in the source. -/
def PerformLeastSquaresFitting (dgesv : Dgesv) (p : Nat) (shape_functions : Matrix)
    (points_to_fit : List Array3) : Except Fault (List Array3) := do
  if shape_functions.length ≠ p then
    throw (.invalid_argument "shape_functions rows do not match order p.")
  let row0 ← vecRead shape_functions 0
  let n := row0.length
  if shape_functions.any (fun row => row.length ≠ n) then
    throw (.invalid_argument "Inconsistent number of columns in shape_functions.")
  let A ← assembleA p n shape_functions
  let B ← assembleB p n shape_functions points_to_fit
  let solved := dgesv p A B
  copyResult p solved.2

/-- The vector of length `n` whose `j`-th entry is `g j`. -/
def tab {α : Type} (n : Nat) (g : Nat → α) : List α := (List.range n).map g

/-- The affine map that `MapGeometricLocations` applies to each location
(line 40). -/
def affineImage (first last x : ℚ) : ℚ := 2 * (x - first) / (last - first) - 1

/-- The entry `m[i][k]` of a `Matrix`, `0` outside it. -/
def entry (m : Matrix) (i k : Nat) : ℚ := (m.getD i []).getD k 0

/-- The sample `points_to_fit[k][d]`, `0` outside the vector. -/
def sample (points_to_fit : List Array3) (k : Nat) (d : Fin 3) : ℚ :=
  (points_to_fit.getD k (fun _ => 0)) d

/-- Closed form of the system that the loops of `assembleA` leave in `A`: rows `0`
and `p-1` are rows of the identity, every entry `(i, j)` of an interior row `i` is
`Σ_k Φ[i][k]·Φ[j][k]`. -/
def systemA (p n : Nat) (shape_functions : Matrix) : HostView p p :=
  fun a b =>
    if 1 ≤ a.val ∧ a.val < p - 1 then
      ∑ k in Finset.range n, entry shape_functions a.val k * entry shape_functions b.val k
    else if a.val = b.val then 1 else 0

/-- Closed form of the right-hand side that the loops of `assembleB` leave in `B`:
an interior row `i` is `Σ_k Φ[i][k]·points_to_fit[k]`, row `p-1` is the sample
`n-1` and row `0` (when `p > 1`) is the sample `0`. -/
def systemB (p n : Nat) (shape_functions : Matrix) (points_to_fit : List Array3) :
    HostView p 3 :=
  fun a d =>
    if 1 ≤ a.val ∧ a.val < p - 1 then
      ∑ k in Finset.range n, entry shape_functions a.val k * sample points_to_fit k d
    else if a.val = p - 1 then sample points_to_fit (n - 1) d
    else sample points_to_fit 0 d

/-- The rows of a view with three columns, as a vector of `std::array<double, 3>`. -/
def viewRows {p : Nat} (B : HostView p 3) : List Array3 :=
  List.ofFn fun i => B i

/-- The pivot row that partial pivoting chooses for column `k`: the first row
among `k, ..., N-1` whose entry in column `k` has the largest absolute value. -/
def pivotRow (rows : Matrix) (k N : Nat) : Nat :=
  (List.range' k (N - k)).foldl
    (fun r i => if |entry rows r k| < |entry rows i k| then i else r) k

/-- One elimination step on column `k`: the pivot row is scaled to a unit pivot
and subtracted from every other row. -/
def eliminate (rows : Matrix) (k : Nat) : Matrix :=
  let pivot := (rows.getD k []).map (fun x => x / entry rows k k)
  (List.range rows.length).map fun i =>
    if i = k then pivot
    else List.zipWith (fun x y => x - entry rows i k * y) (rows.getD i []) pivot

/-- One step of the elimination with partial pivoting on the augmented rows; a
zero pivot sets the status to `k + 1` (the first one is kept) and leaves the
column as it is. -/
def gaussStep (N : Nat) (st : Int × Matrix) (k : Nat) : Int × Matrix :=
  let r := pivotRow st.2 k N
  if entry st.2 r k = 0 then (if st.1 = 0 then ((k : Int) + 1, st.2) else st)
  else (st.1, eliminate ((st.2.set k (st.2.getD r [])).set r (st.2.getD k [])) k)

/-- Modelled from the spec: a reference instance of the external routine
`LAPACKE_dgesv`, which is not part of the repository. Section 6: "a dense
linear-system solver capable of solving `A·X = B` for a square `A` and
multi-column `B` via LU factorization with partial pivoting, reporting failure on
a numerically singular system". As LAPACK documents it, `info = 0` means that `B`
holds the solution on exit, and `info = i > 0` means that the `i`-th pivot is
exactly zero and no solution has been computed, `B` being left as it was. -/
def dgesvRef : Dgesv := fun N A B =>
  let rows : Matrix :=
    List.ofFn fun i : Fin N => List.ofFn (fun j => A i j) ++ List.ofFn (fun d => B i d)
  let st := (List.range N).foldl (gaussStep N) ((0 : Int), rows)
  if st.1 = 0 then (0, fun i d => entry st.2 i.val (N + d.val)) else (st.1, B)

/-- The row that stands at position `i` after the rows `k` and `r` have been
exchanged. -/
def swapIndex (k r i : Nat) : Nat := if i = r then k else if i = k then r else i

/-- Closed form of one step of `gaussStep` with the pivot row `r` for column `k`,
on the entries `E i j` of the rows: the rows `k` and `r` are exchanged, the new
row `k` is divided by the pivot `E r k` and its multiple is subtracted from every
other row. -/
def pivotStep (E : Nat → Nat → ℚ) (k r : Nat) : Nat → Nat → ℚ :=
  fun i j =>
    if i = k then E r j / E r k
    else E (swapIndex k r i) j - E (swapIndex k r i) k * (E r j / E r k)

/-- The state of the elimination before column `k`: every row of the initial
entries `E0` is a combination of the current rows `E`, and the columns before `k`
of `E` are unit vectors. -/
def Reduced (N k : Nat) (E0 E : Nat → Nat → ℚ) : Prop :=
  (∃ T : Nat → Nat → ℚ, ∀ i, i < N → ∀ j, j < N + 3 →
    E0 i j = ∑ l in Finset.range N, T i l * E l j) ∧
  ∀ i, i < N → ∀ j, j < k → E i j = if i = j then 1 else 0

/-- The outcome is not a thrown `std::invalid_argument`. -/
def NoThrow {α : Type} (x : Except Fault α) : Prop :=
  ∀ what, x ≠ .error (.invalid_argument what)

/-- The shape-function matrix `expected` of the test
`ShapeFunctionMatrices_SecondOrder`: the GLL nodes `{-1, 0, 1}` evaluated at
`{-1, -0.5, 0, 0.5, 1}`. -/
def phi_second_order : Matrix :=
  [[1, 3 / 8, 0, -1 / 8, 0], [0, 3 / 4, 1, 3 / 4, 0], [0, -1 / 8, 0, 3 / 8, 1]]

/-- Five samples that do not lie on a parabola. -/
def scattered_points : List Array3 :=
  [![0, 0, 0], ![1, 2, 3], ![2, 4, 7], ![3, 6, 9], ![4, 8, 12]]

/-- A `3 × 2` shape-function matrix whose interior row is zero. -/
def phi_zero_interior : Matrix := [[1, 0], [0, 0], [0, 1]]

/-- Control points of the curve `x = 5t`, `y = 3t² - 2t`, `z = 0` at the nodes
`t = 0, 0.5, 1`. -/
def parabola_coefficients : List Array3 :=
  [![0, 0, 0], ![5 / 2, -1 / 4, 0], ![5, 1, 0]]

/-- Samples of the curve `x = 5t`, `y = 3t² - 2t`, `z = 0` at
`t = 0, 0.25, 0.5, 0.75, 1`. -/
def parabola_points : List Array3 :=
  [![0, 0, 0], ![5 / 4, -5 / 16, 0], ![5 / 2, -1 / 4, 0], ![15 / 4, 3 / 16, 0], ![5, 1, 0]]

/-- The coefficients `c`, one `std::array<double, 3>` per row, as a `p × 3` view. -/
def coefficientView (p : Nat) (c : List Array3) : HostView p 3 :=
  fun i d => sample c i.val d

/-- The residual at sample `k`, in coordinate `d`, of the curve with the `p`
coefficients `Z`: `Σ_j Φ[j][k]·Z_j - s_k`. -/
def residual (shape_functions : Matrix) (points_to_fit Z : List Array3) (p : Nat)
    (d : Fin 3) (k : Nat) : ℚ :=
  ∑ j in Finset.range p, entry shape_functions j k * sample Z j d - sample points_to_fit k d

/-- The Lagrange interpolation weight `L_k(x) = Π_{i≠k} (x - x_i)/(x_k - x_i)` over
the nodes `xs`, as a product over a finite set. -/
def interpWeight (xs : List ℚ) (k : Nat) (x : ℚ) : ℚ :=
  ∏ i in (Finset.range xs.length).erase k, (x - xs.getD i 0) / (xs.getD k 0 - xs.getD i 0)

/-- The sum-of-products form of the derivative weight `L_k'(x)` over the nodes
`xs`, as a sum over a finite set. -/
def derivWeight (xs : List ℚ) (k : Nat) (x : ℚ) : ℚ :=
  ∑ i in (Finset.range xs.length).erase k,
    (∏ m in ((Finset.range xs.length).erase k).erase i,
      (x - xs.getD m 0) / (xs.getD k 0 - xs.getD m 0)) / (xs.getD k 0 - xs.getD i 0)

/-- Modelled from the spec: `CreateTrapezoidalQuadrature` of
`elements/beams/beam_quadrature.hpp`, of which only the tests are among the
sources. Section 4.6: "each input location maps to its normalized position (via
4.1's rule, conceptually); each weight equals half the sum of the normalized gaps
to its immediate neighbors (full gap to one neighbor only at the two endpoints)".
An entry of the returned rule is the pair `(location, weight)`. -/
def CreateTrapezoidalQuadrature (grid : List ℚ) : Except Fault (List (ℚ × ℚ)) := do
  let locations ← MapGeometricLocations grid
  pure ((List.range locations.length).map fun i =>
    (locations.getD i 0,
      ((if 0 < i then locations.getD i 0 - locations.getD (i - 1) 0 else 0) +
        (if i + 1 < locations.length then locations.getD (i + 1) 0 - locations.getD i 0
          else 0)) / 2))

/-- The Legendre polynomial of degree `k` over the reals, by Rodrigues' formula
`P_k = 1/(2^k k!) · d^k/dx^k (x² - 1)^k`. -/
noncomputable def legendre (k : Nat) : Polynomial ℝ :=
  Polynomial.C ((2 ^ k * (k.factorial : ℝ))⁻¹) *
    Polynomial.derivative^[k] ((Polynomial.X ^ 2 - Polynomial.C 1) ^ k)

/-- Modelled from the spec: `GenerateGLLPoints` of
`elements/beams/interpolation.hpp`, which is not among the sources. Section 4.2:
"given polynomial order `k = p-1`, returns the `p` roots of the derivative of the
Legendre polynomial of degree `k`, augmented with the domain endpoints -1 and 1,
sorted ascending". The roots are taken with their multiplicities; they are
irrational from `p = 4` on (`±1/√5`), so the exact node set is a vector of reals
and not of the rationals that model `double`; Mode A of `ShapeFunctionMatrices`
takes the generator of its rational nodes as a parameter of the same name. -/
noncomputable def GenerateGLLPoints (order : Nat) : List ℝ :=
  Multiset.sort (· ≤ ·)
    ((-1 : ℝ) ::ₘ (1 : ℝ) ::ₘ (Polynomial.derivative (legendre order)).roots)

/-- The distinct roots of a real polynomial that lie in the open interval
`(-1, 1)`. -/
noncomputable def interiorRoots (f : Polynomial ℝ) : Finset ℝ :=
  f.roots.toFinset.filter fun z => -1 < z ∧ z < 1

/-! ## The same functions in binary64 arithmetic -/

/-- A value of the C++ type `double` in IEEE 754 binary64: a finite value (a
rational on the binary64 grid, `+0` included), the negative zero, an infinity or a
NaN. -/
inductive Double where
  | finite (x : ℚ)
  | negzero
  | inf (negative : Bool)
  | nan
  deriving DecidableEq

/-- The power `2^t` for an integer exponent `t`. -/
def twoPow (t : Int) : ℚ :=
  if t < 0 then 1 / ((2 ^ (-t).toNat : Nat) : ℚ) else ((2 ^ t.toNat : Nat) : ℚ)

/-- The integer logarithm `⌊log₂ n⌋` of `n ≥ 1` by halving, at most `fuel` times. -/
def ilog2Fuel : Nat → Nat → Nat
  | 0, _ => 0
  | fuel + 1, n => if n < 2 then 0 else ilog2Fuel fuel (n / 2) + 1

/-- The integer logarithm `⌊log₂ n⌋` of `n ≥ 1`. -/
def ilog2 (n : Nat) : Nat := ilog2Fuel n n

/-- Rounding of a magnitude `mag ≥ 0` to the nearest binary64 magnitude, ties to
even (the default rounding mode): 53 significant bits, least exponent `-1074` of
the last bit (subnormal range), `none` where the rounded value reaches `2^1024`
(overflow). -/
def roundNearestEven (mag : ℚ) : Option ℚ :=
  if mag = 0 then some 0
  else
    let a := mag.num.natAbs
    let b := mag.den
    -- the exponent `e` with `2^e ≤ mag < 2^(e+1)`
    let e0 : Int := (ilog2 a : Int) - (ilog2 b : Int)
    let e : Int := if mag < twoPow e0 then e0 - 1 else e0
    -- the exponent of the last place
    let t : Int := max (e - 52) (-1074)
    -- `mag / 2^t = N / D`
    let N := if t < 0 then a * 2 ^ (-t).toNat else a
    let D := if t < 0 then b else b * 2 ^ t.toNat
    let n := N / D
    let r := N % D
    let n := if D < 2 * r ∨ (2 * r = D ∧ n % 2 = 1) then n + 1 else n
    let v := (n : ℚ) * twoPow t
    if twoPow 1024 ≤ v then none else some v

namespace Double

/-- The sign bit. -/
def signbit : Double → Bool
  | finite x => decide (x < 0)
  | negzero => true
  | inf negative => negative
  | nan => false

/-- The value of a finite double as a rational (`0` for both zeros; `0` also for
the infinities and NaN, which the operations below never pass to it). -/
def toRat : Double → ℚ
  | finite x => x
  | _ => 0

/-- The double with the given sign whose magnitude is the rounding of `mag ≥ 0`. -/
def pack (negative : Bool) (mag : ℚ) : Double :=
  match roundNearestEven mag with
  | none => inf negative
  | some m =>
    if m = 0 then (if negative then negzero else finite 0)
    else finite (if negative then -m else m)

/-- The double nearest to the rational `q`: the value of a decimal literal. -/
def ofRat (q : ℚ) : Double := pack (decide (q < 0)) |q|

/-- Unary minus: flips the sign bit. -/
def neg : Double → Double
  | finite x => if x = 0 then negzero else finite (-x)
  | negzero => finite 0
  | inf negative => inf (!negative)
  | nan => nan

/-- IEEE addition, rounded to nearest. -/
def add : Double → Double → Double
  | nan, _ => nan
  | _, nan => nan
  | inf s, inf t => if s = t then inf s else nan
  | inf s, _ => inf s
  | _, inf t => inf t
  | x, y =>
    let s := x.toRat + y.toRat
    if s = 0 then (if x.signbit && y.signbit then negzero else finite 0)
    else pack (decide (s < 0)) |s|

/-- IEEE subtraction: `x - y = x + (-y)`. -/
def sub (x y : Double) : Double := add x (neg y)

/-- Whether the double is `+0` or `-0`. -/
def isZero : Double → Bool
  | finite x => decide (x = 0)
  | negzero => true
  | _ => false

/-- IEEE multiplication, rounded to nearest. -/
def mul : Double → Double → Double
  | nan, _ => nan
  | _, nan => nan
  | inf s, y => if y.isZero then nan else inf (xor s y.signbit)
  | x, inf t => if x.isZero then nan else inf (xor x.signbit t)
  | x, y => pack (xor x.signbit y.signbit) (|x.toRat| * |y.toRat|)

/-- IEEE division, rounded to nearest. -/
def div : Double → Double → Double
  | nan, _ => nan
  | _, nan => nan
  | inf _, inf _ => nan
  | inf s, y => inf (xor s y.signbit)
  | x, inf t => pack (xor x.signbit t) 0
  | x, y =>
    if y.isZero then (if x.isZero then nan else inf (xor x.signbit y.signbit))
    else pack (xor x.signbit y.signbit) (|x.toRat| / |y.toRat|)

/-- The comparison `x == y` of doubles: false when either operand is NaN, true
for `+0 == -0`. -/
def eq : Double → Double → Bool
  | nan, _ => false
  | _, nan => false
  | inf s, inf t => s == t
  | inf _, _ => false
  | _, inf _ => false
  | x, y => decide (x.toRat = y.toRat)

/-- The comparison `x < y` of doubles: false when either operand is NaN. -/
def lt : Double → Double → Bool
  | nan, _ => false
  | _, nan => false
  | inf s, inf t => s && !t
  | inf s, _ => s
  | _, inf t => !t
  | x, y => decide (x.toRat < y.toRat)

/-- The function `std::abs`: clears the sign bit. -/
def abs : Double → Double
  | finite x => finite |x|
  | negzero => finite 0
  | inf _ => inf false
  | nan => nan

instance : Add Double := ⟨add⟩
instance : Sub Double := ⟨sub⟩
instance : Mul Double := ⟨mul⟩
instance : Div Double := ⟨div⟩
instance : Neg Double := ⟨neg⟩
instance (n : Nat) : OfNat Double n := ⟨ofRat n⟩

end Double

/-- The alias `Matrix = std::vector<std::vector<double>>` over binary64 values. -/
abbrev Matrix64 := List (List Double)

/-- The type `std::array<double, 3>` over binary64 values. -/
abbrev Array64 := Fin 3 → Double

/-- Host `Kokkos::View<double**>` with extents `e0 × e1` over binary64 values. -/
abbrev HostView64 (e0 e1 : Nat) := Fin e0 → Fin e1 → Double

/-- Read `a[d]` of a `std::array<double, 3>`. -/
def arrRead64 (a : Array64) (d : Nat) : Except Fault Double :=
  if h : d < 3 then .ok (a ⟨d, h⟩) else .error .out_of_bounds

/-- Write `a[d] = x` of a `std::array<double, 3>`. -/
def arrWrite64 (a : Array64) (d : Nat) (x : Double) : Except Fault Array64 :=
  if d < 3 then .ok (fun c => if c.val = d then x else a c) else .error .out_of_bounds

/-- A freshly constructed view: all entries `+0`. -/
def viewZeros64 (e0 e1 : Nat) : HostView64 e0 e1 := fun _ _ => 0

/-- Read `V(i, j)`. -/
def viewRead64 {e0 e1 : Nat} (V : HostView64 e0 e1) (i j : Nat) : Except Fault Double :=
  if h : i < e0 ∧ j < e1 then .ok (V ⟨i, h.1⟩ ⟨j, h.2⟩) else .error .out_of_bounds

/-- Write `V(i, j) = x`. -/
def viewWrite64 {e0 e1 : Nat} (V : HostView64 e0 e1) (i j : Nat) (x : Double) :
    Except Fault (HostView64 e0 e1) :=
  if i < e0 ∧ j < e1 then .ok (fun a b => if a.val = i ∧ b.val = j then x else V a b)
  else .error .out_of_bounds

/-- `MapGeometricLocations` (least_squares_fit.hpp, lines 26-43) in binary64
arithmetic: the guard of line 30 is the comparison `==` of doubles and line 40 is
evaluated left to right, each operation rounded. -/
def MapGeometricLocations64 (geom_locations : List Double) : Except Fault (List Double) := do
  let domain_start ← vecRead geom_locations 0
  let domain_end ← vecRead geom_locations (usub geom_locations.length 1)
  if Double.eq domain_end domain_start then
    throw (.invalid_argument "Invalid geometric locations: domain start and end points are equal.")
  let mapped_locations : List Double := List.replicate geom_locations.length 0
  let domain_span := domain_end - domain_start
  forLoop 0 geom_locations.length mapped_locations fun i mapped_locations => do
    let g ← vecRead geom_locations i
    vecWrite mapped_locations i (2 * (g - domain_start) / domain_span - 1)

/-- The expression of line 40 in binary64 arithmetic. -/
def affineImage64 (first last x : Double) : Double := 2 * (x - first) / (last - first) - 1

/-- The type of the external routine `LAPACKE_dgesv` over binary64 values, as
`Dgesv`. -/
abbrev Dgesv64 := (N : Nat) → HostView64 N N → HostView64 N 3 → Int × HostView64 N 3

/-- The system `A` assembled by `PerformLeastSquaresFitting` (lines 141-153) in
binary64 arithmetic: the product and the sum of line 149 are rounded one after
the other. -/
def assembleA64 (p n : Nat) (shape_functions : Matrix64) : Except Fault (HostView64 p p) := do
  let A : HostView64 p p := viewZeros64 p p
  let A ← viewWrite64 A 0 0 1
  let A ← viewWrite64 A (usub p 1) (usub p 1) 1
  forLoop 0 p A fun j A =>
    forLoop 1 (usub p 1) A fun i A => do
      let sum ← forLoop 0 n (0 : Double) fun k sum => do
        let row_i ← vecRead shape_functions i
        let s_ik ← vecRead row_i k
        let row_j ← vecRead shape_functions j
        let s_jk ← vecRead row_j k
        pure (sum + s_ik * s_jk)
      viewWrite64 A i j sum

/-- The right-hand side `B` assembled by `PerformLeastSquaresFitting`
(lines 155-167) in binary64 arithmetic. -/
def assembleB64 (p n : Nat) (shape_functions : Matrix64) (points_to_fit : List Array64) :
    Except Fault (HostView64 p 3) := do
  let B : HostView64 p 3 := viewZeros64 p 3
  let B ← forLoop 0 3 B fun dim B => do
    let first ← vecRead points_to_fit 0
    let c ← arrRead64 first dim
    let B ← viewWrite64 B 0 dim c
    let last ← vecRead points_to_fit (usub n 1)
    let c ← arrRead64 last dim
    viewWrite64 B (usub p 1) dim c
  forLoop 1 (usub p 1) B fun i B =>
    forLoop 0 n B fun k B =>
      forLoop 0 3 B fun dim B => do
        let row_i ← vecRead shape_functions i
        let s_ik ← vecRead row_i k
        let pt ← vecRead points_to_fit k
        let c ← arrRead64 pt dim
        let b ← viewRead64 B i dim
        viewWrite64 B i dim (b + s_ik * c)

/-- The copy of the view `B` into the returned vector (lines 177-185). -/
def copyResult64 (p : Nat) (B : HostView64 p 3) : Except Fault (List Array64) := do
  let result : List Array64 := List.replicate p (fun _ => 0)
  forLoop 0 result.length result fun i result =>
    forLoop 0 3 result fun j result => do
      let b ← viewRead64 B i j
      let r ← vecRead result i
      let r ← arrWrite64 r j b
      vecWrite result i r

/-- `PerformLeastSquaresFitting` (lines 128-186) in binary64 arithmetic. -/
def PerformLeastSquaresFitting64 (dgesv : Dgesv64) (p : Nat) (shape_functions : Matrix64)
    (points_to_fit : List Array64) : Except Fault (List Array64) := do
  if shape_functions.length ≠ p then
    throw (.invalid_argument "shape_functions rows do not match order p.")
  let row0 ← vecRead shape_functions 0
  let n := row0.length
  if shape_functions.any (fun row => row.length ≠ n) then
    throw (.invalid_argument "Inconsistent number of columns in shape_functions.")
  let A ← assembleA64 p n shape_functions
  let B ← assembleB64 p n shape_functions points_to_fit
  let solved := dgesv p A B
  copyResult64 p solved.2

/-- The entry `m[i][k]` of a `Matrix64`, `+0` outside it. -/
def entry64 (m : Matrix64) (i k : Nat) : Double := (m.getD i []).getD k 0

/-- The pivot row of `pivotRow` in binary64 comparisons. -/
def pivotRow64 (rows : Matrix64) (k N : Nat) : Nat :=
  (List.range' k (N - k)).foldl
    (fun r i => if Double.lt (entry64 rows r k).abs (entry64 rows i k).abs then i else r) k

/-- The elimination step of `eliminate` in binary64 arithmetic: one division per
entry of the pivot row, one product and one difference per other entry. -/
def eliminate64 (rows : Matrix64) (k : Nat) : Matrix64 :=
  let pivot := (rows.getD k []).map (fun x => x / entry64 rows k k)
  (List.range rows.length).map fun i =>
    if i = k then pivot
    else List.zipWith (fun x y => x - entry64 rows i k * y) (rows.getD i []) pivot

/-- The step of `gaussStep` in binary64 arithmetic. -/
def gaussStep64 (N : Nat) (st : Int × Matrix64) (k : Nat) : Int × Matrix64 :=
  let r := pivotRow64 st.2 k N
  if Double.eq (entry64 st.2 r k) 0 then (if st.1 = 0 then ((k : Int) + 1, st.2) else st)
  else (st.1, eliminate64 ((st.2.set k (st.2.getD r [])).set r (st.2.getD k [])) k)

/-- Modelled from the spec: the reference instance `dgesvRef` of the external
routine `LAPACKE_dgesv` in binary64 arithmetic (section 6: "a dense linear-system
solver capable of solving `A·X = B` for a square `A` and multi-column `B` via LU
factorization with partial pivoting, reporting failure on a numerically singular
system"). -/
def dgesvRef64 : Dgesv64 := fun N A B =>
  let rows : Matrix64 :=
    List.ofFn fun i : Fin N => List.ofFn (fun j => A i j) ++ List.ofFn (fun d => B i d)
  let st := (List.range N).foldl (gaussStep64 N) ((0 : Int), rows)
  if st.1 = 0 then (0, fun i d => entry64 st.2 i.val (N + d.val)) else (st.1, B)

/-- The values of a matrix of finite doubles, as rationals. -/
def exactMatrix (m : Matrix64) : Matrix := m.map fun row => row.map Double.toRat

/-- The values of a vector of points with finite coordinates, as rationals. -/
def exactPoints (pts : List Array64) : List Array3 := pts.map fun a d => (a d).toRat

/-- The values of a view of finite doubles, as rationals. -/
def exactView {e0 e1 : Nat} (V : HostView64 e0 e1) : HostView e0 e1 := fun i j => (V i j).toRat

/-- A double close to `0.89`: `0x1.c80e838f5p-1`, with 37 significant bits. -/
def diagonal_weight : Double := .finite (122421786869 / 137438953472)

/-- Three times `diagonal_weight`, which is a double as well. -/
def diagonal_sample : Double := .finite (3 * (122421786869 / 137438953472))

/-- A `3 × 3` shape-function matrix: the first and the last column are unit
vectors and the interior node has the weight `diagonal_weight` at the interior sample. -/
def phi_diagonal : Matrix64 := [[1, 0, 0], [0, diagonal_weight, 0], [0, 0, 1]]

/-- Three coefficients. -/
def diagonal_coefficients : List Array64 := [![0, 0, 0], ![3, 3, 3], ![1, 1, 1]]

/-- The samples `s_k = Σ_j Φ[j][k]·c_j` of `diagonal_coefficients` for
`phi_diagonal`: the interior sample is `3·diagonal_weight` in every coordinate. -/
def diagonal_samples : List Array64 := [![0, 0, 0], ![diagonal_sample, diagonal_sample, diagonal_sample], ![1, 1, 1]]

/-- The double `0x1.7ffffffffffffp+1 = 3 - 2^(-51)`, printed `2.9999999999999996`. -/
def below_three : Double := .finite (6755399441055743 / 2251799813685248)

/-! ## Loop rules and tabulated vectors -/

theorem forLoop_done {σ : Type} (lo hi : Nat) (init : σ) (body : Nat → σ → Except Fault σ)
    (h : hi ≤ lo) : forLoop lo hi init body = .ok init := by
  unfold forLoop
  rw [Nat.sub_eq_zero_of_le h]
  rfl

theorem forLoop_step {σ : Type} (lo hi : Nat) (init : σ) (body : Nat → σ → Except Fault σ)
    (h : lo < hi) :
    forLoop lo hi init body = (body lo init >>= fun s => forLoop (lo + 1) hi s body) := by
  unfold forLoop
  obtain ⟨d, hd⟩ : ∃ d, hi - lo = d + 1 := ⟨hi - lo - 1, by omega⟩
  have hd2 : hi - (lo + 1) = d := by omega
  rw [hd, hd2, List.range'_succ, List.foldlM_cons]

theorem forLoop_eq_ok {σ : Type} (F : Nat → σ) (lo hi : Nat) (init : σ)
    (body : Nat → σ → Except Fault σ) (hle : lo ≤ hi) (h0 : F lo = init)
    (hstep : ∀ i, lo ≤ i → i < hi → body i (F i) = .ok (F (i + 1))) :
    forLoop lo hi init body = .ok (F hi) := by
  obtain ⟨d, hd⟩ : ∃ d, hi = lo + d := ⟨hi - lo, by omega⟩
  subst hd
  clear hle
  induction d generalizing lo init with
  | zero => rw [forLoop_done _ _ _ _ (by omega), ← h0]; rfl
  | succ d ih =>
    rw [forLoop_step _ _ _ _ (by omega), ← h0, hstep lo (le_refl _) (by omega)]
    show forLoop (lo + 1) (lo + (d + 1)) (F (lo + 1)) body = _
    have := ih (lo + 1) (F (lo + 1)) rfl (fun i h1 h2 => hstep i (by omega) (by omega))
    rw [show lo + 1 + d = lo + (d + 1) by omega] at this
    exact this

@[simp] theorem length_tab {α : Type} (n : Nat) (g : Nat → α) : (tab n g).length = n := by
  simp [tab]

theorem getElem?_tab {α : Type} (n : Nat) (g : Nat → α) (j : Nat) :
    (tab n g)[j]? = if j < n then some (g j) else none := by
  unfold tab
  by_cases h : j < n
  · simp [h, List.getElem?_range h]
  · simp [h]; omega

@[simp] theorem getElem_tab {α : Type} (n : Nat) (g : Nat → α) (j : Nat)
    (h : j < (tab n g).length) : (tab n g)[j] = g j := by
  simp [tab]

theorem tab_congr {α : Type} (n : Nat) (g g' : Nat → α) (h : ∀ j, j < n → g j = g' j) :
    tab n g = tab n g' := by
  unfold tab
  apply List.map_congr_left
  intro j hj
  exact h j (List.mem_range.mp hj)

theorem replicate_eq_tab {α : Type} (n : Nat) (a : α) : List.replicate n a = tab n (fun _ => a) := by
  apply List.ext_getElem? 
  intro j
  rw [getElem?_tab]
  by_cases h : j < n
  · simp [h, List.getElem?_replicate]
  · simp [h, List.getElem?_replicate]

theorem eq_tab_getD {α : Type} (l : List α) (d : α) : l = tab l.length (fun j => l.getD j d) := by
  apply List.ext_getElem?
  intro j
  rw [getElem?_tab]
  by_cases h : j < l.length
  · simp [h, List.getD_eq_getElem?_getD, List.getElem?_eq_getElem h]
  · simp [h]; omega

theorem vecRead_tab {α : Type} (n : Nat) (g : Nat → α) (j : Nat) (h : j < n) :
    vecRead (tab n g) j = .ok (g j) := by
  simp [vecRead, getElem?_tab, h]

theorem vecRead_ok {α : Type} (l : List α) (d : α) (j : Nat) (h : j < l.length) :
    vecRead l j = .ok (l.getD j d) := by
  simp [vecRead, List.getElem?_eq_getElem h, List.getD_eq_getElem?_getD]

theorem vecRead_fault {α : Type} (l : List α) (j : Nat) (h : l.length ≤ j) :
    vecRead l j = .error .out_of_bounds := by
  simp [vecRead, List.getElem?_eq_none h]

theorem vecWrite_tab {α : Type} (n : Nat) (g : Nat → α) (i : Nat) (x : α) (h : i < n) :
    vecWrite (tab n g) i x = .ok (tab n (fun j => if j = i then x else g j)) := by
  simp only [vecWrite, length_tab, h, if_true]
  congr 1
  apply List.ext_getElem?
  intro j
  rw [getElem?_tab, List.getElem?_set]
  by_cases hj : j < n
  · by_cases hij : i = j
    · subst hij; simp [hj]
    · have : ¬ j = i := fun h => hij h.symm
      simp [hj, hij, this, getElem?_tab]
  · have : ¬ i = j := by omega
    simp [hj, this, getElem?_tab]

theorem getD_tab {α : Type} (n : Nat) (g : Nat → α) (j : Nat) (d : α) (hj : j < n) :
    (tab n g).getD j d = g j := by
  rw [List.getD_eq_getElem?_getD, getElem?_tab, if_pos hj]
  rfl

theorem entry_tab (p n : Nat) (G : Nat → Nat → ℚ) (k j : Nat) (hk : k < p) (hj : j < n) :
    entry (tab p fun a => tab n (G a)) k j = G k j := by
  unfold entry
  rw [getD_tab _ _ _ _ hk, getD_tab _ _ _ _ hj]

theorem rows_tab (p n : Nat) (G : Nat → Nat → ℚ) :
    (tab p fun a => tab n (G a)).length = p ∧
      ∀ row ∈ (tab p fun a => tab n (G a)), row.length = n := by
  refine ⟨length_tab _ _, ?_⟩
  intro row hrow
  unfold tab at hrow
  obtain ⟨a, _, rfl⟩ := List.mem_map.mp hrow
  simp

theorem usub_one (p : Nat) (h : 1 ≤ p) : usub p 1 = p - 1 := by
  simp [usub, h]

theorem vecRead_front (l : List ℚ) (hne : l ≠ []) : vecRead l 0 = .ok (l.head hne) := by
  cases l with
  | nil => exact absurd rfl hne
  | cons a t => simp [vecRead]

theorem vecRead_back (l : List ℚ) (hne : l ≠ []) :
    vecRead l (usub l.length 1) = .ok (l.getLast hne) := by
  have hlen : 1 ≤ l.length := List.length_pos.mpr hne
  rw [usub_one _ hlen]
  have h2 : l.length - 1 < l.length := by omega
  simp [vecRead, List.getElem?_eq_getElem h2, List.getLast_eq_getElem]

theorem MapGeometricLocations_ok (l : List ℚ) (hne : l ≠ [])
    (hdist : l.head hne ≠ l.getLast hne) :
    MapGeometricLocations l = .ok (l.map (affineImage (l.head hne) (l.getLast hne))) := by
  unfold MapGeometricLocations
  rw [vecRead_front l hne, vecRead_back l hne]
  have hd : ¬ l.getLast hne = l.head hne := fun h => hdist h.symm
  simp only [bind, Except.bind, hd, if_false, pure, Except.pure]
  set f := affineImage (l.head hne) (l.getLast hne) with hf
  refine (forLoop_eq_ok
    (fun i => tab l.length (fun j => if j < i then f (l.getD j 0) else 0)) 0 l.length
    _ _ (Nat.zero_le _) (by simp [replicate_eq_tab]) ?_).trans ?_
  · intro i _ hi
    simp only [vecRead_ok l 0 i hi]
    rw [vecWrite_tab _ _ _ _ hi]
    congr 1
    apply tab_congr
    intro j _
    by_cases h1 : j = i
    · subst h1; simp [hf, affineImage]
    · by_cases h2 : j < i
      · have : j < i + 1 := by omega
        simp [h1, h2, this]
      · have : ¬ j < i + 1 := by omega
        simp [h1, h2, this]
  congr 1
  conv_rhs => rw [eq_tab_getD l 0]
  unfold tab
  rw [List.map_map]
  apply List.map_congr_left
  intro j hj
  simp [List.mem_range.mp hj]

/-! ## `MapGeometricLocations` -/

theorem MapGeometricLocations_degenerate (l : List ℚ) (hne : l ≠ [])
    (heq : l.head hne = l.getLast hne) :
    MapGeometricLocations l = .error (.invalid_argument
      "Invalid geometric locations: domain start and end points are equal.") := by
  unfold MapGeometricLocations
  rw [vecRead_front l hne, vecRead_back l hne]
  simp only [bind, Except.bind, heq, if_true]

/-- C2: for every non-empty sequence of locations whose first and last elements
differ, `MapGeometricLocations` returns a sequence of the same length whose `i`-th
element is `2*(loc[i]-first)/(last-first) - 1`; its first element is `-1` and its
last element is `1`. -/
theorem MapGeometricLocations_formula (l : List ℚ) (hne : l ≠ [])
    (hdist : l.head hne ≠ l.getLast hne) :
    ∃ r, MapGeometricLocations l = .ok r ∧ r.length = l.length ∧
      (∀ i (hi : i < l.length),
        r[i]? = some (2 * (l[i] - l.head hne) / (l.getLast hne - l.head hne) - 1)) ∧
      r.head? = some (-1) ∧ r.getLast? = some 1 := by
  have hsub : l.getLast hne - l.head hne ≠ 0 := fun h => hdist (sub_eq_zero.mp h).symm
  refine ⟨_, MapGeometricLocations_ok l hne hdist, by simp, ?_, ?_, ?_⟩
  · intro i hi
    simp [affineImage, List.getElem?_eq_getElem hi]
  · rw [List.head?_map, List.head?_eq_head hne]
    simp [affineImage]
  · rw [List.getLast?_map, List.getLast?_eq_getLast l hne]
    simp only [Option.map_some', affineImage, Option.some.injEq]
    field_simp
    ring

/-- The test `MapGeometricLocations_PositiveRange`: `{0, 2.5, 5}` maps to
`{-1, 0, 1}`. -/
theorem MapGeometricLocations_formula_witness :
    ∃ r, MapGeometricLocations [0, 5 / 2, 5] = .ok r ∧ r.length = 3 ∧
      r[0]? = some (-1 : ℚ) ∧ r[1]? = some (0 : ℚ) ∧ r[2]? = some (1 : ℚ) := by
  obtain ⟨r, h, hlen, hi, _, _⟩ :=
    MapGeometricLocations_formula [0, 5 / 2, 5] (by simp) (by norm_num)
  refine ⟨r, h, hlen, ?_, ?_, ?_⟩
  · rw [hi 0 (by simp)]; norm_num
  · rw [hi 1 (by simp)]; norm_num
  · rw [hi 2 (by simp)]; norm_num

/-- Over exact arithmetic, where no value is a NaN: for a non-empty input,
`MapGeometricLocations` raises the invalid-argument error exactly when the first
and last locations are equal, and returns normally exactly when they differ; in
particular every single-point input is rejected. -/
theorem MapGeometricLocations_error_iff (l : List ℚ) (hne : l ≠ []) :
    ((∃ what, MapGeometricLocations l = .error (.invalid_argument what)) ↔
        l.head hne = l.getLast hne) ∧
    ((∃ r, MapGeometricLocations l = .ok r) ↔ l.head hne ≠ l.getLast hne) ∧
    (l.length = 1 → ∃ what, MapGeometricLocations l = .error (.invalid_argument what)) := by
  refine ⟨⟨?_, ?_⟩, ⟨?_, ?_⟩, ?_⟩
  · rintro ⟨what, h⟩
    by_contra hd
    rw [MapGeometricLocations_ok l hne hd] at h
    exact absurd h (by simp)
  · intro h
    exact ⟨_, MapGeometricLocations_degenerate l hne h⟩
  · rintro ⟨r, h⟩ heq
    rw [MapGeometricLocations_degenerate l hne heq] at h
    exact absurd h (by simp)
  · intro h
    exact ⟨_, MapGeometricLocations_ok l hne h⟩
  · intro h1
    refine ⟨_, MapGeometricLocations_degenerate l hne ?_⟩
    match l, h1 with
    | [a], _ => rfl

/-- The test `MapGeometricLocations_InvalidInput`: `{1, 1}` is rejected, and so is
the single point `{3}`, while `{0, 2.5, 5}` returns normally. -/
theorem MapGeometricLocations_error_iff_witness :
    (∃ what, MapGeometricLocations [1, 1] = .error (.invalid_argument what)) ∧
    (∃ what, MapGeometricLocations [3] = .error (.invalid_argument what)) ∧
    (∃ r, MapGeometricLocations [0, 5 / 2, 5] = .ok r) :=
  ⟨(MapGeometricLocations_error_iff [1, 1] (by simp)).1.2 (by simp),
   (MapGeometricLocations_error_iff [3] (by simp)).2.2 (by simp),
   (MapGeometricLocations_error_iff [0, 5 / 2, 5] (by simp)).2.1.2 (by norm_num)⟩

/-! ## The binary64 model -/

theorem ilog2Fuel_spec (fuel n : Nat) (h1 : 1 ≤ n) (hf : n ≤ fuel) :
    2 ^ ilog2Fuel fuel n ≤ n ∧ n < 2 ^ (ilog2Fuel fuel n + 1) := by
  induction fuel generalizing n with
  | zero => omega
  | succ fuel ih =>
    unfold ilog2Fuel
    by_cases h : n < 2
    · rw [if_pos h]
      constructor
      · simpa using h1
      · simpa using h
    · rw [if_neg h]
      obtain ⟨ha, hb⟩ := ih (n / 2) (by omega) (by omega)
      constructor
      · rw [pow_succ]
        omega
      · rw [pow_succ]
        omega

/-- The exponent that the rounding uses is the integer logarithm:
`2^(ilog2 n) ≤ n < 2^(ilog2 n + 1)` for every `n ≥ 1`. -/
theorem ilog2_spec (n : Nat) (h1 : 1 ≤ n) : 2 ^ ilog2 n ≤ n ∧ n < 2 ^ (ilog2 n + 1) :=
  ilog2Fuel_spec n n h1 le_rfl

theorem twoPow_eq (t : Int) : twoPow t = (2 : ℚ) ^ t := by
  unfold twoPow
  by_cases h : t < 0
  · rw [if_pos h]
    have : t = -((-t).toNat : Int) := by
      rw [Int.toNat_of_nonneg (by omega)]
      omega
    conv_rhs => rw [this]
    rw [zpow_neg, zpow_natCast]
    push_cast
    rw [one_div]
  · rw [if_neg h]
    have : t = (t.toNat : Int) := by
      rw [Int.toNat_of_nonneg (by omega)]
    conv_rhs => rw [this]
    rw [zpow_natCast]
    push_cast
    rfl

/-- The exponent of a positive rational `a / b` from the integer logarithms of
`a` and `b`. -/
theorem exponent_bounds (a b : Nat) (ha : 1 ≤ a) (hb : 1 ≤ b) :
    (2 : ℚ) ^ ((ilog2 a : Int) - (ilog2 b : Int) - 1) < (a : ℚ) / b ∧
      (a : ℚ) / b < (2 : ℚ) ^ ((ilog2 a : Int) - (ilog2 b : Int) + 1) := by
  obtain ⟨a1, a2⟩ := ilog2_spec a ha
  obtain ⟨b1, b2⟩ := ilog2_spec b hb
  have hbpos : (0 : ℚ) < b := by exact_mod_cast hb
  have a1' : (2 : ℚ) ^ (ilog2 a) ≤ a := by exact_mod_cast a1
  have a2' : (a : ℚ) < 2 ^ (ilog2 a + 1) := by exact_mod_cast a2
  have b1' : (2 : ℚ) ^ (ilog2 b) ≤ b := by exact_mod_cast b1
  have b2' : (b : ℚ) < 2 ^ (ilog2 b + 1) := by exact_mod_cast b2
  have h2 : (2 : ℚ) ≠ 0 := by norm_num
  constructor
  · rw [lt_div_iff₀ hbpos]
    have e1 : (2 : ℚ) ^ ((ilog2 a : Int) - (ilog2 b : Int) - 1) * 2 ^ (ilog2 b + 1) =
        2 ^ (ilog2 a) := by
      rw [← zpow_natCast, ← zpow_natCast, ← zpow_add₀ h2]
      congr 1
      push_cast
      ring
    have hpos : (0 : ℚ) < (2 : ℚ) ^ ((ilog2 a : Int) - (ilog2 b : Int) - 1) := by positivity
    calc (2 : ℚ) ^ ((ilog2 a : Int) - (ilog2 b : Int) - 1) * b
        < (2 : ℚ) ^ ((ilog2 a : Int) - (ilog2 b : Int) - 1) * 2 ^ (ilog2 b + 1) :=
          mul_lt_mul_of_pos_left b2' hpos
      _ = 2 ^ (ilog2 a) := e1
      _ ≤ a := a1'
  · rw [div_lt_iff₀ hbpos]
    have e1 : (2 : ℚ) ^ ((ilog2 a : Int) - (ilog2 b : Int) + 1) * 2 ^ (ilog2 b) =
        2 ^ (ilog2 a + 1) := by
      rw [← zpow_natCast, ← zpow_natCast, ← zpow_add₀ h2]
      congr 1
      push_cast
      ring
    have hpos : (0 : ℚ) < (2 : ℚ) ^ ((ilog2 a : Int) - (ilog2 b : Int) + 1) := by positivity
    calc (a : ℚ) < 2 ^ (ilog2 a + 1) := a2'
      _ = (2 : ℚ) ^ ((ilog2 a : Int) - (ilog2 b : Int) + 1) * 2 ^ (ilog2 b) := e1.symm
      _ ≤ (2 : ℚ) ^ ((ilog2 a : Int) - (ilog2 b : Int) + 1) * b :=
          mul_le_mul_of_nonneg_left b1' (le_of_lt hpos)

/-- Rounding a quotient of naturals to the nearest natural, ties to even: the
error is at most one half, and in a tie the result is even. -/
theorem nearest_even (N D n : Nat) (hD : 0 < D)
    (hn : n = if D < 2 * (N % D) ∨ (2 * (N % D) = D ∧ N / D % 2 = 1) then N / D + 1
      else N / D) :
    |(n : ℚ) - (N : ℚ) / D| ≤ 1 / 2 ∧ (|(n : ℚ) - (N : ℚ) / D| = 1 / 2 → n % 2 = 0) := by
  have hDq : (0 : ℚ) < D := by exact_mod_cast hD
  have hmod : N % D < D := Nat.mod_lt N hD
  have hN : (N : ℚ) = D * (N / D : Nat) + (N % D : Nat) := by
    exact_mod_cast (Nat.div_add_mod N D).symm
  have hr : ((N % D : Nat) : ℚ) < D := by exact_mod_cast hmod
  have hr0 : (0 : ℚ) ≤ ((N % D : Nat) : ℚ) := by positivity
  by_cases hc : D < 2 * (N % D) ∨ (2 * (N % D) = D ∧ N / D % 2 = 1)
  · rw [if_pos hc] at hn
    have hval : (n : ℚ) - (N : ℚ) / D = (D - (N % D : Nat)) / D := by
      rw [hn]
      push_cast
      field_simp
      linarith
    have hnonneg : (0 : ℚ) ≤ (D - (N % D : Nat)) / D := by
      apply div_nonneg _ (le_of_lt hDq)
      linarith
    rw [hval, abs_of_nonneg hnonneg]
    rcases hc with h1 | ⟨h1, h2⟩
    · have h1' : (D : ℚ) < 2 * (N % D : Nat) := by exact_mod_cast h1
      constructor
      · rw [div_le_iff₀ hDq]
        linarith
      · intro h
        rw [div_eq_iff (ne_of_gt hDq)] at h
        linarith
    · have h1' : (2 : ℚ) * (N % D : Nat) = D := by exact_mod_cast h1
      constructor
      · rw [div_le_iff₀ hDq]
        linarith
      · intro _
        rw [hn]
        omega
  · rw [if_neg hc] at hn
    have hval : (n : ℚ) - (N : ℚ) / D = -((N % D : Nat) / D) := by
      rw [hn]
      field_simp
      linarith
    have hnonneg : (0 : ℚ) ≤ ((N % D : Nat) : ℚ) / D := div_nonneg hr0 (le_of_lt hDq)
    rw [hval, abs_neg, abs_of_nonneg hnonneg]
    have h1 : 2 * (N % D) ≤ D := by
      by_contra h
      exact hc (Or.inl (by omega))
    have h1' : (2 : ℚ) * (N % D : Nat) ≤ D := by exact_mod_cast h1
    constructor
    · rw [div_le_iff₀ hDq]
      linarith
    · intro h
      rw [div_eq_iff (ne_of_gt hDq)] at h
      have h2 : (2 : ℚ) * (N % D : Nat) = D := by linarith
      have h3 : 2 * (N % D) = D := by exact_mod_cast h2
      have h4 : ¬ N / D % 2 = 1 := fun h5 => hc (Or.inr ⟨h3, h5⟩)
      rw [hn]
      omega

/-- The rounding is round-to-nearest, ties to even, in binary64: for a magnitude
`2^e ≤ mag < 2^(e+1)` the unit in the last place is `u = 2^max(e - 52, -1074)`, and
the result is the multiple `n·u` nearest to `mag`, with `n` even in a tie, or the
overflow when `n·u` reaches `2^1024`. -/
theorem roundNearestEven_spec (mag : ℚ) (hpos : 0 < mag) :
    ∃ (e : Int) (n : Nat),
      (2 : ℚ) ^ e ≤ mag ∧ mag < (2 : ℚ) ^ (e + 1) ∧
      |(n : ℚ) * 2 ^ (max (e - 52) (-1074)) - mag| ≤ 2 ^ (max (e - 52) (-1074)) / 2 ∧
      (|(n : ℚ) * 2 ^ (max (e - 52) (-1074)) - mag| = 2 ^ (max (e - 52) (-1074)) / 2 →
        n % 2 = 0) ∧
      roundNearestEven mag =
        if (2 : ℚ) ^ (1024 : Int) ≤ (n : ℚ) * 2 ^ (max (e - 52) (-1074)) then none
        else some ((n : ℚ) * 2 ^ (max (e - 52) (-1074))) := by
  have hne : mag ≠ 0 := ne_of_gt hpos
  have hnum : 0 < mag.num := Rat.num_pos.mpr hpos
  have ha : 1 ≤ mag.num.natAbs := by omega
  have hb : 1 ≤ mag.den := mag.den_pos
  have hmag : mag = (mag.num.natAbs : ℚ) / mag.den := by
    have h2 : (mag.num.natAbs : ℚ) = mag.num := by
      rw [Nat.cast_natAbs, abs_of_pos hnum]
    rw [h2]
    exact (Rat.num_div_den mag).symm
  obtain ⟨hlo, hhi⟩ := exponent_bounds mag.num.natAbs mag.den ha hb
  rw [← hmag] at hlo hhi
  unfold roundNearestEven
  rw [if_neg hne]
  dsimp only
  obtain ⟨e0, he0⟩ : ∃ e0 : Int, e0 = (ilog2 mag.num.natAbs : Int) - (ilog2 mag.den : Int) :=
    ⟨_, rfl⟩
  rw [← he0] at hlo hhi ⊢
  obtain ⟨e, he⟩ : ∃ e : Int, e = if mag < twoPow e0 then e0 - 1 else e0 := ⟨_, rfl⟩
  rw [← he]
  have hebounds : (2 : ℚ) ^ e ≤ mag ∧ mag < (2 : ℚ) ^ (e + 1) := by
    by_cases h : mag < twoPow e0
    · rw [if_pos h] at he
      rw [twoPow_eq] at h
      rw [he]
      refine ⟨le_of_lt hlo, ?_⟩
      have : e0 - 1 + 1 = e0 := by ring
      rw [this]
      exact h
    · rw [if_neg h] at he
      rw [twoPow_eq] at h
      rw [he]
      exact ⟨not_lt.mp h, hhi⟩
  obtain ⟨t, ht⟩ : ∃ t : Int, t = max (e - 52) (-1074) := ⟨_, rfl⟩
  rw [← ht]
  obtain ⟨N, hN⟩ : ∃ N : Nat, N = if t < 0 then mag.num.natAbs * 2 ^ (-t).toNat
      else mag.num.natAbs := ⟨_, rfl⟩
  obtain ⟨D, hD⟩ : ∃ D : Nat, D = if t < 0 then mag.den else mag.den * 2 ^ t.toNat :=
    ⟨_, rfl⟩
  rw [← hN, ← hD]
  obtain ⟨n, hn⟩ : ∃ n : Nat, n = if D < 2 * (N % D) ∨ (2 * (N % D) = D ∧ N / D % 2 = 1)
      then N / D + 1 else N / D := ⟨_, rfl⟩
  rw [← hn, twoPow_eq, twoPow_eq]
  have h2 : (2 : ℚ) ≠ 0 := by norm_num
  have hDpos : 0 < D := by
    rw [hD]
    split_ifs
    · exact hb
    · positivity
  have hDq : (0 : ℚ) < D := by exact_mod_cast hDpos
  have hupos : (0 : ℚ) < 2 ^ t := by positivity
  have hquot : (N : ℚ) / D = mag / 2 ^ t := by
    rw [hN, hD]
    by_cases h : t < 0
    · rw [if_pos h, if_pos h]
      have : t = -((-t).toNat : Int) := by
        rw [Int.toNat_of_nonneg (by omega)]
        omega
      conv_rhs => rw [this, zpow_neg, zpow_natCast, hmag]
      push_cast
      field_simp
    · rw [if_neg h, if_neg h]
      have : t = (t.toNat : Int) := by
        rw [Int.toNat_of_nonneg (by omega)]
      conv_rhs => rw [this, zpow_natCast, hmag]
      push_cast
      field_simp
  obtain ⟨hnear, htie⟩ := nearest_even N D n hDpos hn
  have herr : (n : ℚ) * 2 ^ t - mag = 2 ^ t * ((n : ℚ) - (N : ℚ) / D) := by
    rw [hquot]
    field_simp
  have habs : |(n : ℚ) * 2 ^ t - mag| = 2 ^ t * |(n : ℚ) - (N : ℚ) / D| := by
    rw [herr, abs_mul, abs_of_pos hupos]
  refine ⟨e, n, hebounds.1, hebounds.2, ?_, ?_, ?_⟩
  · rw [← ht, habs]
    calc 2 ^ t * |(n : ℚ) - (N : ℚ) / D| ≤ 2 ^ t * (1 / 2) :=
          mul_le_mul_of_nonneg_left hnear (le_of_lt hupos)
      _ = 2 ^ t / 2 := by ring
  · rw [← ht, habs]
    intro h
    apply htie
    have : 2 ^ t * |(n : ℚ) - (N : ℚ) / D| = 2 ^ t * (1 / 2) := by
      rw [h]
      ring
    exact mul_left_cancel₀ (ne_of_gt hupos) this
  · rw [← ht]

/-- Known values of binary64 arithmetic: the literal `0.1`, the sum
`0.1 + 0.2 = 0.30000000000000004`, `1/3`, the largest finite double and the
overflow above it, the smallest subnormal and the underflow of its half to zero
(a tie, rounded to even), the signed zeros, the infinities and NaN. -/
theorem Double.known_values :
    Double.ofRat (1 / 10) = .finite (3602879701896397 / 36028797018963968) ∧
    Double.ofRat (1 / 10) + Double.ofRat (2 / 10) =
      .finite (1351079888211149 / 4503599627370496) ∧
    (1 : Double) / 3 = .finite (6004799503160661 / 18014398509481984) ∧
    Double.ofRat (2 ^ 1024 - 2 ^ 971) = .finite (2 ^ 1024 - 2 ^ 971) ∧
    Double.ofRat (2 ^ 1024 - 2 ^ 971) + Double.ofRat (2 ^ 970) = .inf false ∧
    Double.ofRat (2 ^ 1024 - 2 ^ 971) + Double.ofRat (2 ^ 969) =
      .finite (2 ^ 1024 - 2 ^ 971) ∧
    Double.ofRat (1 / 2 ^ 1074) = .finite (1 / 2 ^ 1074) ∧
    Double.ofRat (1 / 2 ^ 1074) / 2 = .finite 0 ∧
    Double.ofRat (3 / 2 ^ 1074) / 2 = .finite (2 / 2 ^ 1074) ∧
    -Double.ofRat (1 / 2 ^ 1074) / 2 = .negzero ∧
    (1 : Double) + Double.ofRat (1 / 2 ^ 53) = 1 ∧
    (1 : Double) + Double.ofRat (3 / 2 ^ 53) = .finite (1 + 1 / 2 ^ 51) ∧
    (1 : Double) / 0 = .inf false ∧ (-1 : Double) / 0 = .inf true ∧
    (0 : Double) / 0 = .nan ∧ Double.inf false - Double.inf false = .nan ∧
    Double.inf false * 0 = .nan ∧ (0 : Double) * (-1) = .negzero ∧
    Double.eq 0 .negzero = true ∧ Double.eq .nan .nan = false := by
  refine ⟨?_, ?_, ?_, ?_, ?_, ?_, ?_, ?_, ?_, ?_, ?_, ?_, ?_, ?_, ?_, ?_, ?_, ?_, ?_, ?_⟩ <;>
    decide!

/-! ## `MapGeometricLocations` in binary64 arithmetic -/

theorem vecRead_head {α : Type} (l : List α) (hne : l ≠ []) :
    vecRead l 0 = .ok (l.head hne) := by
  cases l with
  | nil => exact absurd rfl hne
  | cons a t => simp [vecRead]

theorem vecRead_last {α : Type} (l : List α) (hne : l ≠ []) :
    vecRead l (usub l.length 1) = .ok (l.getLast hne) := by
  have hlen : 1 ≤ l.length := List.length_pos.mpr hne
  rw [usub_one _ hlen]
  have h2 : l.length - 1 < l.length := by omega
  simp [vecRead, List.getElem?_eq_getElem h2, List.getLast_eq_getElem]

/-- A double other than NaN compares equal to itself. -/
theorem Double.eq_self (x : Double) (h : x ≠ .nan) : Double.eq x x = true := by
  cases x with
  | finite q => simp [Double.eq]
  | negzero => simp [Double.eq]
  | inf s => simp [Double.eq]
  | nan => exact absurd rfl h

/-- When the guard of line 30 holds, the function throws. -/
theorem MapGeometricLocations64_degenerate (l : List Double) (hne : l ≠ [])
    (heq : Double.eq (l.getLast hne) (l.head hne) = true) :
    MapGeometricLocations64 l = .error (.invalid_argument
      "Invalid geometric locations: domain start and end points are equal.") := by
  unfold MapGeometricLocations64
  rw [vecRead_head l hne, vecRead_last l hne]
  simp only [bind, Except.bind, heq, if_true]

/-- When the guard of line 30 does not hold, the loop runs to its end: the result
is the image of the input under the expression of line 40. -/
theorem MapGeometricLocations64_ok (l : List Double) (hne : l ≠ [])
    (hd : Double.eq (l.getLast hne) (l.head hne) = false) :
    MapGeometricLocations64 l =
      .ok (l.map (affineImage64 (l.head hne) (l.getLast hne))) := by
  unfold MapGeometricLocations64
  rw [vecRead_head l hne, vecRead_last l hne]
  simp only [bind, Except.bind, hd, pure, Except.pure]
  set f := affineImage64 (l.head hne) (l.getLast hne) with hf
  refine (forLoop_eq_ok
    (fun i => tab l.length (fun j => if j < i then f (l.getD j 0) else 0)) 0 l.length
    _ _ (Nat.zero_le _) (by simp [replicate_eq_tab]) ?_).trans ?_
  · intro i _ hi
    simp only [vecRead_ok l 0 i hi]
    rw [vecWrite_tab _ _ _ _ hi]
    congr 1
    apply tab_congr
    intro j _
    by_cases h1 : j = i
    · subst h1; simp [hf, affineImage64]
    · by_cases h2 : j < i
      · have : j < i + 1 := by omega
        simp [h1, h2, this]
      · have : ¬ j < i + 1 := by omega
        simp [h1, h2, this]
  congr 1
  conv_rhs => rw [eq_tab_getD l 0]
  unfold tab
  rw [List.map_map]
  apply List.map_congr_left
  intro j hj
  simp [List.mem_range.mp hj]

/-- C3, as stated, fails: the single-point input `{NaN}` is not rejected. The
comparison `NaN == NaN` of line 30 is false, so the guard does not fire and the
function returns `{NaN}`. -/
theorem MapGeometricLocations64_single_nan :
    MapGeometricLocations64 [Double.nan] = .ok [Double.nan] ∧
    ¬ ∃ what, MapGeometricLocations64 [Double.nan] = .error (.invalid_argument what) := by
  have h : MapGeometricLocations64 [Double.nan] = .ok [Double.nan] := by decide!
  refine ⟨h, ?_⟩
  rintro ⟨what, hw⟩
  rw [h] at hw
  cases hw

/-- C3, amended: for a non-empty input of doubles, `MapGeometricLocations` raises
the invalid-argument error exactly when the comparison `back() == front()` of
line 30 holds, and returns normally, with as many values as locations, exactly
when it does not; so every single-point input other than `{NaN}` is rejected. -/
theorem MapGeometricLocations64_error_iff (l : List Double) (hne : l ≠ []) :
    ((∃ what, MapGeometricLocations64 l = .error (.invalid_argument what)) ↔
        Double.eq (l.getLast hne) (l.head hne) = true) ∧
    ((∃ r, MapGeometricLocations64 l = .ok r ∧ r.length = l.length) ↔
        Double.eq (l.getLast hne) (l.head hne) = false) ∧
    (∀ x, l = [x] → x ≠ Double.nan →
      ∃ what, MapGeometricLocations64 l = .error (.invalid_argument what)) := by
  refine ⟨⟨?_, ?_⟩, ⟨?_, ?_⟩, ?_⟩
  · rintro ⟨what, h⟩
    by_contra hd
    rw [MapGeometricLocations64_ok l hne (by simpa using hd)] at h
    cases h
  · intro h
    exact ⟨_, MapGeometricLocations64_degenerate l hne h⟩
  · rintro ⟨r, h, _⟩
    by_contra hd
    rw [MapGeometricLocations64_degenerate l hne (by simpa using hd)] at h
    cases h
  · intro h
    exact ⟨_, MapGeometricLocations64_ok l hne h, by simp⟩
  · intro x hx hnan
    subst hx
    exact ⟨_, MapGeometricLocations64_degenerate [x] hne (Double.eq_self x hnan)⟩

/-- The test `MapGeometricLocations_InvalidInput` in binary64: `{1, 1}` is
rejected, and so are the single points `{3}` and `{+inf}`, while `{0, 2.5, 5}`
returns three values. -/
theorem MapGeometricLocations64_error_iff_witness :
    (∃ what, MapGeometricLocations64 [1, 1] = .error (.invalid_argument what)) ∧
    (∃ what, MapGeometricLocations64 [3] = .error (.invalid_argument what)) ∧
    (∃ what, MapGeometricLocations64 [Double.inf false] = .error (.invalid_argument what)) ∧
    (∃ r, MapGeometricLocations64 [0, Double.ofRat (5 / 2), 5] = .ok r ∧ r.length = 3) :=
  ⟨(MapGeometricLocations64_error_iff [1, 1] (by simp)).1.2 (by decide!),
   (MapGeometricLocations64_error_iff [3] (by simp)).2.2 3 rfl (by decide!),
   (MapGeometricLocations64_error_iff [Double.inf false] (by simp)).2.2 _ rfl (by simp),
   (MapGeometricLocations64_error_iff [0, Double.ofRat (5 / 2), 5] (by simp)).2.1.2
     (by decide!)⟩

/-! ## `PerformLeastSquaresFitting`: what the assembly loops compute -/

theorem ok_bind {α β : Type} (a : α) (f : α → Except Fault β) :
    (Except.ok a >>= f) = f a := rfl

theorem viewWrite_ok {e0 e1 : Nat} (V : HostView e0 e1) (i j : Nat) (x : ℚ)
    (hi : i < e0) (hj : j < e1) :
    viewWrite V i j x = .ok (fun a b => if a.val = i ∧ b.val = j then x else V a b) := by
  simp [viewWrite, hi, hj]

theorem viewRead_ok {e0 e1 : Nat} (V : HostView e0 e1) (i j : Nat)
    (hi : i < e0) (hj : j < e1) : viewRead V i j = .ok (V ⟨i, hi⟩ ⟨j, hj⟩) := by
  simp [viewRead, hi, hj]

theorem arrRead_ok (a : Array3) (d : Nat) (h : d < 3) : arrRead a d = .ok (a ⟨d, h⟩) := by
  simp [arrRead, h]

theorem vecRead_row (m : Matrix) (n i : Nat) (hi : i < m.length)
    (hcols : ∀ row ∈ m, row.length = n) :
    vecRead m i = .ok (m.getD i []) ∧ (m.getD i []).length = n := by
  refine ⟨vecRead_ok m [] i hi, ?_⟩
  apply hcols
  rw [List.getD_eq_getElem _ _ hi]
  exact List.getElem_mem hi

/-- The inner accumulation loop of `assembleA` (lines 147-150). -/
theorem gram_loop (m : Matrix) (n i j : Nat) (hi : i < m.length) (hj : j < m.length)
    (hcols : ∀ row ∈ m, row.length = n) :
    (forLoop 0 n (0 : ℚ) fun k sum => do
        let row_i ← vecRead m i
        let s_ik ← vecRead row_i k
        let row_j ← vecRead m j
        let s_jk ← vecRead row_j k
        pure (sum + s_ik * s_jk)) =
      .ok (∑ k in Finset.range n, entry m i k * entry m j k) := by
  refine forLoop_eq_ok (fun t => ∑ k in Finset.range t, entry m i k * entry m j k) 0 n _ _
    (Nat.zero_le _) (by simp) ?_
  intro k _ hk
  obtain ⟨h1, h2⟩ := vecRead_row m n i hi hcols
  obtain ⟨h3, h4⟩ := vecRead_row m n j hj hcols
  simp only [h1, h3, bind, Except.bind, vecRead_ok _ (0 : ℚ) k (show k < (m.getD i []).length by omega),
    vecRead_ok _ (0 : ℚ) k (show k < (m.getD j []).length by omega), pure, Except.pure]
  rw [Finset.sum_range_succ]
  rfl

/-- The loops of lines 142-153 leave the closed form `systemA` in `A`. -/
theorem assembleA_ok (p n : Nat) (m : Matrix) (hp : 1 ≤ p) (hrows : m.length = p)
    (hcols : ∀ row ∈ m, row.length = n) : assembleA p n m = .ok (systemA p n m) := by
  unfold assembleA
  dsimp only
  rw [viewWrite_ok _ 0 0 1 (by omega) (by omega), ok_bind, usub_one p hp,
    viewWrite_ok _ (p - 1) (p - 1) 1 (by omega) (by omega), ok_bind]
  -- the state after the columns `b < j` of the interior rows have been filled
  refine (forLoop_eq_ok (fun j => (fun a b =>
      if 1 ≤ a.val ∧ a.val < p - 1 ∧ b.val < j then
        ∑ k in Finset.range n, entry m a.val k * entry m b.val k
      else if a.val = b.val ∧ (a.val = 0 ∨ a.val = p - 1) then 1 else 0 : HostView p p))
    0 p _ _ (Nat.zero_le _) ?_ ?_).trans ?_
  · funext a b
    simp only [viewZeros, Nat.not_lt_zero, and_false, if_false]
    by_cases h1 : a.val = p - 1 ∧ b.val = p - 1
    · simp [h1.1, h1.2]
    · by_cases h2 : a.val = 0 ∧ b.val = 0
      · simp [h2.1, h2.2]
      · simp only [h1, h2, if_false]
        rw [if_neg]
        rintro ⟨hab, h0 | h0⟩
        · exact h2 ⟨h0, by omega⟩
        · exact h1 ⟨h0, by omega⟩
  · intro j _ hj
    by_cases hp2 : p - 1 ≤ 1
    · rw [forLoop_done _ _ _ _ hp2]
      congr 1
      funext a b
      have : ¬ (1 ≤ a.val ∧ a.val < p - 1) := by omega
      have h1 : ¬ (1 ≤ a.val ∧ a.val < p - 1 ∧ b.val < j) := fun h => this ⟨h.1, h.2.1⟩
      have h2 : ¬ (1 ≤ a.val ∧ a.val < p - 1 ∧ b.val < j + 1) := fun h => this ⟨h.1, h.2.1⟩
      simp only [h1, h2, if_false]
    · refine (forLoop_eq_ok (fun i => (fun a b =>
          if 1 ≤ a.val ∧ a.val < p - 1 ∧ (b.val < j ∨ (b.val = j ∧ a.val < i)) then
            ∑ k in Finset.range n, entry m a.val k * entry m b.val k
          else if a.val = b.val ∧ (a.val = 0 ∨ a.val = p - 1) then 1 else 0 : HostView p p))
        1 (p - 1) _ _ (by omega) ?_ ?_).trans ?_
      · funext a b
        have : (1 ≤ a.val ∧ a.val < p - 1 ∧ (b.val < j ∨ (b.val = j ∧ a.val < 1))) ↔
            (1 ≤ a.val ∧ a.val < p - 1 ∧ b.val < j) := by omega
        simp only [this]
      · intro i hi1 hi2
        rw [gram_loop m n i j (by omega) (by omega) hcols, ok_bind,
          viewWrite_ok _ i j _ (by omega) (by omega)]
        congr 1
        funext a b
        by_cases hab : a.val = i ∧ b.val = j
        · have : 1 ≤ a.val ∧ a.val < p - 1 ∧ (b.val < j ∨ (b.val = j ∧ a.val < i + 1)) := by omega
          beta_reduce
          rw [if_pos hab, if_pos this, hab.1, hab.2]
        · have : (1 ≤ a.val ∧ a.val < p - 1 ∧ (b.val < j ∨ (b.val = j ∧ a.val < i + 1))) ↔
              (1 ≤ a.val ∧ a.val < p - 1 ∧ (b.val < j ∨ (b.val = j ∧ a.val < i))) := by omega
          simp only [hab, if_false, this]
      · congr 1
        funext a b
        have : (1 ≤ a.val ∧ a.val < p - 1 ∧ (b.val < j ∨ (b.val = j ∧ a.val < p - 1))) ↔
            (1 ≤ a.val ∧ a.val < p - 1 ∧ b.val < j + 1) := by omega
        simp only [this]
  · congr 1
    funext a b
    unfold systemA
    have hb := b.isLt
    by_cases h : 1 ≤ a.val ∧ a.val < p - 1
    · have : 1 ≤ a.val ∧ a.val < p - 1 ∧ b.val < p := ⟨h.1, h.2, hb⟩
      simp only [h, this, and_self, if_true]
    · have h1 : ¬ (1 ≤ a.val ∧ a.val < p - 1 ∧ b.val < p) := fun h' => h ⟨h'.1, h'.2.1⟩
      have ha := a.isLt
      have : (a.val = b.val ∧ (a.val = 0 ∨ a.val = p - 1)) ↔ a.val = b.val := by omega
      simp only [h, h1, if_false, this]

/-- The loops of lines 156-167 leave the closed form `systemB` in `B`. -/
theorem assembleB_ok (p n : Nat) (m : Matrix) (pts : List Array3) (hp : 1 ≤ p)
    (hrows : m.length = p) (hcols : ∀ row ∈ m, row.length = n) (hn : 1 ≤ n)
    (hpts : n ≤ pts.length) : assembleB p n m pts = .ok (systemB p n m pts) := by
  unfold assembleB
  dsimp only
  have first_loop :
      (forLoop 0 3 (viewZeros p 3) fun dim B => do
        let first ← vecRead pts 0
        let c ← arrRead first dim
        let B ← viewWrite B 0 dim c
        let last ← vecRead pts (usub n 1)
        let c ← arrRead last dim
        viewWrite B (usub p 1) dim c) =
      .ok (fun a d => if a.val = p - 1 then sample pts (n - 1) d
        else if a.val = 0 then sample pts 0 d else 0 : HostView p 3) := by
    refine (forLoop_eq_ok (fun t => (fun a d =>
        if d.val < t then
          (if a.val = p - 1 then sample pts (n - 1) d
            else if a.val = 0 then sample pts 0 d else 0)
        else 0 : HostView p 3)) 0 3 _ _ (by omega) ?_ ?_).trans ?_
    · funext a d
      simp [viewZeros]
    · intro t _ ht
      rw [vecRead_ok pts (fun _ => 0) 0 (by omega), ok_bind, arrRead_ok _ t ht, ok_bind,
        viewWrite_ok _ 0 t _ (by omega) ht, ok_bind, usub_one n hn, usub_one p hp,
        vecRead_ok pts (fun _ => 0) (n - 1) (by omega), ok_bind, arrRead_ok _ t ht, ok_bind,
        viewWrite_ok _ (p - 1) t _ (by omega) ht]
      congr 1
      funext a d
      beta_reduce
      by_cases hd : d.val = t
      · have hd' : d = ⟨t, ht⟩ := Fin.ext hd
        have h1 : d.val < t + 1 := by omega
        by_cases ha : a.val = p - 1
        · rw [if_pos ⟨ha, hd⟩, if_pos h1, if_pos ha, hd']
          rfl
        · rw [if_neg (fun h => ha h.1), if_pos h1, if_neg ha]
          by_cases ha0 : a.val = 0
          · rw [if_pos ⟨ha0, hd⟩, if_pos ha0, hd']
            rfl
          · rw [if_neg (fun h => ha0 h.1), if_neg ha0]
            have : ¬ d.val < t := by omega
            rw [if_neg this]
      · rw [if_neg (fun h => hd h.2), if_neg (fun h => hd h.2)]
        have : d.val < t + 1 ↔ d.val < t := by omega
        simp only [this]
    · congr 1
      funext a d
      have := d.isLt
      simp only [this, if_true]
  rw [first_loop, ok_bind, usub_one p hp]
  by_cases hp2 : p - 1 ≤ 1
  · rw [forLoop_done _ _ _ _ hp2]
    congr 1
    funext a d
    have ha := a.isLt
    have h1 : ¬ (1 ≤ a.val ∧ a.val < p - 1) := by omega
    unfold systemB
    rw [if_neg h1]
    by_cases h2 : a.val = p - 1
    · simp only [h2, if_true]
    · have : a.val = 0 := by omega
      simp only [h2, this, if_false, if_true]
  · refine (forLoop_eq_ok (fun i => (fun a d =>
        if 1 ≤ a.val ∧ a.val < p - 1 then
          (if a.val < i then ∑ k in Finset.range n, entry m a.val k * sample pts k d else 0)
        else if a.val = p - 1 then sample pts (n - 1) d else sample pts 0 d : HostView p 3))
      1 (p - 1) _ _ (by omega) ?_ ?_).trans ?_
    · funext a d
      beta_reduce
      by_cases h1 : 1 ≤ a.val ∧ a.val < p - 1
      · have h2 : ¬ a.val < 1 := by omega
        have h3 : ¬ a.val = p - 1 := by omega
        have h4 : ¬ a.val = 0 := by omega
        rw [if_pos h1, if_neg h2, if_neg h3, if_neg h4]
      · rw [if_neg h1]
        by_cases h3 : a.val = p - 1
        · rw [if_pos h3, if_pos h3]
        · have h4 : a.val = 0 := by omega
          rw [if_neg h3, if_neg h3, if_pos h4]
    · intro i hi1 hi2
      refine (forLoop_eq_ok (fun t => (fun a d =>
          if 1 ≤ a.val ∧ a.val < p - 1 then
            (if a.val < i then ∑ k in Finset.range n, entry m a.val k * sample pts k d
              else if a.val = i then ∑ k in Finset.range t, entry m a.val k * sample pts k d
              else 0)
          else if a.val = p - 1 then sample pts (n - 1) d else sample pts 0 d : HostView p 3))
        0 n _ _ (by omega) ?_ ?_).trans ?_
      · funext a d
        beta_reduce
        by_cases h1 : 1 ≤ a.val ∧ a.val < p - 1
        · rw [if_pos h1, if_pos h1]
          by_cases h2 : a.val < i
          · rw [if_pos h2, if_pos h2]
          · rw [if_neg h2, if_neg h2]
            simp
        · rw [if_neg h1, if_neg h1]
      · intro k _ hk
        refine (forLoop_eq_ok (fun t => (fun a d =>
            if 1 ≤ a.val ∧ a.val < p - 1 then
              (if a.val < i then ∑ k in Finset.range n, entry m a.val k * sample pts k d
                else if a.val = i then
                  (if d.val < t then
                    ∑ k in Finset.range (k + 1), entry m a.val k * sample pts k d
                  else ∑ k in Finset.range k, entry m a.val k * sample pts k d)
                else 0)
            else if a.val = p - 1 then sample pts (n - 1) d else sample pts 0 d : HostView p 3))
          0 3 _ _ (by omega) ?_ ?_).trans ?_
        · funext a d
          simp
        · intro t _ ht
          obtain ⟨h1, h2⟩ := vecRead_row m n i (by omega) hcols
          rw [h1, ok_bind, vecRead_ok _ (0 : ℚ) k (by omega), ok_bind,
            vecRead_ok pts (fun _ => 0) k (by omega), ok_bind, arrRead_ok _ t ht, ok_bind,
            viewRead_ok _ i t (by omega) ht, ok_bind, viewWrite_ok _ i t _ (by omega) ht]
          congr 1
          funext a d
          beta_reduce
          have hint : 1 ≤ i ∧ i < p - 1 := ⟨hi1, hi2⟩
          by_cases hat : a.val = i ∧ d.val = t
          · have hd' : d = ⟨t, ht⟩ := Fin.ext hat.2
            have hai : a.val = i := hat.1
            subst hd'
            simp [hai, hi1, hi2, Finset.sum_range_succ, entry, sample]
          · rw [if_neg hat]
            by_cases ha1 : 1 ≤ a.val ∧ a.val < p - 1
            · rw [if_pos ha1, if_pos ha1]
              by_cases h3 : a.val < i
              · rw [if_pos h3, if_pos h3]
              · rw [if_neg h3, if_neg h3]
                by_cases h4 : a.val = i
                · rw [if_pos h4, if_pos h4]
                  have : d.val < t + 1 ↔ d.val < t := by
                    have : d.val ≠ t := fun h => hat ⟨h4, h⟩
                    omega
                  simp only [this]
                · rw [if_neg h4, if_neg h4]
            · rw [if_neg ha1, if_neg ha1]
        · congr 1
          funext a d
          have := d.isLt
          simp only [this, if_true]
      · congr 1
        funext a d
        beta_reduce
        by_cases h1 : 1 ≤ a.val ∧ a.val < p - 1
        · rw [if_pos h1, if_pos h1]
          by_cases h2 : a.val < i
          · rw [if_pos h2, if_pos (by omega)]
          · rw [if_neg h2]
            by_cases h3 : a.val = i
            · rw [if_pos h3, if_pos (by omega)]
            · rw [if_neg h3, if_neg (by omega)]
        · rw [if_neg h1, if_neg h1]
    · congr 1
      funext a d
      unfold systemB
      by_cases h1 : 1 ≤ a.val ∧ a.val < p - 1
      · rw [if_pos h1, if_pos h1, if_pos h1.2]
      · rw [if_neg h1, if_neg h1]

theorem arrWrite_ok (a : Array3) (d : Nat) (x : ℚ) (h : d < 3) :
    arrWrite a d x = .ok (fun c => if c.val = d then x else a c) := by
  simp [arrWrite, h]

theorem viewRows_eq_tab {p : Nat} (B : HostView p 3) :
    viewRows B = tab p (fun a c => if h : a < p then B ⟨a, h⟩ c else 0) := by
  apply List.ext_getElem
  · simp [viewRows]
  · intro i h1 h2
    have hi : i < p := by simpa [viewRows] using h1
    simp [viewRows, hi]

/-- The loops of lines 177-183 copy the rows of `B` into the result. -/
theorem copyResult_ok (p : Nat) (B : HostView p 3) : copyResult p B = .ok (viewRows B) := by
  unfold copyResult
  dsimp only
  rw [List.length_replicate, viewRows_eq_tab]
  refine (forLoop_eq_ok (fun i => tab p (fun a (c : Fin 3) =>
      if a < i then (if h : a < p then B ⟨a, h⟩ c else 0) else 0)) 0 p _ _ (by omega) ?_ ?_).trans ?_
  · rw [replicate_eq_tab]
    apply tab_congr
    intro a _
    funext c
    simp
  · intro i _ hi
    refine (forLoop_eq_ok (fun j => tab p (fun a (c : Fin 3) =>
        if a < i then (if h : a < p then B ⟨a, h⟩ c else 0)
        else if a = i then (if c.val < j then B ⟨i, hi⟩ c else 0) else 0))
      0 3 _ _ (by omega) ?_ ?_).trans ?_
    · apply tab_congr
      intro a _
      funext c
      simp
    · intro j _ hj
      rw [viewRead_ok B i j hi hj, ok_bind, vecRead_tab _ _ _ hi, ok_bind,
        arrWrite_ok _ j _ hj, ok_bind, vecWrite_tab _ _ _ _ hi]
      congr 1
      apply tab_congr
      intro a _
      funext c
      by_cases hai : a = i
      · subst hai
        by_cases hc : c.val = j
        · have hc' : c = ⟨j, hj⟩ := Fin.ext hc
          subst hc'
          simp
        · have : c.val < j + 1 ↔ c.val < j := by omega
          simp [hc, this]
      · simp [hai]
    · congr 1
      apply tab_congr
      intro a ha
      funext c
      have := c.isLt
      by_cases h1 : a < i
      · have : a < i + 1 := by omega
        simp [h1, this]
      · by_cases h2 : a = i
        · subst h2
          simp [hi, this]
        · have : ¬ a < i + 1 := by omega
          simp [h1, h2, this]
  · congr 1
    apply tab_congr
    intro a ha
    funext c
    simp [ha]

/-- The checks of lines 131-139 pass and every access of the assembly is in
bounds, so the fit returns the rows that the solver leaves in `B`. -/
theorem PerformLeastSquaresFitting_ok (dgesv : Dgesv) (p n : Nat) (m : Matrix)
    (pts : List Array3) (hp : 1 ≤ p) (hrows : m.length = p)
    (hcols : ∀ row ∈ m, row.length = n) (hn : 1 ≤ n) (hpts : n ≤ pts.length) :
    PerformLeastSquaresFitting dgesv p m pts =
      .ok (viewRows (dgesv p (systemA p n m) (systemB p n m pts)).2) := by
  unfold PerformLeastSquaresFitting
  obtain ⟨h1, h2⟩ := vecRead_row m n 0 (by omega) hcols
  have hany : (m.any fun row => decide ¬row.length = n) = false := by
    rw [List.any_eq_false]
    intro row hrow
    simp [hcols row hrow]
  simp only [hrows, ne_eq, not_true_eq_false, if_false]
  rw [h1]
  simp only [bind, Except.bind, pure, Except.pure, h2, hany, assembleA_ok p n m hp hrows hcols,
    assembleB_ok p n m pts hp hrows hcols hn hpts, copyResult_ok]
  rfl

/-! ## `PerformLeastSquaresFitting`: shape errors and anchoring -/

theorem NoThrow_ok {α : Type} (a : α) : NoThrow (Except.ok a : Except Fault α) := by
  intro what h
  cases h

theorem NoThrow_fault {α : Type} : NoThrow (Except.error .out_of_bounds : Except Fault α) := by
  intro what h
  cases h

theorem NoThrow_bind {α β : Type} (x : Except Fault α) (f : α → Except Fault β)
    (hx : NoThrow x) (hf : ∀ a, NoThrow (f a)) : NoThrow (x >>= f) := by
  cases x with
  | ok a => exact hf a
  | error e =>
    intro what h
    have h' : (Except.error e : Except Fault β) = .error (.invalid_argument what) := h
    have he : e = .invalid_argument what := by
      injection h'
    exact hx what (by rw [he])

theorem NoThrow_forLoop {σ : Type} (lo hi : Nat) (init : σ) (body : Nat → σ → Except Fault σ)
    (h : ∀ i s, NoThrow (body i s)) : NoThrow (forLoop lo hi init body) := by
  unfold forLoop
  generalize List.range' lo (hi - lo) = l
  induction l generalizing init with
  | nil => exact NoThrow_ok init
  | cons i t ih =>
    rw [List.foldlM_cons]
    exact NoThrow_bind _ _ (h i init) (fun s => ih s)

theorem NoThrow_vecRead {α : Type} (v : List α) (i : Nat) : NoThrow (vecRead v i) := by
  unfold vecRead
  cases v[i]? with
  | none => exact NoThrow_fault
  | some x => exact NoThrow_ok x

theorem NoThrow_vecWrite {α : Type} (v : List α) (i : Nat) (x : α) :
    NoThrow (vecWrite v i x) := by
  unfold vecWrite
  split
  · exact NoThrow_ok _
  · exact NoThrow_fault

theorem NoThrow_arrRead (a : Array3) (d : Nat) : NoThrow (arrRead a d) := by
  unfold arrRead
  split
  · exact NoThrow_ok _
  · exact NoThrow_fault

theorem NoThrow_arrWrite (a : Array3) (d : Nat) (x : ℚ) : NoThrow (arrWrite a d x) := by
  unfold arrWrite
  split
  · exact NoThrow_ok _
  · exact NoThrow_fault

theorem NoThrow_viewRead {e0 e1 : Nat} (V : HostView e0 e1) (i j : Nat) :
    NoThrow (viewRead V i j) := by
  unfold viewRead
  split
  · exact NoThrow_ok _
  · exact NoThrow_fault

theorem NoThrow_viewWrite {e0 e1 : Nat} (V : HostView e0 e1) (i j : Nat) (x : ℚ) :
    NoThrow (viewWrite V i j x) := by
  unfold viewWrite
  split
  · exact NoThrow_ok _
  · exact NoThrow_fault

/-- The assembly of `A` throws nothing. -/
theorem NoThrow_assembleA (p n : Nat) (m : Matrix) : NoThrow (assembleA p n m) := by
  unfold assembleA
  refine NoThrow_bind _ _ (NoThrow_viewWrite _ _ _ _) fun A => ?_
  refine NoThrow_bind _ _ (NoThrow_viewWrite _ _ _ _) fun A => ?_
  refine NoThrow_forLoop _ _ _ _ fun j A => ?_
  refine NoThrow_forLoop _ _ _ _ fun i A => ?_
  refine NoThrow_bind _ _ ?_ fun s => NoThrow_viewWrite _ _ _ _
  refine NoThrow_forLoop _ _ _ _ fun k s => ?_
  refine NoThrow_bind _ _ (NoThrow_vecRead _ _) fun r => ?_
  refine NoThrow_bind _ _ (NoThrow_vecRead _ _) fun x => ?_
  refine NoThrow_bind _ _ (NoThrow_vecRead _ _) fun r => ?_
  refine NoThrow_bind _ _ (NoThrow_vecRead _ _) fun y => ?_
  exact NoThrow_ok _

/-- The assembly of `B` throws nothing. -/
theorem NoThrow_assembleB (p n : Nat) (m : Matrix) (pts : List Array3) :
    NoThrow (assembleB p n m pts) := by
  unfold assembleB
  refine NoThrow_bind _ _ ?_ fun B => ?_
  · refine NoThrow_forLoop _ _ _ _ fun d B => ?_
    refine NoThrow_bind _ _ (NoThrow_vecRead _ _) fun r => ?_
    refine NoThrow_bind _ _ (NoThrow_arrRead _ _) fun x => ?_
    refine NoThrow_bind _ _ (NoThrow_viewWrite _ _ _ _) fun B => ?_
    refine NoThrow_bind _ _ (NoThrow_vecRead _ _) fun r => ?_
    refine NoThrow_bind _ _ (NoThrow_arrRead _ _) fun x => ?_
    exact NoThrow_viewWrite _ _ _ _
  · refine NoThrow_forLoop _ _ _ _ fun i B => ?_
    refine NoThrow_forLoop _ _ _ _ fun k B => ?_
    refine NoThrow_forLoop _ _ _ _ fun d B => ?_
    refine NoThrow_bind _ _ (NoThrow_vecRead _ _) fun r => ?_
    refine NoThrow_bind _ _ (NoThrow_vecRead _ _) fun x => ?_
    refine NoThrow_bind _ _ (NoThrow_vecRead _ _) fun r => ?_
    refine NoThrow_bind _ _ (NoThrow_arrRead _ _) fun x => ?_
    refine NoThrow_bind _ _ (NoThrow_viewRead _ _ _) fun b => ?_
    exact NoThrow_viewWrite _ _ _ _

/-- The copy of `B` into the result throws nothing. -/
theorem NoThrow_copyResult (p : Nat) (B : HostView p 3) : NoThrow (copyResult p B) := by
  unfold copyResult
  refine NoThrow_forLoop _ _ _ _ fun i r => ?_
  refine NoThrow_forLoop _ _ _ _ fun j r => ?_
  refine NoThrow_bind _ _ (NoThrow_viewRead _ _ _) fun b => ?_
  refine NoThrow_bind _ _ (NoThrow_vecRead _ _) fun a => ?_
  refine NoThrow_bind _ _ (NoThrow_arrWrite _ _ _) fun a => ?_
  exact NoThrow_vecWrite _ _ _

/-- C4: `PerformLeastSquaresFitting` throws `std::invalid_argument` whenever
`shape_functions` does not have exactly `p` rows, or some row's column count
differs from that of row 0. The outcome is this error whatever the solver and the
samples are: neither `A` nor `B` is assembled and no solve is attempted. For
`p ≥ 1`, a matrix of exactly `p` rows of one length does not raise it. -/
theorem PerformLeastSquaresFitting_shape_error (dgesv : Dgesv) (p : Nat) (m : Matrix)
    (pts : List Array3) :
    (m.length ≠ p → PerformLeastSquaresFitting dgesv p m pts =
        .error (.invalid_argument "shape_functions rows do not match order p.")) ∧
    (m.length = p → (∃ row ∈ m, row.length ≠ (m.getD 0 []).length) →
      PerformLeastSquaresFitting dgesv p m pts =
        .error (.invalid_argument "Inconsistent number of columns in shape_functions.")) ∧
    (1 ≤ p → m.length = p → (∀ row ∈ m, row.length = (m.getD 0 []).length) →
      NoThrow (PerformLeastSquaresFitting dgesv p m pts)) := by
  refine ⟨?_, ?_, ?_⟩
  · intro h
    unfold PerformLeastSquaresFitting
    simp only [ne_eq, h, not_false_eq_true, if_true]
    rfl
  · rintro hrows ⟨row, hrow, hlen⟩
    have hpos : 0 < m.length := List.length_pos_of_mem hrow
    unfold PerformLeastSquaresFitting
    have hany : (m.any fun r => decide ¬r.length = (m.getD 0 []).length) = true := by
      rw [List.any_eq_true]
      exact ⟨row, hrow, by simpa using hlen⟩
    simp only [hrows, ne_eq, not_true_eq_false, if_false]
    rw [vecRead_ok m [] 0 hpos]
    simp only [bind, Except.bind, pure, Except.pure, hany, if_true]
  · intro hp hrows hcols
    have hpos : 0 < m.length := by omega
    unfold PerformLeastSquaresFitting
    have hany : (m.any fun r => decide ¬r.length = (m.getD 0 []).length) = false := by
      rw [List.any_eq_false]
      intro row hrow
      simp [hcols row hrow]
    simp only [hrows, ne_eq, not_true_eq_false, if_false]
    rw [vecRead_ok m [] 0 hpos]
    simp only [bind, Except.bind, pure, Except.pure, hany]
    refine NoThrow_bind _ _ (NoThrow_assembleA _ _ _) fun A => ?_
    refine NoThrow_bind _ _ (NoThrow_assembleB _ _ _ _) fun B => ?_
    exact NoThrow_copyResult _ _

/-- A `2 × 3` matrix with `p = 3`, a ragged `2`-row matrix with `p = 2`, and the
`2 × 3` matrix of the test `ShapeFunctionMatrices_FirstOrder` with `p = 2`. -/
theorem PerformLeastSquaresFitting_shape_error_witness :
    PerformLeastSquaresFitting dgesvRef 3 [[1, 1 / 2, 0], [0, 1 / 2, 1]] [] =
        .error (.invalid_argument "shape_functions rows do not match order p.") ∧
    PerformLeastSquaresFitting dgesvRef 2 [[1, 1 / 2, 0], [0, 1 / 2]] [] =
        .error (.invalid_argument "Inconsistent number of columns in shape_functions.") ∧
    NoThrow (PerformLeastSquaresFitting dgesvRef 2 [[1, 1 / 2, 0], [0, 1 / 2, 1]] []) :=
  ⟨(PerformLeastSquaresFitting_shape_error dgesvRef 3 [[1, 1 / 2, 0], [0, 1 / 2, 1]] []).1
      (by decide),
   (PerformLeastSquaresFitting_shape_error dgesvRef 2 [[1, 1 / 2, 0], [0, 1 / 2]] []).2.1
      (by decide) ⟨[0, 1 / 2], by simp, by decide⟩,
   (PerformLeastSquaresFitting_shape_error dgesvRef 2 [[1, 1 / 2, 0], [0, 1 / 2, 1]] []).2.2
      (by decide) (by decide) (by simp)⟩

theorem viewRows_length {p : Nat} (B : HostView p 3) : (viewRows B).length = p := by
  simp [viewRows]

theorem viewRows_getElem? {p : Nat} (B : HostView p 3) (i : Nat) (hi : i < p) :
    (viewRows B)[i]? = some (B ⟨i, hi⟩) := by
  simp [viewRows, List.getElem?_ofFn, hi]

/-- A boundary row of `systemA` is a row of the identity. -/
theorem systemA_boundary_mul (p n : Nat) (m : Matrix) (X : HostView p 3) (a : Fin p)
    (d : Fin 3) (ha : ¬ (1 ≤ a.val ∧ a.val < p - 1)) : (systemA p n m * X) a d = X a d := by
  rw [Matrix.mul_apply]
  have : ∀ b : Fin p, systemA p n m a b * X b d = if a = b then X b d else 0 := by
    intro b
    unfold systemA
    rw [if_neg ha]
    by_cases hab : a = b
    · simp [hab]
    · have : ¬ a.val = b.val := fun h => hab (Fin.ext h)
      simp [hab, this]
  simp only [this, Finset.sum_ite_eq, Finset.mem_univ, if_true]

theorem assembled_eq (p n : Nat) (m : Matrix) (pts : List Array3) (hp : 1 ≤ p)
    (hrows : m.length = p) (hcols : ∀ row ∈ m, row.length = n) (hn : 1 ≤ n)
    (hpts : n ≤ pts.length) (A : HostView p p) (B : HostView p 3)
    (hA : assembleA p n m = .ok A) (hB : assembleB p n m pts = .ok B) :
    A = systemA p n m ∧ B = systemB p n m pts := by
  rw [assembleA_ok p n m hp hrows hcols] at hA
  rw [assembleB_ok p n m pts hp hrows hcols hn hpts] at hB
  exact ⟨(Except.ok.inj hA).symm, (Except.ok.inj hB).symm⟩

theorem getElem?_eq_sample (pts : List Array3) (k : Nat) (hk : k < pts.length) :
    pts[k]? = some (fun d => sample pts k d) := by
  simp [sample, List.getD_eq_getElem?_getD, List.getElem?_eq_getElem hk]

/-- A solve that returns `X` with `A·X = B` keeps the first and the last sample:
the boundary rows of `A` are rows of the identity. -/
theorem anchored_of_solve (dgesv : Dgesv) (p n : Nat) (m : Matrix)
    (pts : List Array3) (hp : 2 ≤ p) (hrows : m.length = p)
    (hcols : ∀ row ∈ m, row.length = n) (hn : 1 ≤ n) (hpts : n ≤ pts.length)
    (A : HostView p p) (B : HostView p 3)
    (hA : assembleA p n m = .ok A) (hB : assembleB p n m pts = .ok B)
    (hsolve : A * (dgesv p A B).2 = B) :
    ∃ X, PerformLeastSquaresFitting dgesv p m pts = .ok X ∧ X.length = p ∧
      X[0]? = pts[0]? ∧ X[p - 1]? = pts[n - 1]? := by
  obtain ⟨eA, eB⟩ := assembled_eq p n m pts (by omega) hrows hcols hn hpts A B hA hB
  subst eA eB
  refine ⟨_, PerformLeastSquaresFitting_ok dgesv p n m pts (by omega) hrows hcols hn hpts,
    viewRows_length _, ?_, ?_⟩
  · rw [viewRows_getElem? _ 0 (by omega), getElem?_eq_sample pts 0 (by omega)]
    congr 1
    funext d
    have h0 : ¬ (1 ≤ (⟨0, by omega⟩ : Fin p).val ∧ (⟨0, by omega⟩ : Fin p).val < p - 1) := by
      simp
    have := systemA_boundary_mul p n m (dgesv p (systemA p n m) (systemB p n m pts)).2
      ⟨0, by omega⟩ d h0
    rw [hsolve] at this
    rw [← this]
    unfold systemB
    have h1 : ¬ (0 = p - 1) := by omega
    simp [h1]
  · rw [viewRows_getElem? _ (p - 1) (by omega), getElem?_eq_sample pts (n - 1) (by omega)]
    congr 1
    funext d
    have h0 : ¬ (1 ≤ (⟨p - 1, by omega⟩ : Fin p).val ∧
        (⟨p - 1, by omega⟩ : Fin p).val < p - 1) := by
      simp
    have := systemA_boundary_mul p n m (dgesv p (systemA p n m) (systemB p n m pts)).2
      ⟨p - 1, by omega⟩ d h0
    rw [hsolve] at this
    rw [← this]
    unfold systemB
    simp

/-- C1: for `p ≥ 2`, a `p × n` shape-function matrix with `n ≥ 1` and `n` samples,
if the solve returns `X` with `A·X = B` for the assembled `A` and `B`, the fit
returns exactly `p` coefficients, the first equal to `samples[0]` and the last
equal to `samples[n-1]` in all three coordinates. (Nonsingularity of `A` is not
needed.) -/
theorem PerformLeastSquaresFitting_anchored (dgesv : Dgesv) (p n : Nat) (m : Matrix)
    (pts : List Array3) (hp : 2 ≤ p) (hrows : m.length = p)
    (hcols : ∀ row ∈ m, row.length = n) (hn : 1 ≤ n) (hpts : n ≤ pts.length)
    (A : HostView p p) (B : HostView p 3)
    (hA : assembleA p n m = .ok A) (hB : assembleB p n m pts = .ok B)
    (hsolve : A * (dgesv p A B).2 = B) :
    ∃ X, PerformLeastSquaresFitting dgesv p m pts = .ok X ∧ X.length = p ∧
      X[0]? = pts[0]? ∧ X[p - 1]? = pts[n - 1]? := by
  obtain ⟨eA, eB⟩ := assembled_eq p n m pts (by omega) hrows hcols hn hpts A B hA hB
  subst eA eB
  refine ⟨_, PerformLeastSquaresFitting_ok dgesv p n m pts (by omega) hrows hcols hn hpts,
    viewRows_length _, ?_, ?_⟩
  · rw [viewRows_getElem? _ 0 (by omega), getElem?_eq_sample pts 0 (by omega)]
    congr 1
    funext d
    have h0 : ¬ (1 ≤ (⟨0, by omega⟩ : Fin p).val ∧ (⟨0, by omega⟩ : Fin p).val < p - 1) := by
      simp
    have := systemA_boundary_mul p n m (dgesv p (systemA p n m) (systemB p n m pts)).2
      ⟨0, by omega⟩ d h0
    rw [hsolve] at this
    rw [← this]
    unfold systemB
    have h1 : ¬ (0 = p - 1) := by omega
    simp [h1]
  · rw [viewRows_getElem? _ (p - 1) (by omega), getElem?_eq_sample pts (n - 1) (by omega)]
    congr 1
    funext d
    have h0 : ¬ (1 ≤ (⟨p - 1, by omega⟩ : Fin p).val ∧
        (⟨p - 1, by omega⟩ : Fin p).val < p - 1) := by
      simp
    have := systemA_boundary_mul p n m (dgesv p (systemA p n m) (systemB p n m pts)).2
      ⟨p - 1, by omega⟩ d h0
    rw [hsolve] at this
    rw [← this]
    unfold systemB
    simp

/-- The second-order shape functions with five scattered samples and the
reference solver: the fit keeps the first and the last sample. -/
theorem PerformLeastSquaresFitting_anchored_witness :
    ∃ X, PerformLeastSquaresFitting dgesvRef 3 phi_second_order scattered_points = .ok X ∧
      X.length = 3 ∧ X[0]? = some ![0, 0, 0] ∧ X[2]? = some ![4, 8, 12] :=
  PerformLeastSquaresFitting_anchored dgesvRef 3 5 phi_second_order scattered_points
    (by decide) (by decide) (by decide) (by decide) (by decide)
    (systemA 3 5 phi_second_order) (systemB 3 5 phi_second_order scattered_points)
    (by decide!) (by decide!) (by decide!)

/-! ## `PerformLeastSquaresFitting`: the status of the solve -/

/-- C5, as stated, fails: for `p = 3` and a zero interior row the assembled system
is singular and the reference solver reports `info = 2`, yet the fit returns
normally, with the untouched right-hand side as coefficients. -/
theorem PerformLeastSquaresFitting_singular_returns :
    (systemA 3 2 phi_zero_interior).det = 0 ∧
    assembleA 3 2 phi_zero_interior = .ok (systemA 3 2 phi_zero_interior) ∧
    (dgesvRef 3 (systemA 3 2 phi_zero_interior)
      (systemB 3 2 phi_zero_interior [![1, 2, 3], ![4, 5, 6]])).1 = 2 ∧
    PerformLeastSquaresFitting dgesvRef 3 phi_zero_interior [![1, 2, 3], ![4, 5, 6]] =
      .ok [![1, 2, 3], ![0, 0, 0], ![4, 5, 6]] ∧
    ¬ ∃ e, PerformLeastSquaresFitting dgesvRef 3 phi_zero_interior [![1, 2, 3], ![4, 5, 6]] =
      .error e := by
  have h : PerformLeastSquaresFitting dgesvRef 3 phi_zero_interior [![1, 2, 3], ![4, 5, 6]] =
      .ok [![1, 2, 3], ![0, 0, 0], ![4, 5, 6]] := by decide!
  refine ⟨by decide!, by decide!, by decide!, h, ?_⟩
  rintro ⟨e, he⟩
  rw [h] at he
  cases he

/-- C5, amended: the status of the solve is discarded. When the shape checks pass
(`p ≥ 1` rows of `n ≥ 1` columns, at least `n` samples) the fit returns normally,
whatever status the solver reports, and its result is the `p` rows that the
solver left in the buffer `B`. -/
theorem PerformLeastSquaresFitting_ignores_status (dgesv : Dgesv) (p n : Nat) (m : Matrix)
    (pts : List Array3) (hp : 1 ≤ p) (hrows : m.length = p)
    (hcols : ∀ row ∈ m, row.length = n) (hn : 1 ≤ n) (hpts : n ≤ pts.length)
    (A : HostView p p) (B : HostView p 3)
    (hA : assembleA p n m = .ok A) (hB : assembleB p n m pts = .ok B) :
    PerformLeastSquaresFitting dgesv p m pts = .ok (viewRows (dgesv p A B).2) ∧
      (viewRows (dgesv p A B).2).length = p := by
  obtain ⟨eA, eB⟩ := assembled_eq p n m pts hp hrows hcols hn hpts A B hA hB
  subst eA eB
  exact ⟨PerformLeastSquaresFitting_ok dgesv p n m pts hp hrows hcols hn hpts,
    viewRows_length _⟩

/-- The zero interior row with the reference solver, which reports `info = 2`:
the fit returns the right-hand side. -/
theorem PerformLeastSquaresFitting_ignores_status_witness :
    (dgesvRef 3 (systemA 3 2 phi_zero_interior)
      (systemB 3 2 phi_zero_interior [![1, 1, 1], ![2, 2, 2]])).1 = 2 ∧
    PerformLeastSquaresFitting dgesvRef 3 phi_zero_interior [![1, 1, 1], ![2, 2, 2]] =
      .ok [![1, 1, 1], ![0, 0, 0], ![2, 2, 2]] :=
  ⟨by decide!,
    (PerformLeastSquaresFitting_ignores_status dgesvRef 3 2 phi_zero_interior
      [![1, 1, 1], ![2, 2, 2]] (by decide) (by decide) (by decide) (by decide) (by decide)
      (systemA 3 2 phi_zero_interior) (systemB 3 2 phi_zero_interior [![1, 1, 1], ![2, 2, 2]])
      (by decide!) (by decide!)).1.trans (by decide!)⟩

/-! ## The reference solver solves every nonsingular system -/

theorem dgesvRef_of_fold (N : Nat) (A : HostView N N) (B : HostView N 3) (st : Int × Matrix)
    (hst : (List.range N).foldl (gaussStep N) ((0 : Int), List.ofFn fun i : Fin N =>
      List.ofFn (fun j => A i j) ++ List.ofFn (fun d => B i d)) = st)
    (h0 : st.1 = 0) :
    dgesvRef N A B = (0, fun i d => entry st.2 i.val (N + d.val)) := by
  unfold dgesvRef
  dsimp only
  rw [hst, if_pos h0]

theorem set_tab {α : Type} (n : Nat) (g : Nat → α) (i : Nat) (x : α) :
    (tab n g).set i x = tab n (fun j => if j = i then x else g j) := by
  apply List.ext_getElem?
  intro j
  rw [List.getElem?_set, getElem?_tab, getElem?_tab, length_tab]
  by_cases hji : i = j
  · subst hji
    by_cases hj : i < n
    · simp [hj]
    · simp [hj]
  · have hji' : ¬ j = i := fun h => hji h.symm
    simp [hji, hji']

theorem map_tab {α β : Type} (n : Nat) (g : Nat → α) (f : α → β) :
    (tab n g).map f = tab n (fun j => f (g j)) := by
  unfold tab
  rw [List.map_map]
  rfl

theorem zipWith_tab {α β γ : Type} (n : Nat) (g : Nat → α) (g' : Nat → β) (f : α → β → γ) :
    List.zipWith f (tab n g) (tab n g') = tab n (fun j => f (g j) (g' j)) := by
  apply List.ext_getElem?
  intro j
  rw [List.getElem?_zipWith, getElem?_tab, getElem?_tab, getElem?_tab]
  by_cases hj : j < n
  · simp [hj]
  · simp [hj]

theorem ofFn_eq_tab {α : Type} (n : Nat) (f : Fin n → α) (d : α) :
    List.ofFn f = tab n (fun i => if h : i < n then f ⟨i, h⟩ else d) := by
  apply List.ext_getElem?
  intro j
  rw [getElem?_tab, List.getElem?_ofFn]
  by_cases hj : j < n
  · simp [hj, List.ofFnNthVal]
  · simp [hj, List.ofFnNthVal]

/-- The entries of the augmented rows `[A | B]` that the solver starts from. -/
theorem augmented_eq_tab (N : Nat) (A : HostView N N) (B : HostView N 3) :
    (List.ofFn fun i : Fin N => List.ofFn (fun j => A i j) ++ List.ofFn (fun d => B i d)) =
      tab N fun i => tab (N + 3) fun j =>
        if h : i < N then
          (if hj : j < N then A ⟨i, h⟩ ⟨j, hj⟩
            else if hd : j - N < 3 then B ⟨i, h⟩ ⟨j - N, hd⟩ else 0)
        else 0 := by
  rw [ofFn_eq_tab N _ []]
  apply tab_congr
  intro i hi
  rw [dif_pos hi]
  apply List.ext_getElem?
  intro j
  rw [getElem?_tab]
  by_cases hj : j < N
  · rw [List.getElem?_append_left (by simpa using hj), List.getElem?_ofFn]
    simp [hj, hi, Nat.lt_add_right 3 hj, List.ofFnNthVal]
  · rw [List.getElem?_append_right (by simpa using hj), List.getElem?_ofFn]
    simp only [List.length_ofFn]
    by_cases hd : j - N < 3
    · have : j < N + 3 := by omega
      simp [hd, hj, hi, this, List.ofFnNthVal]
    · have : ¬ j < N + 3 := by omega
      simp [hd, this, List.ofFnNthVal]

/-- Partial pivoting returns a row between `k` and `N - 1` whose entry in column
`k` is largest in absolute value among these rows. -/
theorem pivotRow_spec (rows : Matrix) (k N : Nat) (hk : k < N) :
    k ≤ pivotRow rows k N ∧ pivotRow rows k N < N ∧
      ∀ i, k ≤ i → i < N → |entry rows i k| ≤ |entry rows (pivotRow rows k N) k| := by
  unfold pivotRow
  have key : ∀ d, k ≤ (List.range' k d).foldl
        (fun r i => if |entry rows r k| < |entry rows i k| then i else r) k ∧
      (List.range' k d).foldl
        (fun r i => if |entry rows r k| < |entry rows i k| then i else r) k < k + d + 1 - min d 1 ∧
      ∀ i, k ≤ i → i < k + d → |entry rows i k| ≤ |entry rows ((List.range' k d).foldl
        (fun r i => if |entry rows r k| < |entry rows i k| then i else r) k) k| := by
    intro d
    induction d with
    | zero =>
      refine ⟨le_rfl, by simp, ?_⟩
      intro i h1 h2
      omega
    | succ d ih =>
      obtain ⟨h1, h2, h3⟩ := ih
      rw [List.range'_concat, List.foldl_append]
      simp only [List.foldl_cons, List.foldl_nil]
      set r := (List.range' k d).foldl
        (fun r i => if |entry rows r k| < |entry rows i k| then i else r) k with hr
      have hstep : k + 1 * d = k + d := by omega
      rw [hstep]
      by_cases hlt : |entry rows r k| < |entry rows (k + d) k|
      · rw [if_pos hlt]
        refine ⟨by omega, by simp, ?_⟩
        intro i hi1 hi2
        by_cases hid : i = k + d
        · rw [hid]
        · exact le_trans (h3 i hi1 (by omega)) (le_of_lt hlt)
      · rw [if_neg hlt]
        refine ⟨h1, ?_, ?_⟩
        · have : min (d + 1) 1 = 1 := by omega
          rw [this]
          have : min d 1 ≤ 1 := by omega
          omega
        · intro i hi1 hi2
          by_cases hid : i = k + d
          · rw [hid]
            exact not_lt.mp hlt
          · exact h3 i hi1 (by omega)
  obtain ⟨h1, h2, h3⟩ := key (N - k)
  refine ⟨h1, ?_, ?_⟩
  · have : min (N - k) 1 = 1 := by omega
    rw [this] at h2
    omega
  · intro i hi1 hi2
    exact h3 i hi1 (by omega)

theorem sum_range_ite_eq (N a : Nat) (f : Nat → ℚ) (ha : a < N) :
    ∑ l in Finset.range N, (if l = a then f l else 0) = f a := by
  rw [Finset.sum_ite_eq' (Finset.range N) a f, if_pos (Finset.mem_range.mpr ha)]

theorem Reduced_start (N : Nat) (E0 : Nat → Nat → ℚ) : Reduced N 0 E0 E0 := by
  refine ⟨⟨fun i l => if l = i then 1 else 0, ?_⟩, ?_⟩
  · intro i hi j _
    have : ∀ l ∈ Finset.range N, (if l = i then (1 : ℚ) else 0) * E0 l j =
        if l = i then E0 l j else 0 := by
      intro l _
      by_cases h : l = i <;> simp [h]
    rw [Finset.sum_congr rfl this, sum_range_ite_eq N i (fun l => E0 l j) hi]
  · intro i _ j hj
    omega

/-- A zero pivot column contradicts the nonsingularity of the initial system. -/
theorem Reduced_pivot_ne_zero (N k r : Nat) (E0 E : Nat → Nat → ℚ) (hk : k < N)
    (hred : Reduced N k E0 E)
    (hnonsing : ∀ v : Nat → ℚ,
      (∀ i, i < N → ∑ j in Finset.range N, E0 i j * v j = 0) → ∀ j, j < N → v j = 0)
    (hmax : ∀ i, k ≤ i → i < N → |E i k| ≤ |E r k|) : E r k ≠ 0 := by
  intro hzero
  obtain ⟨⟨T, hT⟩, hunit⟩ := hred
  have hcol : ∀ i, k ≤ i → i < N → E i k = 0 := by
    intro i h1 h2
    have := hmax i h1 h2
    rw [hzero, abs_zero] at this
    exact abs_eq_zero.mp (le_antisymm this (abs_nonneg _))
  set v : Nat → ℚ := fun j => if j = k then 1 else if j < k then -E j k else 0 with hv
  have hE : ∀ l, l < N → ∑ j in Finset.range N, E l j * v j = 0 := by
    intro l hl
    have hterm : ∀ j ∈ Finset.range N, E l j * v j =
        (if j = k then E l k else 0) - (if j = l then (if l < k then E l k else 0) else 0) := by
      intro j hj
      have hjN := Finset.mem_range.mp hj
      by_cases hjk : j = k
      · subst hjk
        by_cases hjl : j = l
        · subst hjl
          simp [hv]
        · simp [hv, hjl]
      · by_cases hlt : j < k
        · rw [hunit l hl j hlt]
          by_cases hjl : j = l
          · subst hjl
            simp [hv, hjk, hlt]
          · have hlj : ¬ l = j := fun h => hjl h.symm
            simp [hv, hjk, hlt, hjl, hlj]
        · by_cases hjl : j = l
          · subst hjl
            simp [hv, hjk, hlt]
          · simp [hv, hjk, hlt, hjl]
    rw [Finset.sum_congr rfl hterm, Finset.sum_sub_distrib,
      sum_range_ite_eq N k (fun _ => E l k) hk,
      sum_range_ite_eq N l (fun _ => if l < k then E l k else 0) hl]
    by_cases hlk : l < k
    · simp [hlk]
    · simp [hlk, hcol l (by omega) hl]
  have h0 : ∀ i, i < N → ∑ j in Finset.range N, E0 i j * v j = 0 := by
    intro i hi
    have : ∀ j ∈ Finset.range N, E0 i j * v j =
        ∑ l in Finset.range N, T i l * (E l j * v j) := by
      intro j hj
      rw [hT i hi j (by have := Finset.mem_range.mp hj; omega), Finset.sum_mul]
      apply Finset.sum_congr rfl
      intro l _
      ring
    rw [Finset.sum_congr rfl this, Finset.sum_comm]
    apply Finset.sum_eq_zero
    intro l hl
    rw [← Finset.mul_sum, hE l (Finset.mem_range.mp hl), mul_zero]
  have := hnonsing v h0 k hk
  simp [hv] at this

/-- One step with a nonzero pivot keeps the state of the elimination. -/
theorem Reduced_step (N k r : Nat) (E0 E : Nat → Nat → ℚ) (hk : k < N) (hkr : k ≤ r)
    (hr : r < N) (hred : Reduced N k E0 E) (hp : E r k ≠ 0) :
    Reduced N (k + 1) E0 (pivotStep E k r) := by
  obtain ⟨⟨T, hT⟩, hunit⟩ := hred
  have hswap_lt : ∀ i, i < N → swapIndex k r i < N := by
    intro i hi
    unfold swapIndex
    split_ifs <;> omega
  -- every current row is a combination of the rows after the step
  have hback : ∀ l, l < N → ∀ j, E l j = ∑ m in Finset.range N,
      ((if m = swapIndex k r l then (if swapIndex k r l = k then 0 else 1) else 0) +
        (if m = k then E l k else 0)) * pivotStep E k r m j := by
    intro l hl j
    have hsplit : ∀ m ∈ Finset.range N,
        ((if m = swapIndex k r l then (if swapIndex k r l = k then (0 : ℚ) else 1) else 0) +
          (if m = k then E l k else 0)) * pivotStep E k r m j =
        (if m = swapIndex k r l then
            (if swapIndex k r l = k then 0 else pivotStep E k r m j) else 0) +
          (if m = k then E l k * pivotStep E k r m j else 0) := by
      intro m _
      rw [add_mul]
      congr 1
      · split_ifs <;> simp
      · split_ifs <;> simp
    rw [Finset.sum_congr rfl hsplit, Finset.sum_add_distrib,
      sum_range_ite_eq N (swapIndex k r l)
        (fun m => if swapIndex k r l = k then 0 else pivotStep E k r m j) (hswap_lt l hl),
      sum_range_ite_eq N k (fun m => E l k * pivotStep E k r m j) hk]
    have hkk : pivotStep E k r k j = E r j / E r k := by simp [pivotStep]
    rw [hkk]
    by_cases hlr : l = r
    · subst hlr
      have : swapIndex k l l = k := by simp [swapIndex]
      rw [if_pos this]
      field_simp
    · have hne : swapIndex k r l ≠ k := by
        unfold swapIndex
        rw [if_neg hlr]
        by_cases hlk : l = k
        · rw [if_pos hlk]
          intro h
          exact hlr (hlk.trans h.symm)
        · rw [if_neg hlk]
          exact hlk
      have hinv : swapIndex k r (swapIndex k r l) = l := by
        unfold swapIndex
        by_cases hlk : l = k
        · subst hlk
          simp [hlr]
        · simp [hlr, hlk]
      rw [if_neg hne]
      have : pivotStep E k r (swapIndex k r l) j = E l j - E l k * (E r j / E r k) := by
        unfold pivotStep
        rw [if_neg hne, hinv]
      rw [this]
      ring
  refine ⟨⟨fun i m => ∑ l in Finset.range N, T i l *
      ((if m = swapIndex k r l then (if swapIndex k r l = k then 0 else 1) else 0) +
        (if m = k then E l k else 0)), ?_⟩, ?_⟩
  · intro i hi j hj
    rw [hT i hi j hj]
    have : ∀ l ∈ Finset.range N, T i l * E l j = ∑ m in Finset.range N, T i l *
        (((if m = swapIndex k r l then (if swapIndex k r l = k then 0 else 1) else 0) +
          (if m = k then E l k else 0)) * pivotStep E k r m j) := by
      intro l hl
      rw [← Finset.mul_sum, ← hback l (Finset.mem_range.mp hl) j]
    rw [Finset.sum_congr rfl this, Finset.sum_comm]
    apply Finset.sum_congr rfl
    intro m _
    rw [Finset.sum_mul]
    apply Finset.sum_congr rfl
    intro l _
    ring
  · intro i hi j hj
    unfold pivotStep
    by_cases hik : i = k
    · subst hik
      rw [if_pos rfl]
      by_cases hjk : j = i
      · subst hjk
        simp [hp]
      · have hij : ¬ i = j := fun h => hjk h.symm
        rw [hunit r hr j (by omega), if_neg (by omega), if_neg hij]
        simp
    · rw [if_neg hik]
      have hs := hswap_lt i hi
      by_cases hjk : j = k
      · subst hjk
        rw [div_self hp, mul_one, sub_self, if_neg hik]
      · have hjlt : j < k := by omega
        rw [hunit r hr j hjlt, if_neg (by omega), zero_div, mul_zero, sub_zero,
          hunit _ hs j hjlt]
        unfold swapIndex
        by_cases hir : i = r
        · subst hir
          rw [if_pos rfl, if_neg (by omega), if_neg (by omega)]
        · rw [if_neg hir, if_neg hik]

/-- After the last column the rows hold the solution. -/
theorem Reduced_final (N : Nat) (E0 E : Nat → Nat → ℚ) (hred : Reduced N N E0 E)
    (i : Nat) (hi : i < N) (j : Nat) (hj : j < N + 3) :
    ∑ l in Finset.range N, E0 i l * E l j = E0 i j := by
  obtain ⟨⟨T, hT⟩, hunit⟩ := hred
  have hTE : ∀ l, l < N → E0 i l = T i l := by
    intro l hl
    rw [hT i hi l (by omega)]
    have : ∀ m ∈ Finset.range N, T i m * E m l = if m = l then T i m else 0 := by
      intro m hm
      rw [hunit m (Finset.mem_range.mp hm) l hl]
      by_cases h : m = l <;> simp [h]
    rw [Finset.sum_congr rfl this, sum_range_ite_eq N l (fun m => T i m) hl]
  rw [hT i hi j hj]
  apply Finset.sum_congr rfl
  intro l hl
  rw [hTE l (Finset.mem_range.mp hl)]

theorem swap_tab (N M : Nat) (E : Nat → Nat → ℚ) (k r : Nat) (hk : k < N) (hr : r < N) :
    ((tab N fun i => tab M (E i)).set k ((tab N fun i => tab M (E i)).getD r [])).set r
        ((tab N fun i => tab M (E i)).getD k []) =
      tab N fun i => tab M (E (swapIndex k r i)) := by
  rw [getD_tab _ _ _ _ hr, getD_tab _ _ _ _ hk, set_tab, set_tab]
  apply tab_congr
  intro i _
  unfold swapIndex
  by_cases hir : i = r
  · simp [hir]
  · by_cases hik : i = k
    · subst hik
      simp [hir]
    · simp [hir, hik]

theorem eliminate_tab (N M : Nat) (E : Nat → Nat → ℚ) (k : Nat) (hk : k < N) (hkM : k < M) :
    eliminate (tab N fun i => tab M (E i)) k =
      tab N fun i => tab M fun j =>
        if i = k then E k j / E k k else E i j - E i k * (E k j / E k k) := by
  unfold eliminate
  dsimp only
  rw [getD_tab _ _ _ _ hk, entry_tab N M E k k hk hkM, map_tab, length_tab]
  show tab N _ = _
  apply tab_congr
  intro i hi
  by_cases hik : i = k
  · rw [if_pos hik]
    apply tab_congr
    intro j _
    rw [if_pos hik]
  · rw [if_neg hik, getD_tab _ _ _ _ hi, zipWith_tab, entry_tab N M E i k hi hkM]
    apply tab_congr
    intro j _
    rw [if_neg hik]

/-- One step of the solver on rows given by their entries, when the pivot is not
zero. -/
theorem gaussStep_tab (N : Nat) (E : Nat → Nat → ℚ) (k : Nat) (hk : k < N)
    (hp : E (pivotRow (tab N fun i => tab (N + 3) (E i)) k N) k ≠ 0) :
    gaussStep N (0, tab N fun i => tab (N + 3) (E i)) k =
      (0, tab N fun i => tab (N + 3)
        (pivotStep E k (pivotRow (tab N fun i => tab (N + 3) (E i)) k N) i)) := by
  obtain ⟨h1, h2, _⟩ := pivotRow_spec (tab N fun i => tab (N + 3) (E i)) k N hk
  unfold gaussStep
  dsimp only
  set r := pivotRow (tab N fun i => tab (N + 3) (E i)) k N with hr
  rw [entry_tab N (N + 3) E r k h2 (by omega), if_neg hp, swap_tab N (N + 3) E k r hk h2,
    eliminate_tab N (N + 3) (fun i => E (swapIndex k r i)) k hk (by omega)]
  congr 1
  apply tab_congr
  intro i _
  apply tab_congr
  intro j _
  have hkk : swapIndex k r k = r := by
    unfold swapIndex
    by_cases h : k = r
    · simp [h]
    · simp [h]
  unfold pivotStep
  rw [hkk]

/-- For a nonsingular system the elimination runs through all columns with the
status `0`. -/
theorem gauss_fold (N : Nat) (E0 : Nat → Nat → ℚ)
    (hnonsing : ∀ v : Nat → ℚ,
      (∀ i, i < N → ∑ j in Finset.range N, E0 i j * v j = 0) → ∀ j, j < N → v j = 0)
    (k : Nat) (hk : k ≤ N) :
    ∃ E, (List.range k).foldl (gaussStep N) ((0 : Int), tab N fun i => tab (N + 3) (E0 i)) =
        (0, tab N fun i => tab (N + 3) (E i)) ∧ Reduced N k E0 E := by
  induction k with
  | zero => exact ⟨E0, rfl, Reduced_start N E0⟩
  | succ k ih =>
    obtain ⟨E, hE, hred⟩ := ih (by omega)
    obtain ⟨h1, h2, h3⟩ := pivotRow_spec (tab N fun i => tab (N + 3) (E i)) k N (by omega)
    have hmax : ∀ i, k ≤ i → i < N →
        |E i k| ≤ |E (pivotRow (tab N fun i => tab (N + 3) (E i)) k N) k| := by
      intro i hi1 hi2
      have := h3 i hi1 hi2
      rwa [entry_tab N (N + 3) E i k hi2 (by omega),
        entry_tab N (N + 3) E _ k h2 (by omega)] at this
    have hp := Reduced_pivot_ne_zero N k _ E0 E (by omega) hred hnonsing hmax
    refine ⟨pivotStep E k (pivotRow (tab N fun i => tab (N + 3) (E i)) k N), ?_,
      Reduced_step N k _ E0 E (by omega) h1 h2 hred hp⟩
    rw [List.range_succ, List.foldl_append, hE]
    simp only [List.foldl_cons, List.foldl_nil]
    exact gaussStep_tab N E k (by omega) hp

/-- The reference solver is exact: for every nonsingular `A` it reports the status
`0` and returns the `X` with `A·X = B`. -/
theorem dgesvRef_solves (N : Nat) (A : HostView N N) (B : HostView N 3) (hdet : A.det ≠ 0) :
    (dgesvRef N A B).1 = 0 ∧ A * (dgesvRef N A B).2 = B := by
  set E0 : Nat → Nat → ℚ := fun i j =>
    if h : i < N then
      (if hj : j < N then A ⟨i, h⟩ ⟨j, hj⟩
        else if hd : j - N < 3 then B ⟨i, h⟩ ⟨j - N, hd⟩ else 0)
    else 0 with hE0
  have hA : ∀ (i j : Fin N), E0 i.val j.val = A i j := by
    intro i j
    simp [hE0, i.isLt, j.isLt]
  have hB : ∀ (i : Fin N) (d : Fin 3), E0 i.val (N + d.val) = B i d := by
    intro i d
    have h1 : ¬ N + d.val < N := by omega
    have h2 : N + d.val - N < 3 := by have := d.isLt; omega
    simp only [hE0, dif_pos i.isLt, dif_neg h1, dif_pos h2]
    congr 1
    apply Fin.ext
    simp
  have hnonsing : ∀ v : Nat → ℚ,
      (∀ i, i < N → ∑ j in Finset.range N, E0 i j * v j = 0) → ∀ j, j < N → v j = 0 := by
    intro v hv j hj
    have hmul : A.mulVec (fun j : Fin N => v j.val) = 0 := by
      funext i
      rw [Matrix.mulVec, Matrix.dotProduct]
      have := hv i.val i.isLt
      rw [← Fin.sum_univ_eq_sum_range (fun j => E0 i.val j * v j) N] at this
      rw [Pi.zero_apply, ← this]
      apply Finset.sum_congr rfl
      intro l _
      rw [hA]
    have := Matrix.eq_zero_of_mulVec_eq_zero hdet hmul
    exact congrFun this ⟨j, hj⟩
  obtain ⟨E, hfold, hred⟩ := gauss_fold N E0 hnonsing N le_rfl
  have hsol := dgesvRef_of_fold N A B (0, tab N fun i => tab (N + 3) (E i))
    (by rw [augmented_eq_tab]; exact hfold) rfl
  rw [hsol]
  refine ⟨rfl, ?_⟩
  funext i d
  rw [Matrix.mul_apply]
  have := Reduced_final N E0 E hred i.val i.isLt (N + d.val) (by have := d.isLt; omega)
  rw [hB] at this
  rw [← this, ← Fin.sum_univ_eq_sum_range (fun l => E0 i.val l * E l (N + d.val)) N]
  apply Finset.sum_congr rfl
  intro l _
  rw [hA]
  congr 1
  exact entry_tab N (N + 3) E l.val (N + d.val) l.isLt (by have := d.isLt; omega)

/-! ## `PerformLeastSquaresFitting`: polynomial reproduction and optimality -/

theorem sample_viewRows {p : Nat} (X : HostView p 3) (j : Nat) (hj : j < p) (d : Fin 3) :
    sample (viewRows X) j d = X ⟨j, hj⟩ d := by
  unfold sample
  rw [List.getD_eq_getElem?_getD, viewRows_getElem? X j hj]
  rfl

theorem viewRows_sample (c : List Array3) (p : Nat) (hc : c.length = p) :
    viewRows (coefficientView p c) = c := by
  apply List.ext_getElem
  · simp [viewRows, hc]
  · intro i h1 h2
    funext d
    simp [viewRows, coefficientView, sample, List.getD_eq_getElem?_getD,
      List.getElem?_eq_getElem h2]

/-- With unit first and last columns there are at least two columns. -/
theorem two_le_columns (p n : Nat) (m : Matrix) (hp : 2 ≤ p)
    (hfirst : ∀ j, j < p → entry m j 0 = if j = 0 then 1 else 0)
    (hlast : ∀ j, j < p → entry m j (n - 1) = if j = p - 1 then 1 else 0) : 2 ≤ n := by
  by_contra h
  have h0 : n - 1 = 0 := by omega
  have h1 := hfirst 0 (by omega)
  have h2 := hlast 0 (by omega)
  rw [h0, h1] at h2
  have : ¬ (0 = p - 1) := by omega
  simp [this] at h2

/-- A product of the assembled system with the coefficients of a curve is the
assembled right-hand side of the samples of that curve. -/
theorem systemA_mul_coefficients (p n : Nat) (m : Matrix) (pts c : List Array3)
    (hp : 2 ≤ p)
    (hfirst : ∀ j, j < p → entry m j 0 = if j = 0 then 1 else 0)
    (hlast : ∀ j, j < p → entry m j (n - 1) = if j = p - 1 then 1 else 0)
    (hsamples : ∀ k, k < n → ∀ d,
      sample pts k d = ∑ j in Finset.range p, entry m j k * sample c j d) :
    systemA p n m * coefficientView p c = systemB p n m pts := by
  have hn := two_le_columns p n m hp hfirst hlast
  funext a d
  by_cases ha : 1 ≤ a.val ∧ a.val < p - 1
  · rw [Matrix.mul_apply]
    unfold systemA systemB coefficientView
    simp only [ha, and_self, if_true]
    simp_rw [Finset.sum_mul]
    rw [Finset.sum_comm]
    apply Finset.sum_congr rfl
    intro k hk
    rw [hsamples k (Finset.mem_range.mp hk) d, Finset.mul_sum,
      ← Fin.sum_univ_eq_sum_range (fun j => entry m a.val k * (entry m j k * sample c j d)) p]
    apply Finset.sum_congr rfl
    intro b _
    ring
  · rw [systemA_boundary_mul p n m _ a d ha]
    unfold systemB coefficientView
    rw [if_neg ha]
    have halt := a.isLt
    by_cases h1 : a.val = p - 1
    · rw [if_pos h1, hsamples (n - 1) (by omega) d]
      rw [Finset.sum_eq_single (p - 1)]
      · rw [hlast (p - 1) (by omega)]
        simp [h1]
      · intro j hj hne
        rw [hlast j (Finset.mem_range.mp hj)]
        simp [hne]
      · intro h
        exact absurd (Finset.mem_range.mpr (by omega)) h
    · have h0 : a.val = 0 := by omega
      rw [if_neg h1, hsamples 0 (by omega) d]
      rw [Finset.sum_eq_single 0]
      · rw [hfirst 0 (by omega)]
        simp [h0]
      · intro j hj hne
        rw [hfirst j (Finset.mem_range.mp hj)]
        simp [hne]
      · intro h
        exact absurd (Finset.mem_range.mpr (by omega)) h

/-- A nonsingular system has at most one solution. -/
theorem solution_unique {p : Nat} (A : HostView p p) (X Y B : HostView p 3)
    (hdet : A.det ≠ 0) (hX : A * X = B) (hY : A * Y = B) : X = Y := by
  have hu : IsUnit A.det := isUnit_iff_ne_zero.mpr hdet
  calc X = (A⁻¹ * A) * X := by rw [Matrix.nonsing_inv_mul A hu, Matrix.one_mul]
    _ = A⁻¹ * (A * X) := Matrix.mul_assoc _ _ _
    _ = A⁻¹ * (A * Y) := by rw [hX, hY]
    _ = (A⁻¹ * A) * Y := (Matrix.mul_assoc _ _ _).symm
    _ = Y := by rw [Matrix.nonsing_inv_mul A hu, Matrix.one_mul]

/-- C6, as stated, fails in binary64. For the `3 × 3` matrix with rows
`(1, 0, 0)`, `(0, β, 0)`, `(0, 0, 1)`, `β = 0x1.c80e838f5p-1`, the first and the
last column are unit vectors, the samples `(0, 3β, 1)` are exactly the
combination of the coefficients `(0, 3, 1)` (`3β` is a double), and the assembled
system `diag(1, fl(β²), 1)` is nonsingular. The right-hand side of the interior
row is `fl(β·3β)`, and the fit returns `3 - 2^(-51)` instead of the coefficient
`3`: this is the quotient `fl(β·3β) / fl(β²)` rounded, also when the solve
multiplies by the reciprocal, and the exact solution of the assembled system is
not `3` either. -/
theorem PerformLeastSquaresFitting64_inexact :
    (∀ j, j < 3 → entry (exactMatrix phi_diagonal) j 0 = if j = 0 then 1 else 0) ∧
    (∀ j, j < 3 → entry (exactMatrix phi_diagonal) j 2 = if j = 2 then 1 else 0) ∧
    (∀ k, k < 3 → ∀ d, sample (exactPoints diagonal_samples) k d =
      ∑ j in Finset.range 3,
        entry (exactMatrix phi_diagonal) j k * sample (exactPoints diagonal_coefficients) j d) ∧
    diagonal_weight * 3 = diagonal_sample ∧
    (∃ A, assembleA64 3 3 phi_diagonal = .ok A ∧ (exactView A).det ≠ 0 ∧
      A = ![![1, 0, 0], ![0, diagonal_weight * diagonal_weight, 0], ![0, 0, 1]]) ∧
    assembleB64 3 3 phi_diagonal diagonal_samples =
      .ok ![![0, 0, 0], ![diagonal_weight * diagonal_sample, diagonal_weight * diagonal_sample,
        diagonal_weight * diagonal_sample], ![1, 1, 1]] ∧
    PerformLeastSquaresFitting64 dgesvRef64 3 phi_diagonal diagonal_samples =
      .ok [![0, 0, 0], ![below_three, below_three, below_three], ![1, 1, 1]] ∧
    PerformLeastSquaresFitting64 dgesvRef64 3 phi_diagonal diagonal_samples ≠
      .ok diagonal_coefficients ∧
    below_three.toRat = 3 - 1 / 2 ^ 51 ∧
    diagonal_weight * diagonal_sample / (diagonal_weight * diagonal_weight) = below_three ∧
    diagonal_weight * diagonal_sample * (1 / (diagonal_weight * diagonal_weight)) =
      below_three ∧
    (diagonal_weight * diagonal_sample).toRat / (diagonal_weight * diagonal_weight).toRat ≠
      3 := by
  refine ⟨by decide!, by decide!, by decide!, by decide!,
    ⟨![![1, 0, 0], ![0, diagonal_weight * diagonal_weight, 0], ![0, 0, 1]],
      by decide!, by decide!, rfl⟩, by decide!, by decide!, by decide!, by decide!, by decide!,
    by decide!, by decide!⟩

/-- C6, amended: polynomial reproduction over exact arithmetic. For `p ≥ 2` and a
`p × n` matrix `Φ` whose first column is `e_0` and whose last column is `e_(p-1)`,
if the samples are `s_k = Σ_j Φ[j][k]·c_j` for `p` coefficients `c` and the
assembled `A` is nonsingular, the fit returns exactly `c` when the solve is exact:
with the reference solver (elimination with partial pivoting, which solves every
nonsingular system) and with every solver that returns `X` with `A·X = B`. -/
theorem PerformLeastSquaresFitting_reproduces (dgesv : Dgesv) (p n : Nat) (m : Matrix)
    (pts c : List Array3) (hp : 2 ≤ p) (hrows : m.length = p)
    (hcols : ∀ row ∈ m, row.length = n) (hpts : pts.length = n) (hc : c.length = p)
    (hfirst : ∀ j, j < p → entry m j 0 = if j = 0 then 1 else 0)
    (hlast : ∀ j, j < p → entry m j (n - 1) = if j = p - 1 then 1 else 0)
    (hsamples : ∀ k, k < n → ∀ d,
      sample pts k d = ∑ j in Finset.range p, entry m j k * sample c j d)
    (A : HostView p p) (B : HostView p 3)
    (hA : assembleA p n m = .ok A) (hB : assembleB p n m pts = .ok B)
    (hdet : A.det ≠ 0) (hsolver : dgesv = dgesvRef ∨ A * (dgesv p A B).2 = B) :
    PerformLeastSquaresFitting dgesv p m pts = .ok c := by
  have hsolve : A * (dgesv p A B).2 = B := by
    rcases hsolver with h | h
    · rw [h]
      exact (dgesvRef_solves p A B hdet).2
    · exact h
  have hn := two_le_columns p n m hp hfirst hlast
  obtain ⟨eA, eB⟩ := assembled_eq p n m pts (by omega) hrows hcols (by omega) (by omega) A B hA hB
  subst eA eB
  rw [PerformLeastSquaresFitting_ok dgesv p n m pts (by omega) hrows hcols (by omega) (by omega)]
  have := solution_unique _ _ _ _ hdet hsolve
    (systemA_mul_coefficients p n m pts c hp hfirst hlast hsamples)
  rw [this, viewRows_sample c p hc]

/-- Five samples of the curve `x = 5t`, `y = 3t² - 2t` and the second-order shape
functions: the fit returns the values of the curve at the three nodes. -/
theorem PerformLeastSquaresFitting_reproduces_witness :
    PerformLeastSquaresFitting dgesvRef 3 phi_second_order parabola_points =
      .ok parabola_coefficients :=
  PerformLeastSquaresFitting_reproduces dgesvRef 3 5 phi_second_order parabola_points
    parabola_coefficients (by decide) (by decide) (by decide) (by decide) (by decide)
    (by decide!) (by decide!) (by decide!)
    (systemA 3 5 phi_second_order) (systemB 3 5 phi_second_order parabola_points)
    (by decide!) (by decide!) (by decide!) (Or.inl rfl)

theorem sample_congr (Y pts : List Array3) (i k : Nat) (h : Y[i]? = pts[k]?) (d : Fin 3) :
    sample Y i d = sample pts k d := by
  unfold sample
  rw [List.getD_eq_getElem?_getD, List.getD_eq_getElem?_getD, h]

theorem sum_range_split (f : Nat → ℚ) (n : Nat) (hn : 2 ≤ n) :
    ∑ k in Finset.range n, f k = f 0 + ∑ k in Finset.Ico 1 (n - 1), f k + f (n - 1) := by
  obtain ⟨t, rfl⟩ : ∃ t, n = t + 2 := ⟨n - 2, by omega⟩
  rw [Finset.sum_range_eq_add_Ico f (by omega), show t + 2 = (t + 1) + 1 by rfl,
    Finset.sum_Ico_succ_top (by omega)]
  simp only [Nat.add_sub_cancel]
  ring

/-- The residuals at the first and the last sample vanish for coefficients
anchored at these samples. -/
theorem residual_boundary (p n : Nat) (m : Matrix) (pts Z : List Array3) (hp : 2 ≤ p)
    (hfirst : ∀ j, j < p → entry m j 0 = if j = 0 then 1 else 0)
    (hlast : ∀ j, j < p → entry m j (n - 1) = if j = p - 1 then 1 else 0)
    (h0 : Z[0]? = pts[0]?) (h1 : Z[p - 1]? = pts[n - 1]?) (d : Fin 3) :
    residual m pts Z p d 0 = 0 ∧ residual m pts Z p d (n - 1) = 0 := by
  unfold residual
  constructor
  · rw [Finset.sum_eq_single 0]
    · rw [hfirst 0 (by omega), sample_congr Z pts 0 0 h0 d]
      simp
    · intro j hj hne
      rw [hfirst j (Finset.mem_range.mp hj)]
      simp [hne]
    · intro h
      exact absurd (Finset.mem_range.mpr (by omega)) h
  · rw [Finset.sum_eq_single (p - 1)]
    · rw [hlast (p - 1) (by omega), sample_congr Z pts (p - 1) (n - 1) h1 d]
      simp
    · intro j hj hne
      rw [hlast j (Finset.mem_range.mp hj)]
      simp [hne]
    · intro h
      exact absurd (Finset.mem_range.mpr (by omega)) h

/-- The normal equations: the residuals of a solution of the assembled system
are orthogonal to every interior row of `Φ`. -/
theorem normal_equations (p n : Nat) (m : Matrix) (pts : List Array3) (X : HostView p 3)
    (hsolve : systemA p n m * X = systemB p n m pts) (i : Nat) (hi1 : 1 ≤ i)
    (hi2 : i < p - 1) (d : Fin 3) :
    ∑ k in Finset.range n, entry m i k * residual m pts (viewRows X) p d k = 0 := by
  have hip : i < p := by omega
  have h := congrFun (congrFun hsolve ⟨i, hip⟩) d
  rw [Matrix.mul_apply] at h
  unfold systemA systemB at h
  simp only [hi1, hi2, and_self, if_true] at h
  simp_rw [Finset.sum_mul] at h
  rw [Finset.sum_comm] at h
  unfold residual
  simp_rw [mul_sub, Finset.sum_sub_distrib]
  rw [sub_eq_zero, ← h]
  apply Finset.sum_congr rfl
  intro k _
  rw [Finset.mul_sum,
    ← Fin.sum_univ_eq_sum_range (fun j => entry m i k * (entry m j k * sample (viewRows X) j d)) p]
  apply Finset.sum_congr rfl
  intro b _
  rw [sample_viewRows X b.val b.isLt d]
  ring

/-- The sum of squared residuals of an anchored competitor is at least that of a
solution of the assembled system. -/
theorem residual_sum_le (p n : Nat) (m : Matrix) (pts Y : List Array3) (X : HostView p 3)
    (hp : 2 ≤ p) (hsolve : systemA p n m * X = systemB p n m pts)
    (h0 : ∀ d, sample Y 0 d = sample (viewRows X) 0 d)
    (h1 : ∀ d, sample Y (p - 1) d = sample (viewRows X) (p - 1) d) (d : Fin 3) :
    ∑ k in Finset.range n, residual m pts (viewRows X) p d k ^ 2 ≤
      ∑ k in Finset.range n, residual m pts Y p d k ^ 2 := by
  -- the difference of the two curves at sample `k`
  have hlin : ∀ k, residual m pts Y p d k = residual m pts (viewRows X) p d k +
      ∑ j in Finset.range p, entry m j k * (sample Y j d - sample (viewRows X) j d) := by
    intro k
    unfold residual
    simp_rw [mul_sub, Finset.sum_sub_distrib]
    ring
  have hcross : ∑ k in Finset.range n, residual m pts (viewRows X) p d k *
      ∑ j in Finset.range p, entry m j k * (sample Y j d - sample (viewRows X) j d) = 0 := by
    simp_rw [Finset.mul_sum]
    rw [Finset.sum_comm]
    apply Finset.sum_eq_zero
    intro j hj
    have hjp := Finset.mem_range.mp hj
    by_cases hint : 1 ≤ j ∧ j < p - 1
    · have hne := normal_equations p n m pts X hsolve j hint.1 hint.2 d
      have : ∀ k, residual m pts (viewRows X) p d k *
          (entry m j k * (sample Y j d - sample (viewRows X) j d)) =
          (sample Y j d - sample (viewRows X) j d) *
            (entry m j k * residual m pts (viewRows X) p d k) := by
        intro k
        ring
      simp_rw [this]
      rw [← Finset.mul_sum, hne, mul_zero]
    · have hz : sample Y j d - sample (viewRows X) j d = 0 := by
        have : j = 0 ∨ j = p - 1 := by omega
        rcases this with h | h
        · rw [h, h0 d, sub_self]
        · rw [h, h1 d, sub_self]
      simp [hz]
  have hexp : ∑ k in Finset.range n, residual m pts Y p d k ^ 2 =
      ∑ k in Finset.range n, residual m pts (viewRows X) p d k ^ 2 +
      2 * (∑ k in Finset.range n, residual m pts (viewRows X) p d k *
        ∑ j in Finset.range p, entry m j k * (sample Y j d - sample (viewRows X) j d)) +
      ∑ k in Finset.range n,
        (∑ j in Finset.range p, entry m j k * (sample Y j d - sample (viewRows X) j d)) ^ 2 := by
    rw [Finset.mul_sum, ← Finset.sum_add_distrib, ← Finset.sum_add_distrib]
    apply Finset.sum_congr rfl
    intro k _
    rw [hlin k]
    ring
  rw [hexp, hcross]
  have : 0 ≤ ∑ k in Finset.range n,
      (∑ j in Finset.range p, entry m j k * (sample Y j d - sample (viewRows X) j d)) ^ 2 :=
    Finset.sum_nonneg fun k _ => sq_nonneg _
  linarith

/-- C7, as stated, fails in binary64. For the matrix and the samples of
`PerformLeastSquaresFitting64_inexact` the assembled system is nonsingular and the
fit returns the interior coefficient `3 - 2^(-51)`, whose residual at the
interior sample is not zero, while the coefficients `(0, 3, 1)`, anchored at the
first and the last sample, have the residual zero: the returned coefficients do
not minimise the sum of squares. The residual of the returned coefficients is not
zero when it is evaluated in binary64 either. -/
theorem PerformLeastSquaresFitting64_not_minimal :
    (∃ A, assembleA64 3 3 phi_diagonal = .ok A ∧ (exactView A).det ≠ 0) ∧
    (∃ X, PerformLeastSquaresFitting64 dgesvRef64 3 phi_diagonal diagonal_samples = .ok X ∧
      diagonal_coefficients[0]? = diagonal_samples[0]? ∧
      diagonal_coefficients[2]? = diagonal_samples[2]? ∧
      ∀ d : Fin 3,
        ∑ k in Finset.Ico 1 2, residual (exactMatrix phi_diagonal) (exactPoints diagonal_samples)
            (exactPoints diagonal_coefficients) 3 d k ^ 2 <
          ∑ k in Finset.Ico 1 2, residual (exactMatrix phi_diagonal)
            (exactPoints diagonal_samples) (exactPoints X) 3 d k ^ 2) ∧
    Double.eq (diagonal_weight * below_three - diagonal_sample) 0 = false ∧
    Double.eq (diagonal_weight * 3 - diagonal_sample) 0 = true := by
  refine ⟨⟨![![1, 0, 0], ![0, diagonal_weight * diagonal_weight, 0], ![0, 0, 1]],
      by decide!, by decide!⟩,
    ⟨[![0, 0, 0], ![below_three, below_three, below_three], ![1, 1, 1]],
      by decide!, by decide!, by decide!, by decide!⟩, by decide!, by decide!⟩

/-- C7, amended: anchored least-squares optimality over exact arithmetic. For
`p ≥ 2` and a `p × n` matrix `Φ` whose first column is `e_0` and whose last column
is `e_(p-1)`, when the solve is exact (the reference solver with a nonsingular
`A`, or any solver that returns `X` with `A·X = B`), the returned coefficients are
anchored at the first and the last sample and minimise, in each coordinate, the
sum of the squared residuals over the interior samples (and over all samples, the
two boundary residuals being zero) among all coefficient sequences `Y` with
`Y_0 = s_0` and `Y_(p-1) = s_(n-1)`. -/
theorem PerformLeastSquaresFitting_optimal (dgesv : Dgesv) (p n : Nat) (m : Matrix)
    (pts : List Array3) (hp : 2 ≤ p) (hrows : m.length = p)
    (hcols : ∀ row ∈ m, row.length = n) (hpts : n ≤ pts.length)
    (hfirst : ∀ j, j < p → entry m j 0 = if j = 0 then 1 else 0)
    (hlast : ∀ j, j < p → entry m j (n - 1) = if j = p - 1 then 1 else 0)
    (A : HostView p p) (B : HostView p 3)
    (hA : assembleA p n m = .ok A) (hB : assembleB p n m pts = .ok B)
    (hsolver : (dgesv = dgesvRef ∧ A.det ≠ 0) ∨ A * (dgesv p A B).2 = B) :
    ∃ X, PerformLeastSquaresFitting dgesv p m pts = .ok X ∧
      X[0]? = pts[0]? ∧ X[p - 1]? = pts[n - 1]? ∧
      ∀ Y : List Array3, Y[0]? = pts[0]? → Y[p - 1]? = pts[n - 1]? → ∀ d : Fin 3,
        (∑ k in Finset.Ico 1 (n - 1), residual m pts X p d k ^ 2 ≤
          ∑ k in Finset.Ico 1 (n - 1), residual m pts Y p d k ^ 2) ∧
        (∑ k in Finset.range n, residual m pts X p d k ^ 2 ≤
          ∑ k in Finset.range n, residual m pts Y p d k ^ 2) ∧
        residual m pts Y p d 0 = 0 ∧ residual m pts Y p d (n - 1) = 0 := by
  have hsolve : A * (dgesv p A B).2 = B := by
    rcases hsolver with ⟨h, hdet⟩ | h
    · rw [h]
      exact (dgesvRef_solves p A B hdet).2
    · exact h
  have hn := two_le_columns p n m hp hfirst hlast
  obtain ⟨X, hX, _, hX0, hX1⟩ := anchored_of_solve dgesv p n m pts hp hrows
    hcols (by omega) hpts A B hA hB hsolve
  obtain ⟨eA, eB⟩ := assembled_eq p n m pts (by omega) hrows hcols (by omega) hpts A B hA hB
  subst eA eB
  have hXv : X = viewRows (dgesv p (systemA p n m) (systemB p n m pts)).2 := by
    rw [PerformLeastSquaresFitting_ok dgesv p n m pts (by omega) hrows hcols (by omega) hpts]
      at hX
    exact (Except.ok.inj hX).symm
  refine ⟨X, hX, hX0, hX1, ?_⟩
  intro Y hY0 hY1 d
  have hall : ∑ k in Finset.range n, residual m pts X p d k ^ 2 ≤
      ∑ k in Finset.range n, residual m pts Y p d k ^ 2 := by
    rw [hXv]
    apply residual_sum_le p n m pts Y _ hp hsolve
    · intro d
      rw [← hXv, sample_congr Y pts 0 0 hY0 d, sample_congr X pts 0 0 hX0 d]
    · intro d
      rw [← hXv, sample_congr Y pts (p - 1) (n - 1) hY1 d,
        sample_congr X pts (p - 1) (n - 1) hX1 d]
  obtain ⟨bX0, bX1⟩ := residual_boundary p n m pts X hp hfirst hlast hX0 hX1 d
  obtain ⟨bY0, bY1⟩ := residual_boundary p n m pts Y hp hfirst hlast hY0 hY1 d
  refine ⟨?_, hall, bY0, bY1⟩
  have sX := sum_range_split (fun k => residual m pts X p d k ^ 2) n hn
  have sY := sum_range_split (fun k => residual m pts Y p d k ^ 2) n hn
  simp only [bX0, bX1, bY0, bY1] at sX sY
  rw [sX, sY] at hall
  linarith

/-- The second-order shape functions with five scattered samples: in the third
coordinate the fit is at least as good on the interior samples as the anchored
competitor whose interior coefficient is zero. -/
theorem PerformLeastSquaresFitting_optimal_witness :
    ∃ X, PerformLeastSquaresFitting dgesvRef 3 phi_second_order scattered_points = .ok X ∧
      ∑ k in Finset.Ico 1 4, residual phi_second_order scattered_points X 3 2 k ^ 2 ≤
        ∑ k in Finset.Ico 1 4, residual phi_second_order scattered_points
          [![0, 0, 0], ![0, 0, 0], ![4, 8, 12]] 3 2 k ^ 2 := by
  obtain ⟨X, hX, _, _, hmin⟩ :=
    PerformLeastSquaresFitting_optimal dgesvRef 3 5 phi_second_order scattered_points
      (by decide) (by decide) (by decide) (by decide) (by decide!) (by decide!)
      (systemA 3 5 phi_second_order) (systemB 3 5 phi_second_order scattered_points)
      (by decide!) (by decide!) (Or.inl ⟨rfl, by decide!⟩)
  exact ⟨X, hX, (hmin [![0, 0, 0], ![0, 0, 0], ![4, 8, 12]] (by decide!) (by decide!) 2).1⟩

/-! ## `ShapeFunctionMatrices`: Lagrange weights -/

theorem matWrite_tab (p n : Nat) (G : Nat → Nat → ℚ) (k j : Nat) (x : ℚ) (hk : k < p)
    (hj : j < n) :
    matWrite (tab p fun a => tab n (G a)) k j x =
      .ok (tab p fun a => tab n fun b => if a = k ∧ b = j then x else G a b) := by
  unfold matWrite
  rw [vecRead_tab _ _ _ hk, ok_bind, vecWrite_tab _ _ _ _ hj, ok_bind, vecWrite_tab _ _ _ _ hk]
  congr 1
  apply tab_congr
  intro a _
  by_cases ha : a = k
  · subst ha
    simp
  · simp [ha]

/-- The loop that copies a weight vector into column `j` (lines 65-67). -/
theorem column_loop (p n q : Nat) (G : Nat → Nat → ℚ) (w : Nat → ℚ) (j : Nat) (hj : j < n)
    (hq : p ≤ q) :
    (forLoop 0 p (tab p fun a => tab n (G a)) fun k shape_functions => do
        let x ← vecRead (tab q w) k
        matWrite shape_functions k j x) =
      .ok (tab p fun a => tab n fun b => if b = j then w a else G a b) := by
  refine (forLoop_eq_ok (fun t => tab p fun a => tab n fun b =>
      if b = j ∧ a < t then w a else G a b) 0 p _ _ (by omega) ?_ ?_).trans ?_
  · apply tab_congr
    intro a _
    apply tab_congr
    intro b _
    simp
  · intro k _ hk
    rw [vecRead_tab _ _ _ (by omega), ok_bind, matWrite_tab p n _ k j _ hk hj]
    congr 1
    apply tab_congr
    intro a _
    apply tab_congr
    intro b _
    by_cases h1 : a = k ∧ b = j
    · have : b = j ∧ a < k + 1 := by omega
      rw [if_pos h1, if_pos this, h1.1]
    · rw [if_neg h1]
      have : (b = j ∧ a < k + 1) ↔ (b = j ∧ a < k) := by omega
      simp only [this]
  · congr 1
    apply tab_congr
    intro a ha
    apply tab_congr
    intro b _
    simp [ha]

theorem filter_ne_toFinset (n k : Nat) :
    ((List.range n).filter (fun j => decide (j ≠ k))).toFinset = (Finset.range n).erase k := by
  ext a
  simp [List.mem_filter, Finset.mem_erase, and_comm]

theorem filter_ne_ne_toFinset (n k i : Nat) :
    ((List.range n).filter (fun m => decide (m ≠ k ∧ m ≠ i))).toFinset =
      ((Finset.range n).erase k).erase i := by
  ext a
  simp [List.mem_filter, Finset.mem_erase]
  tauto

/-- The modelled interpolation weights are the products `interpWeight`. -/
theorem interpWeights_eq_tab (x : ℚ) (xs : List ℚ) :
    LagrangePolynomialInterpWeights x xs = tab xs.length fun k => interpWeight xs k x := by
  unfold LagrangePolynomialInterpWeights tab interpWeight
  apply List.map_congr_left
  intro k _
  rw [← filter_ne_toFinset, List.prod_toFinset _ ((List.nodup_range _).filter _)]

/-- The modelled derivative weights are the sums `derivWeight`. -/
theorem derivWeights_eq_tab (x : ℚ) (xs : List ℚ) :
    LagrangePolynomialDerivWeights x xs = tab xs.length fun k => derivWeight xs k x := by
  unfold LagrangePolynomialDerivWeights tab derivWeight
  apply List.map_congr_left
  intro k _
  have hprod : ∀ i, (((List.range xs.length).filter (fun m => decide (m ≠ k ∧ m ≠ i))).map
      (fun m => (x - xs.getD m 0) / (xs.getD k 0 - xs.getD m 0))).prod =
      ∏ m in ((Finset.range xs.length).erase k).erase i,
        (x - xs.getD m 0) / (xs.getD k 0 - xs.getD m 0) := by
    intro i
    rw [← filter_ne_ne_toFinset, List.prod_toFinset _ ((List.nodup_range _).filter _)]
  simp_rw [hprod]
  rw [← filter_ne_toFinset, List.sum_toFinset _ ((List.nodup_range _).filter _)]

/-- A loop that fills a `p × n` matrix column by column with weight vectors
(lines 63-67 and 97-102), carrying the last weight vector along. -/
theorem matrix_loop (p n : Nat) (pts : List ℚ) (hn : pts.length = n)
    (weights : ℚ → List ℚ) (w : Nat → ℚ → ℚ) (q : Nat) (hq : p ≤ q)
    (hw : ∀ x, weights x = tab q fun k => w k x) (init : List ℚ) :
    (forLoop 0 n (List.replicate p (List.replicate n (0 : ℚ)), init)
      fun j (st : Matrix × List ℚ) => do
        let x ← vecRead pts j
        let weights := weights x
        let shape_functions ← forLoop 0 p st.1 fun k shape_functions => do
          let w ← vecRead weights k
          matWrite shape_functions k j w
        pure (shape_functions, weights)) =
      .ok (tab p fun k => tab n fun j => w k (pts.getD j 0),
        if n = 0 then init else weights (pts.getD (n - 1) 0)) := by
  refine (forLoop_eq_ok (fun t => ((tab p fun k => tab n fun j =>
        if j < t then w k (pts.getD j 0) else 0),
      if t = 0 then init else weights (pts.getD (t - 1) 0))) 0 n _ _ (by omega) ?_ ?_).trans ?_
  · simp only [Nat.not_lt_zero, if_false, if_true]
    rw [replicate_eq_tab]
    congr 1
    apply tab_congr
    intro a _
    rw [replicate_eq_tab]
  · intro j _ hj
    rw [vecRead_ok pts 0 j (by omega), ok_bind]
    dsimp only
    rw [hw, column_loop p n q _ _ j hj hq, ok_bind]
    simp only [pure, Except.pure, Nat.add_sub_cancel, Nat.succ_ne_zero, if_false]
    congr 2
    swap
    · exact (hw _).symm
    apply tab_congr
    intro a _
    apply tab_congr
    intro b _
    by_cases h1 : b = j
    · have : b < j + 1 := by omega
      rw [if_pos h1, if_pos this, h1]
    · rw [if_neg h1]
      have : b < j + 1 ↔ b < j := by omega
      simp only [this]
  · congr 2
    apply tab_congr
    intro a _
    apply tab_congr
    intro b hb
    simp [hb]

/-- Mode B returns the two matrices of weights. -/
theorem ShapeFunctionMatricesB_ok (input_pts output_pts : List ℚ) :
    ShapeFunctionMatricesB input_pts output_pts =
      .ok (tab output_pts.length fun k => tab input_pts.length fun j =>
            interpWeight output_pts k (input_pts.getD j 0),
          tab output_pts.length fun k => tab input_pts.length fun j =>
            derivWeight output_pts k (input_pts.getD j 0)) := by
  unfold ShapeFunctionMatricesB
  dsimp only
  rw [matrix_loop output_pts.length input_pts.length input_pts rfl
    (fun x => LagrangePolynomialInterpWeights x output_pts)
    (fun k x => interpWeight output_pts k x) output_pts.length (le_refl _)
    (fun x => interpWeights_eq_tab x output_pts), ok_bind]
  dsimp only
  rw [matrix_loop output_pts.length input_pts.length input_pts rfl
    (fun x => LagrangePolynomialDerivWeights x output_pts)
    (fun k x => derivWeight output_pts k x) output_pts.length (le_refl _)
    (fun x => derivWeights_eq_tab x output_pts), ok_bind]
  rfl

/-- Mode A returns the two matrices of weights over the generated nodes. -/
theorem ShapeFunctionMatrices_ok (GenerateGLLPoints : Nat → List ℚ) (n p : Nat)
    (evaluation_pts : List ℚ) (hn : evaluation_pts.length = n)
    (hgll : p ≤ (GenerateGLLPoints (usub p 1)).length) :
    ShapeFunctionMatrices GenerateGLLPoints n p evaluation_pts =
      .ok (tab p fun k => tab n fun j =>
            interpWeight (GenerateGLLPoints (usub p 1)) k (evaluation_pts.getD j 0),
          tab p fun k => tab n fun j =>
            derivWeight (GenerateGLLPoints (usub p 1)) k (evaluation_pts.getD j 0),
          GenerateGLLPoints (usub p 1)) := by
  unfold ShapeFunctionMatrices
  dsimp only
  set gll := GenerateGLLPoints (usub p 1) with hgll_def
  have key := forLoop_eq_ok (fun t =>
      ((tab p fun k => tab n fun j =>
          if j < t then interpWeight gll k (evaluation_pts.getD j 0) else 0),
        (tab p fun k => tab n fun j =>
          if j < t then derivWeight gll k (evaluation_pts.getD j 0) else 0),
        if t = 0 then List.replicate p (0 : ℚ)
        else LagrangePolynomialDerivWeights (evaluation_pts.getD (t - 1) 0) gll))
    0 n
    (List.replicate p (List.replicate n (0 : ℚ)), List.replicate p (List.replicate n (0 : ℚ)),
      List.replicate p (0 : ℚ))
    (fun j (st : Matrix × Matrix × List ℚ) => do
        let x ← vecRead evaluation_pts j
        let weights := LagrangePolynomialInterpWeights x gll
        let shape_functions ← forLoop 0 p st.1 fun k shape_functions => do
          let w ← vecRead weights k
          matWrite shape_functions k j w
        let x ← vecRead evaluation_pts j
        let weights := LagrangePolynomialDerivWeights x gll
        let derivative_functions ← forLoop 0 p st.2.1 fun k derivative_functions => do
          let w ← vecRead weights k
          matWrite derivative_functions k j w
        pure (shape_functions, derivative_functions, weights))
    (by omega)
    (by
      simp only [Nat.not_lt_zero, if_false, if_true]
      rw [replicate_eq_tab p (List.replicate n (0 : ℚ)), replicate_eq_tab n (0 : ℚ)])
    (by
      intro j _ hj
      have step : ∀ (f : Nat → ℚ → ℚ) (a b : Nat),
          (if b = j then f a (evaluation_pts.getD j 0)
            else if b < j then f a (evaluation_pts.getD b 0) else 0) =
          if b < j + 1 then f a (evaluation_pts.getD b 0) else 0 := by
        intro f a b
        by_cases h1 : b = j
        · have : b < j + 1 := by omega
          rw [if_pos h1, if_pos this, h1]
        · rw [if_neg h1]
          have : b < j + 1 ↔ b < j := by omega
          simp only [this]
      beta_reduce
      rw [vecRead_ok evaluation_pts 0 j (by omega), ok_bind]
      dsimp only
      rw [interpWeights_eq_tab, column_loop p n gll.length _ _ j hj hgll, ok_bind,
        ok_bind, derivWeights_eq_tab, column_loop p n gll.length _ _ j hj hgll, ok_bind]
      simp only [pure, Except.pure, Nat.add_sub_cancel, Nat.succ_ne_zero, if_false]
      congr 2
      · apply tab_congr
        intro a _
        apply tab_congr
        intro b _
        exact step (fun a x => interpWeight gll a x) a b
      · congr 1
        · apply tab_congr
          intro a _
          apply tab_congr
          intro b _
          exact step (fun a x => derivWeight gll a x) a b
        · exact (derivWeights_eq_tab _ _).symm)
  rw [key, ok_bind]
  simp only [pure, Except.pure]
  congr 2
  · apply tab_congr
    intro a _
    apply tab_congr
    intro b hb
    simp [hb]
  · congr 1
    apply tab_congr
    intro a _
    apply tab_congr
    intro b hb
    simp [hb]

/-- The interpolation weight is the value of Mathlib's Lagrange basis polynomial. -/
theorem interpWeight_eq_eval (xs : List ℚ) (k : Nat) (x : ℚ) :
    interpWeight xs k x =
      Polynomial.eval x (Lagrange.basis (Finset.range xs.length) (fun i => xs.getD i 0) k) := by
  unfold interpWeight Lagrange.basis
  rw [Polynomial.eval_prod]
  apply Finset.prod_congr rfl
  intro i _
  simp [Lagrange.basisDivisor, div_eq_inv_mul]

theorem derivative_finset_prod (s : Finset Nat) (f : Nat → Polynomial ℚ) :
    Polynomial.derivative (∏ i in s, f i) =
      ∑ i in s, (∏ j in s.erase i, f j) * Polynomial.derivative (f i) := by
  simp only [Finset.prod_eq_multiset_prod, Finset.sum_eq_multiset_sum,
    Polynomial.derivative_prod, Finset.erase_val]

/-- The sum-of-products derivative weight is the value of the derivative of
Mathlib's Lagrange basis polynomial. -/
theorem derivWeight_eq_eval (xs : List ℚ) (k : Nat) (x : ℚ) :
    derivWeight xs k x =
      Polynomial.eval x (Polynomial.derivative
        (Lagrange.basis (Finset.range xs.length) (fun i => xs.getD i 0) k)) := by
  unfold derivWeight Lagrange.basis
  rw [derivative_finset_prod, Polynomial.eval_finset_sum]
  apply Finset.sum_congr rfl
  intro i _
  rw [Polynomial.eval_mul, Polynomial.eval_prod]
  have h1 : Polynomial.eval x (Polynomial.derivative
      (Lagrange.basisDivisor (xs.getD k 0) (xs.getD i 0))) = (xs.getD k 0 - xs.getD i 0)⁻¹ := by
    simp [Lagrange.basisDivisor]
  rw [h1, div_eq_mul_inv]
  congr 1
  apply Finset.prod_congr rfl
  intro m _
  simp [Lagrange.basisDivisor, div_eq_inv_mul]

theorem nodes_injOn (xs : List ℚ) (hnd : xs.Nodup) :
    Set.InjOn (fun i => xs.getD i 0) (Finset.range xs.length : Set Nat) := by
  intro a ha b hb hab
  have ha' : a < xs.length := by simpa using ha
  have hb' : b < xs.length := by simpa using hb
  simp only [List.getD_eq_getElem _ _ ha', List.getD_eq_getElem _ _ hb'] at hab
  exact (List.Nodup.getElem_inj_iff hnd).mp hab

/-- At a node of a set of pairwise distinct nodes the weight vector is a unit
vector. -/
theorem interpWeight_node (xs : List ℚ) (hnd : xs.Nodup) (k j : Nat) (hk : k < xs.length)
    (hj : j < xs.length) : interpWeight xs k (xs.getD j 0) = if k = j then 1 else 0 := by
  rw [interpWeight_eq_eval]
  by_cases h : k = j
  · subst h
    rw [if_pos rfl]
    exact Lagrange.eval_basis_self (v := fun i => xs.getD i 0) (nodes_injOn xs hnd)
      (Finset.mem_range.mpr hk)
  · rw [if_neg h]
    exact Lagrange.eval_basis_of_ne (v := fun i => xs.getD i 0) h (Finset.mem_range.mpr hj)

/-- Partition of unity of the interpolation weights over pairwise distinct nodes. -/
theorem interpWeight_sum (xs : List ℚ) (hnd : xs.Nodup) (hne : xs ≠ []) (x : ℚ) :
    ∑ k in Finset.range xs.length, interpWeight xs k x = 1 := by
  simp_rw [interpWeight_eq_eval]
  rw [← Polynomial.eval_finset_sum, Lagrange.sum_basis (nodes_injOn xs hnd)
    (Finset.nonempty_range_iff.mpr (by simpa using hne))]
  simp

theorem column_sum_tab (p n : Nat) (G : Nat → Nat → ℚ) (j : Nat) (hj : j < n) :
    ((tab p fun a => tab n (G a)).map fun row => row.getD j 0).sum =
      ∑ k in Finset.range p, G k j := by
  unfold tab
  have hr : (List.range p).toFinset = Finset.range p := by
    ext a
    simp
  rw [List.map_map, ← List.sum_toFinset _ (List.nodup_range p), hr]
  apply Finset.sum_congr rfl
  intro k _
  show ((List.range n).map (G k)).getD j 0 = G k j
  exact getD_tab n (G k) j 0 hj

/-- C8: for Mode A with `p ≥ 2`, `n = evaluation_pts.size()` and a node generator
that returns `p` nodes, both returned matrices have exactly `p` rows of exactly
`n` columns; the interpolation entry `[k][j]` is the Lagrange weight
`L_k(x_j) = Π_{i≠k} (x_j - g_i)/(g_k - g_i)` over the returned nodes `g`, the value
at `x_j` of the `k`-th Lagrange basis polynomial, and the derivative entry `[k][j]`
is the sum-of-products weight, the value at `x_j` of the derivative of that
polynomial. -/
theorem ShapeFunctionMatrices_lagrange (GenerateGLLPoints : Nat → List ℚ) (n p : Nat)
    (evaluation_pts : List ℚ) (hp : 2 ≤ p) (hn : evaluation_pts.length = n)
    (hgll : (GenerateGLLPoints (p - 1)).length = p) :
    ∃ Φ dΦ, ShapeFunctionMatrices GenerateGLLPoints n p evaluation_pts =
        .ok (Φ, dΦ, GenerateGLLPoints (p - 1)) ∧
      Φ.length = p ∧ (∀ row ∈ Φ, row.length = n) ∧
      dΦ.length = p ∧ (∀ row ∈ dΦ, row.length = n) ∧
      ∀ k j, k < p → j < n →
        entry Φ k j = ∏ i in (Finset.range p).erase k,
          (evaluation_pts.getD j 0 - (GenerateGLLPoints (p - 1)).getD i 0) /
            ((GenerateGLLPoints (p - 1)).getD k 0 - (GenerateGLLPoints (p - 1)).getD i 0) ∧
        entry Φ k j = Polynomial.eval (evaluation_pts.getD j 0)
          (Lagrange.basis (Finset.range p) (fun i => (GenerateGLLPoints (p - 1)).getD i 0) k) ∧
        entry dΦ k j = derivWeight (GenerateGLLPoints (p - 1)) k (evaluation_pts.getD j 0) ∧
        entry dΦ k j = Polynomial.eval (evaluation_pts.getD j 0) (Polynomial.derivative
          (Lagrange.basis (Finset.range p) (fun i => (GenerateGLLPoints (p - 1)).getD i 0) k)) := by
  have hu : usub p 1 = p - 1 := usub_one p (by omega)
  have hok := ShapeFunctionMatrices_ok GenerateGLLPoints n p evaluation_pts hn
    (by rw [hu, hgll])
  rw [hu] at hok
  refine ⟨_, _, hok, (rows_tab p n _).1, (rows_tab p n _).2, (rows_tab p n _).1,
    (rows_tab p n _).2, ?_⟩
  intro k j hk hj
  rw [entry_tab p n _ k j hk hj, entry_tab p n _ k j hk hj]
  have h1 := interpWeight_eq_eval (GenerateGLLPoints (p - 1)) k (evaluation_pts.getD j 0)
  have h2 := derivWeight_eq_eval (GenerateGLLPoints (p - 1)) k (evaluation_pts.getD j 0)
  rw [hgll] at h1 h2
  refine ⟨?_, h1, rfl, h2⟩
  unfold interpWeight
  rw [hgll]

/-- The test `ShapeFunctionMatrices_FirstOrder`: `n = 3`, `p = 2`, the nodes
`{-1, 1}` and the points `{-1, 0, 1}` give the rows `{1, 0.5, 0}`, `{0, 0.5, 1}` and
the derivative rows `{-0.5, -0.5, -0.5}`, `{0.5, 0.5, 0.5}`. -/
theorem ShapeFunctionMatrices_lagrange_witness :
    ShapeFunctionMatrices (fun _ => [-1, 1]) 3 2 [-1, 0, 1] =
        .ok ([[1, 1 / 2, 0], [0, 1 / 2, 1]],
          [[-1 / 2, -1 / 2, -1 / 2], [1 / 2, 1 / 2, 1 / 2]], [-1, 1]) ∧
      ∃ Φ dΦ, ShapeFunctionMatrices (fun _ => [-1, 1]) 3 2 [-1, 0, 1] = .ok (Φ, dΦ, [-1, 1]) ∧
        Φ.length = 2 ∧ dΦ.length = 2 ∧ entry Φ 0 1 = 1 / 2 ∧ entry dΦ 1 2 = 1 / 2 := by
  refine ⟨by decide!, ?_⟩
  obtain ⟨Φ, dΦ, h, h1, _, h2, _, hentry⟩ :=
    ShapeFunctionMatrices_lagrange (fun _ => [-1, 1]) 3 2 [-1, 0, 1] (by decide) (by decide)
      (by decide)
  refine ⟨Φ, dΦ, h, h1, h2, ?_, ?_⟩
  · rw [(hentry 0 1 (by decide) (by decide)).1]
    decide!
  · rw [(hentry 1 2 (by decide) (by decide)).2.2.1]
    decide!

/-- C9: for pairwise distinct points `xs`, the interpolation matrix of Mode B
`ShapeFunctionMatrices(xs, xs)` is the identity matrix. -/
theorem ShapeFunctionMatricesB_identity (xs : List ℚ) (hnd : xs.Nodup) :
    ∃ Φ dΦ, ShapeFunctionMatricesB xs xs = .ok (Φ, dΦ) ∧
      Φ.length = xs.length ∧ (∀ row ∈ Φ, row.length = xs.length) ∧
      ∀ k j, k < xs.length → j < xs.length → entry Φ k j = if k = j then 1 else 0 := by
  refine ⟨_, _, ShapeFunctionMatricesB_ok xs xs, (rows_tab _ _ _).1, (rows_tab _ _ _).2, ?_⟩
  intro k j hk hj
  rw [entry_tab _ _ _ k j hk hj]
  exact interpWeight_node xs hnd k j hk hj

/-- The nodes `{-1, 0, 1}` evaluated at themselves. -/
theorem ShapeFunctionMatricesB_identity_witness :
    ∃ Φ dΦ, ShapeFunctionMatricesB [-1, 0, 1] [-1, 0, 1] = .ok (Φ, dΦ) ∧
      Φ.length = 3 ∧ (∀ row ∈ Φ, row.length = 3) ∧
      ∀ k j, k < 3 → j < 3 → entry Φ k j = if k = j then 1 else 0 :=
  ShapeFunctionMatricesB_identity [-1, 0, 1] (by decide)

/-- C10: partition of unity. For pairwise distinct nodes `output_pts` and any
evaluation points `input_pts`, the interpolation matrix of Mode B has
`output_pts.size()` rows of `input_pts.size()` columns and every column of it sums
to `1` over its rows. -/
theorem ShapeFunctionMatricesB_partition_of_unity (input_pts output_pts : List ℚ)
    (hnd : output_pts.Nodup) :
    ∃ Φ dΦ, ShapeFunctionMatricesB input_pts output_pts = .ok (Φ, dΦ) ∧
      Φ.length = output_pts.length ∧ (∀ row ∈ Φ, row.length = input_pts.length) ∧
      ∀ j, j < (Φ.headD []).length → (Φ.map fun row => row.getD j 0).sum = 1 := by
  refine ⟨_, _, ShapeFunctionMatricesB_ok input_pts output_pts, (rows_tab _ _ _).1,
    (rows_tab _ _ _).2, ?_⟩
  intro j hj
  by_cases hne : output_pts = []
  · subst hne
    simp [tab] at hj
  · have hpos : 0 < output_pts.length := List.length_pos.mpr hne
    have hj' : j < input_pts.length := by
      have hmem : (tab output_pts.length fun k => tab input_pts.length fun j =>
          interpWeight output_pts k (input_pts.getD j 0)).headD [] ∈
          (tab output_pts.length fun k => tab input_pts.length fun j =>
            interpWeight output_pts k (input_pts.getD j 0)) := by
        rw [List.headD_eq_head?_getD, List.head?_eq_getElem?, getElem?_tab, if_pos hpos]
        unfold tab
        exact List.mem_map.mpr ⟨0, List.mem_range.mpr hpos, rfl⟩
      rw [(rows_tab _ _ _).2 _ hmem] at hj
      exact hj
    rw [column_sum_tab _ _ _ j hj']
    exact interpWeight_sum output_pts hnd hne _

/-- The test `ShapeFunctionMatrices_SecondOrder`: the columns of
`{1, 0.375, 0, -0.125, 0}`, `{0, 0.75, 1, 0.75, 0}`, `{0, -0.125, 0, 0.375, 1}` sum
to `1`. -/
theorem ShapeFunctionMatricesB_partition_of_unity_witness :
    ShapeFunctionMatricesB [-1, -1 / 2, 0, 1 / 2, 1] [-1, 0, 1] =
        .ok (phi_second_order,
          [[-3 / 2, -1, -1 / 2, 0, 1 / 2], [2, 1, 0, -1, -2], [-1 / 2, 0, 1 / 2, 1, 3 / 2]]) ∧
      ∃ Φ dΦ, ShapeFunctionMatricesB [-1, -1 / 2, 0, 1 / 2, 1] [-1, 0, 1] = .ok (Φ, dΦ) ∧
        Φ.length = 3 ∧ (∀ row ∈ Φ, row.length = 5) ∧
        ∀ j, j < (Φ.headD []).length → (Φ.map fun row => row.getD j 0).sum = 1 :=
  ⟨by decide!,
    ShapeFunctionMatricesB_partition_of_unity [-1, -1 / 2, 0, 1 / 2, 1] [-1, 0, 1] (by decide)⟩

/-! ## `ShapeFunctionMatrices`: derivative weights sum to zero -/

/-- The derivative weights over pairwise distinct nodes sum to zero. -/
theorem derivWeight_sum (xs : List ℚ) (hnd : xs.Nodup) (x : ℚ) :
    ∑ k in Finset.range xs.length, derivWeight xs k x = 0 := by
  by_cases hne : xs = []
  · subst hne
    simp
  · simp_rw [derivWeight_eq_eval]
    rw [← Polynomial.eval_finset_sum, ← Polynomial.derivative_sum,
      Lagrange.sum_basis (nodes_injOn xs hnd)
        (Finset.nonempty_range_iff.mpr (by simpa using hne))]
    simp

/-- C11: for pairwise distinct nodes `output_pts` and any evaluation points
`input_pts`, also points that coincide with a node, the derivative matrix of
Mode B has `output_pts.size()` rows of `input_pts.size()` columns and every column
of it sums to `0` over its rows. -/
theorem ShapeFunctionMatricesB_derivative_sum (input_pts output_pts : List ℚ)
    (hnd : output_pts.Nodup) :
    ∃ Φ dΦ, ShapeFunctionMatricesB input_pts output_pts = .ok (Φ, dΦ) ∧
      dΦ.length = output_pts.length ∧ (∀ row ∈ dΦ, row.length = input_pts.length) ∧
      ∀ j, j < input_pts.length → (dΦ.map fun row => row.getD j 0).sum = 0 := by
  refine ⟨_, _, ShapeFunctionMatricesB_ok input_pts output_pts, (rows_tab _ _ _).1,
    (rows_tab _ _ _).2, ?_⟩
  intro j hj
  rw [column_sum_tab _ _ _ j hj]
  exact derivWeight_sum output_pts hnd _

/-- The test `ShapeFunctionMatrices_SecondOrder`: the evaluation points `-1`, `0`
and `1` coincide with nodes, and the columns of `{-1.5, -1, -0.5, 0, 0.5}`,
`{2, 1, 0, -1, -2}`, `{-0.5, 0, 0.5, 1, 1.5}` sum to `0`. -/
theorem ShapeFunctionMatricesB_derivative_sum_witness :
    ∃ Φ dΦ, ShapeFunctionMatricesB [-1, -1 / 2, 0, 1 / 2, 1] [-1, 0, 1] = .ok (Φ, dΦ) ∧
      dΦ = [[-3 / 2, -1, -1 / 2, 0, 1 / 2], [2, 1, 0, -1, -2], [-1 / 2, 0, 1 / 2, 1, 3 / 2]] ∧
      ∀ j, j < 5 → (dΦ.map fun row => row.getD j 0).sum = 0 := by
  obtain ⟨Φ, dΦ, h, _, _, hsum⟩ :=
    ShapeFunctionMatricesB_derivative_sum [-1, -1 / 2, 0, 1 / 2, 1] [-1, 0, 1] (by decide)
  refine ⟨Φ, dΦ, h, ?_, hsum⟩
  have h' : ShapeFunctionMatricesB [-1, -1 / 2, 0, 1 / 2, 1] [-1, 0, 1] =
      .ok (phi_second_order,
        [[-3 / 2, -1, -1 / 2, 0, 1 / 2], [2, 1, 0, -1, -2], [-1 / 2, 0, 1 / 2, 1, 3 / 2]]) := by
    decide!
  rw [h'] at h
  injection h with h
  injection h with _ h
  exact h.symm

/-! ## `MapGeometricLocations`: order and affine invariance -/

/-- In an ascending vector, entries are ordered as their indices. -/
theorem ascending_le (l : List ℚ) (hasc : ∀ i (h : i + 1 < l.length), l[i] ≤ l[i + 1])
    (i j : Nat) (hij : i ≤ j) (hi : i < l.length) (hj : j < l.length) : l[i] ≤ l[j] := by
  induction j with
  | zero =>
    have : i = 0 := by omega
    subst this
    exact le_refl _
  | succ j ih =>
    by_cases h : i = j + 1
    · subst h
      exact le_refl _
    · exact le_trans (ih (by omega) (by omega)) (hasc j hj)

theorem affineImage_mono (first last x y : ℚ) (h : first < last) (hxy : x ≤ y) :
    affineImage first last x ≤ affineImage first last y := by
  unfold affineImage
  have hpos : 0 < last - first := by linarith
  have : 2 * (x - first) / (last - first) ≤ 2 * (y - first) / (last - first) :=
    div_le_div_of_nonneg_right (by linarith) hpos.le
  linarith

theorem affineImage_strictMono (first last x y : ℚ) (h : first < last) (hxy : x < y) :
    affineImage first last x < affineImage first last y := by
  unfold affineImage
  have hpos : 0 < last - first := by linarith
  have : 2 * (x - first) / (last - first) < 2 * (y - first) / (last - first) :=
    div_lt_div_of_pos_right (by linarith) hpos
  linarith

theorem affineImage_first (first last : ℚ) : affineImage first last first = -1 := by
  unfold affineImage
  simp

theorem affineImage_last (first last : ℚ) (h : first ≠ last) :
    affineImage first last last = 1 := by
  unfold affineImage
  have : last - first ≠ 0 := fun h' => h (sub_eq_zero.mp h').symm
  field_simp
  ring

/-- C13, as stated, fails in binary64. The strictly increasing input
`{0, 1e-17, 2e-17, 1}` maps to `{-1, -1, -1, 1}`: the differences `2e-17 - 1` and
`4e-17 - 1` round to `-1`, so the output is not strictly increasing where the
input is. The strictly increasing input `{-1.5e308, 0, 1.5e308}` maps to
`{-1, NaN, NaN}`: the span `last - first` and the product `2·(x - first)` overflow
to `+inf`, and `inf / inf` is NaN, which is neither in `[-1, 1]` nor ordered. -/
theorem MapGeometricLocations64_order_lost :
    (Double.lt 0 (Double.ofRat (1 / 10 ^ 17)) = true ∧
      Double.lt (Double.ofRat (1 / 10 ^ 17)) (Double.ofRat (2 / 10 ^ 17)) = true ∧
      Double.lt (Double.ofRat (2 / 10 ^ 17)) 1 = true ∧
      MapGeometricLocations64 [0, Double.ofRat (1 / 10 ^ 17), Double.ofRat (2 / 10 ^ 17), 1] =
        .ok [-1, -1, -1, 1] ∧
      Double.lt (-1) (-1) = false) ∧
    (Double.lt (Double.ofRat (-15 * 10 ^ 307)) 0 = true ∧
      Double.lt 0 (Double.ofRat (15 * 10 ^ 307)) = true ∧
      MapGeometricLocations64 [Double.ofRat (-15 * 10 ^ 307), 0, Double.ofRat (15 * 10 ^ 307)] =
        .ok [-1, Double.nan, Double.nan] ∧
      Double.lt (-1) Double.nan = false ∧ Double.lt Double.nan 1 = false ∧
      Double.eq Double.nan 1 = false) := by
  refine ⟨⟨?_, ?_, ?_, ?_, ?_⟩, ⟨?_, ?_, ?_, ?_, ?_, ?_⟩⟩ <;> decide!

/-- C13, amended: over exact arithmetic, for an ascending input with first < last
the output of `MapGeometricLocations` is ascending in the same order, strictly
increasing wherever the input is, and every output value lies in `[-1, 1]`. -/
theorem MapGeometricLocations_monotone (l : List ℚ) (hne : l ≠ [])
    (hasc : ∀ i (h : i + 1 < l.length), l[i] ≤ l[i + 1])
    (hlt : l.head hne < l.getLast hne) :
    ∃ r, MapGeometricLocations l = .ok r ∧ r.length = l.length ∧
      (∀ i (h : i + 1 < r.length), r[i] ≤ r[i + 1]) ∧
      (∀ i (h : i + 1 < l.length) (h' : i + 1 < r.length), l[i] < l[i + 1] → r[i] < r[i + 1]) ∧
      ∀ y ∈ r, -1 ≤ y ∧ y ≤ 1 := by
  refine ⟨_, MapGeometricLocations_ok l hne (ne_of_lt hlt), by simp, ?_, ?_, ?_⟩
  · intro i h
    simp only [List.getElem_map]
    exact affineImage_mono _ _ _ _ hlt (hasc i (by simpa using h))
  · intro i h h' hi
    simp only [List.getElem_map]
    exact affineImage_strictMono _ _ _ _ hlt hi
  · intro y hy
    obtain ⟨x, hx, rfl⟩ := List.mem_map.mp hy
    obtain ⟨k, hk, rfl⟩ := List.getElem_of_mem hx
    have hpos : 0 < l.length := by omega
    have h0 : l.head hne = l[0] := by
      rw [← List.getElem_zero hpos]
    have h1 : l.getLast hne = l[l.length - 1] := List.getLast_eq_getElem l hne
    constructor
    · rw [← affineImage_first (l.head hne) (l.getLast hne)]
      apply affineImage_mono _ _ _ _ hlt
      rw [h0]
      exact ascending_le l hasc 0 k (by omega) (by omega) hk
    · rw [← affineImage_last (l.head hne) (l.getLast hne) (ne_of_lt hlt)]
      apply affineImage_mono _ _ _ _ hlt
      rw [h1]
      exact ascending_le l hasc k (l.length - 1) (by omega) hk (by omega)

/-- An ascending input with a repeated location: `{0, 1, 1, 4}` maps to the
ascending `{-1, -0.5, -0.5, 1}`. -/
theorem MapGeometricLocations_monotone_witness :
    ∃ r, MapGeometricLocations [0, 1, 1, 4] = .ok r ∧ r = [-1, -1 / 2, -1 / 2, 1] ∧
      (∀ i (h : i + 1 < r.length), r[i] ≤ r[i + 1]) ∧ ∀ y ∈ r, -1 ≤ y ∧ y ≤ 1 := by
  have hasc : ∀ i (h : i + 1 < [(0 : ℚ), 1, 1, 4].length),
      [(0 : ℚ), 1, 1, 4][i] ≤ [(0 : ℚ), 1, 1, 4][i + 1] := by
    intro i h
    have hi : i < 3 := by
      have : i + 1 < 4 := h
      omega
    interval_cases i <;> norm_num
  obtain ⟨r, h, _, h1, _, h2⟩ := MapGeometricLocations_monotone [0, 1, 1, 4] (by simp)
    hasc (by decide!)
  refine ⟨r, h, ?_, h1, h2⟩
  have h' : MapGeometricLocations [0, 1, 1, 4] = .ok [-1, -1 / 2, -1 / 2, 1] := by decide!
  rw [h'] at h
  injection h with h
  exact h.symm

theorem affineImage_affine (first last a b x : ℚ) (ha : a ≠ 0) :
    affineImage (a * first + b) (a * last + b) (a * x + b) = affineImage first last x := by
  unfold affineImage
  have e1 : 2 * (a * x + b - (a * first + b)) = a * (2 * (x - first)) := by ring
  have e2 : a * last + b - (a * first + b) = a * (last - first) := by ring
  rw [e1, e2, mul_div_mul_left _ _ ha]

theorem affineImage_canonical (y : ℚ) : affineImage (-1) 1 y = y := by
  unfold affineImage
  ring

/-- C19: `MapGeometricLocations` is invariant under an affine re-parameterisation
`a·x + b` with `a ≠ 0` of an input with distinct first and last elements, and it is
idempotent. -/
theorem MapGeometricLocations_affine_invariant (l : List ℚ) (hne : l ≠ [])
    (hdist : l.head hne ≠ l.getLast hne) (a b : ℚ) (ha : a ≠ 0) :
    MapGeometricLocations (l.map fun x => a * x + b) = MapGeometricLocations l ∧
      ∃ r, MapGeometricLocations l = .ok r ∧ MapGeometricLocations r = .ok r := by
  have hne' : (l.map fun x => a * x + b) ≠ [] := by simpa using hne
  have hhead : (l.map fun x => a * x + b).head hne' = a * l.head hne + b := by
    simp [List.head_map]
  have hlast : (l.map fun x => a * x + b).getLast hne' = a * l.getLast hne + b := by
    simp [List.getLast_map]
  constructor
  · rw [MapGeometricLocations_ok l hne hdist, MapGeometricLocations_ok _ hne' (by
      rw [hhead, hlast]
      intro h
      apply hdist
      have : a * l.head hne = a * l.getLast hne := by linarith
      exact mul_left_cancel₀ ha this)]
    congr 1
    rw [List.map_map, hhead, hlast]
    apply List.map_congr_left
    intro x _
    exact affineImage_affine _ _ a b x ha
  · refine ⟨_, MapGeometricLocations_ok l hne hdist, ?_⟩
    have hne2 : l.map (affineImage (l.head hne) (l.getLast hne)) ≠ [] := by simpa using hne
    have hh : (l.map (affineImage (l.head hne) (l.getLast hne))).head hne2 = -1 := by
      rw [List.head_map]
      exact affineImage_first _ _
    have hl : (l.map (affineImage (l.head hne) (l.getLast hne))).getLast hne2 = 1 := by
      rw [List.getLast_map]
      exact affineImage_last _ _ hdist
    rw [MapGeometricLocations_ok _ hne2 (by rw [hh, hl]; norm_num), hh, hl]
    congr 1
    conv_rhs => rw [← List.map_id (l.map (affineImage (l.head hne) (l.getLast hne)))]
    apply List.map_congr_left
    intro y _
    exact affineImage_canonical y

/-- The tests `MapGeometricLocations_PositiveRange`, `_NegativeRange` and
`_UnitRange`: `{0, 2.5, 5}` and `{-10, -5, 0}` are affine images of `{0, 0.5, 1}`, and
all three map to `{-1, 0, 1}`, which maps to itself. -/
theorem MapGeometricLocations_affine_invariant_witness :
    MapGeometricLocations [0, 5 / 2, 5] = MapGeometricLocations [0, 1 / 2, 1] ∧
    MapGeometricLocations [-10, -5, 0] = MapGeometricLocations [0, 1 / 2, 1] ∧
    MapGeometricLocations [0, 1 / 2, 1] = .ok [-1, 0, 1] ∧
    MapGeometricLocations [-1, 0, 1] = .ok [-1, 0, 1] := by
  have e1 : ([0, 1 / 2, 1] : List ℚ).map (fun x => 5 * x + 0) = [0, 5 / 2, 5] := by decide!
  have e2 : ([0, 1 / 2, 1] : List ℚ).map (fun x => 10 * x + -10) = [-10, -5, 0] := by decide!
  have h1 := (MapGeometricLocations_affine_invariant [0, 1 / 2, 1] (by simp) (by decide!)
    5 0 (by norm_num)).1
  have h2 := (MapGeometricLocations_affine_invariant [0, 1 / 2, 1] (by simp) (by decide!)
    10 (-10) (by norm_num)).1
  rw [e1] at h1
  rw [e2] at h2
  exact ⟨h1, h2, by decide!, by decide!⟩

/-! ## `PerformLeastSquaresFitting`: the entries of the system and the case `p = 2` -/

/-- C17, as stated, fails: for the second-order shape functions (`p = 3`) the
entry `A(1, 0)` of the assembled system, in the boundary column `0`, is `3/16`
and not `0`, and so is `A(1, 2)` in the boundary column `2`. -/
theorem assembleA_boundary_column_nonzero :
    ∃ A : HostView 3 3, assembleA 3 5 phi_second_order = .ok A ∧
      A 1 0 = 3 / 16 ∧ A 1 0 ≠ 0 ∧ A 1 2 = 3 / 16 ∧ A 1 2 ≠ 0 := by
  refine ⟨systemA 3 5 phi_second_order, by decide!, by decide!, by decide!, by decide!,
    by decide!⟩

/-- C17, amended: in the `p × p` system assembled for `p ≥ 3`, the boundary rows
`0` and `p-1` are rows of the identity, and every entry `A(i, j)` of an interior
row `1 ≤ i ≤ p-2`, in every column `j < p` (the boundary columns included), is
`Σ_k Φ[i][k]·Φ[j][k]`. -/
theorem assembleA_entries (p n : Nat) (m : Matrix) (hp : 3 ≤ p) (hrows : m.length = p)
    (hcols : ∀ row ∈ m, row.length = n) :
    ∃ A : HostView p p, assembleA p n m = .ok A ∧
      (∀ j : Fin p, A ⟨0, by omega⟩ j = if j.val = 0 then 1 else 0) ∧
      (∀ j : Fin p, A ⟨p - 1, by omega⟩ j = if j.val = p - 1 then 1 else 0) ∧
      ∀ i j : Fin p, 1 ≤ i.val → i.val ≤ p - 2 →
        A i j = ∑ k in Finset.range n, entry m i.val k * entry m j.val k := by
  refine ⟨_, assembleA_ok p n m (by omega) hrows hcols, ?_, ?_, ?_⟩
  · intro j
    unfold systemA
    have h0 : ¬ (1 ≤ (⟨0, by omega⟩ : Fin p).val ∧ (⟨0, by omega⟩ : Fin p).val < p - 1) := by
      simp
    rw [if_neg h0]
    by_cases hj : j.val = 0
    · simp [hj]
    · have : ¬ (0 = j.val) := fun h => hj h.symm
      simp [hj, this]
  · intro j
    unfold systemA
    have h0 : ¬ (1 ≤ (⟨p - 1, by omega⟩ : Fin p).val ∧
        (⟨p - 1, by omega⟩ : Fin p).val < p - 1) := by
      simp
    rw [if_neg h0]
    by_cases hj : j.val = p - 1
    · simp [hj]
    · have : ¬ (p - 1 = j.val) := fun h => hj h.symm
      simp [hj, this]
  · intro i j h1 h2
    unfold systemA
    have : 1 ≤ i.val ∧ i.val < p - 1 := by omega
    rw [if_pos this]

/-- The second-order shape functions: the assembled system is
`{1, 0, 0}`, `{3/16, 17/8, 3/16}`, `{0, 0, 1}`. -/
theorem assembleA_entries_witness :
    ∃ A : HostView 3 3, assembleA 3 5 phi_second_order = .ok A ∧
      A = !![1, 0, 0; 3 / 16, 17 / 8, 3 / 16; 0, 0, 1] ∧
      (∀ j : Fin 3, A 0 j = if j.val = 0 then 1 else 0) ∧
      (∀ j : Fin 3, A 2 j = if j.val = 2 then 1 else 0) := by
  obtain ⟨A, hA, h0, h2, _⟩ := assembleA_entries 3 5 phi_second_order (by decide) (by decide)
    (by decide)
  refine ⟨A, hA, ?_, h0, h2⟩
  have h : assembleA 3 5 phi_second_order =
      .ok !![1, 0, 0; 3 / 16, 17 / 8, 3 / 16; 0, 0, 1] := by decide!
  rw [h] at hA
  injection hA with hA
  exact hA.symm

/-- C18: for `p ≥ 2`, `n = evaluation_pts.size()` and a node generator that returns
`p` nodes, the interpolation and derivative matrices of Mode A are those that
Mode B returns for the same evaluation points and the node set `gll` that Mode A
returns. -/
theorem ShapeFunctionMatrices_overloads_agree (GenerateGLLPoints : Nat → List ℚ) (n p : Nat)
    (evaluation_pts : List ℚ) (hp : 2 ≤ p) (hn : evaluation_pts.length = n)
    (hgll : (GenerateGLLPoints (p - 1)).length = p) :
    ∃ Φ dΦ gll, ShapeFunctionMatrices GenerateGLLPoints n p evaluation_pts = .ok (Φ, dΦ, gll) ∧
      gll = GenerateGLLPoints (p - 1) ∧
      ShapeFunctionMatricesB evaluation_pts gll = .ok (Φ, dΦ) := by
  have hu : usub p 1 = p - 1 := usub_one p (by omega)
  have hok := ShapeFunctionMatrices_ok GenerateGLLPoints n p evaluation_pts hn
    (by rw [hu, hgll])
  rw [hu] at hok
  refine ⟨_, _, _, hok, rfl, ?_⟩
  rw [ShapeFunctionMatricesB_ok, hgll, hn]

/-- The test `ShapeFunctionMatrices_SecondOrder` through both overloads. -/
theorem ShapeFunctionMatrices_overloads_agree_witness :
    ∃ Φ dΦ, ShapeFunctionMatrices (fun _ => [-1, 0, 1]) 5 3 [-1, -1 / 2, 0, 1 / 2, 1] =
        .ok (Φ, dΦ, [-1, 0, 1]) ∧
      ShapeFunctionMatricesB [-1, -1 / 2, 0, 1 / 2, 1] [-1, 0, 1] = .ok (Φ, dΦ) := by
  obtain ⟨Φ, dΦ, gll, h1, hg, h2⟩ := ShapeFunctionMatrices_overloads_agree
    (fun _ => [-1, 0, 1]) 5 3 [-1, -1 / 2, 0, 1 / 2, 1] (by decide) (by decide) (by decide)
  subst hg
  exact ⟨Φ, dΦ, h1, h2⟩

/-- C12, as stated, fails: with `n = 2` evaluation points and the order `p = 3 > n`
(nodes `{-1, 0, 1}`), Mode A returns `3 × 2` matrices and no error. -/
theorem ShapeFunctionMatrices_order_above_n :
    ¬ (3 ≤ 2) ∧
    ShapeFunctionMatrices (fun _ => [-1, 0, 1]) 2 3 [-1, 1] =
      .ok ([[1, 0], [0, 0], [0, 1]], [[-3 / 2, 1 / 2], [2, -2], [-1 / 2, 3 / 2]], [-1, 0, 1]) ∧
    ¬ ∃ e, ShapeFunctionMatrices (fun _ => [-1, 0, 1]) 2 3 [-1, 1] = .error e := by
  have h : ShapeFunctionMatrices (fun _ => [-1, 0, 1]) 2 3 [-1, 1] =
      .ok ([[1, 0], [0, 0], [0, 1]], [[-3 / 2, 1 / 2], [2, -2], [-1 / 2, 3 / 2]], [-1, 0, 1]) := by
    decide!
  refine ⟨by decide, h, ?_⟩
  rintro ⟨e, he⟩
  rw [h] at he
  cases he

/-- C12, amended: Mode A does not compare the order `p` with `n`. For every
`p ≥ 2`, also `p > n`, with `n = evaluation_pts.size()` and a node generator that
returns `p` nodes, it returns normally two matrices of `p` rows and `n` columns and
the node set. -/
theorem ShapeFunctionMatrices_no_order_check (GenerateGLLPoints : Nat → List ℚ) (n p : Nat)
    (evaluation_pts : List ℚ) (hp : 2 ≤ p) (hn : evaluation_pts.length = n)
    (hgll : (GenerateGLLPoints (p - 1)).length = p) :
    ∃ Φ dΦ, ShapeFunctionMatrices GenerateGLLPoints n p evaluation_pts =
        .ok (Φ, dΦ, GenerateGLLPoints (p - 1)) ∧
      Φ.length = p ∧ (∀ row ∈ Φ, row.length = n) ∧
      dΦ.length = p ∧ (∀ row ∈ dΦ, row.length = n) := by
  have hu : usub p 1 = p - 1 := usub_one p (by omega)
  have hok := ShapeFunctionMatrices_ok GenerateGLLPoints n p evaluation_pts hn
    (by rw [hu, hgll])
  rw [hu] at hok
  exact ⟨_, _, hok, (rows_tab p n _).1, (rows_tab p n _).2, (rows_tab p n _).1,
    (rows_tab p n _).2⟩

/-- The order `p = 3` with a single evaluation point. -/
theorem ShapeFunctionMatrices_no_order_check_witness :
    ∃ Φ dΦ, ShapeFunctionMatrices (fun _ => [-1, 0, 1]) 1 3 [1 / 2] =
        .ok (Φ, dΦ, [-1, 0, 1]) ∧
      Φ.length = 3 ∧ (∀ row ∈ Φ, row.length = 1) ∧
      dΦ.length = 3 ∧ (∀ row ∈ dΦ, row.length = 1) :=
  ShapeFunctionMatrices_no_order_check (fun _ => [-1, 0, 1]) 1 3 [1 / 2] (by decide)
    (by decide) (by decide)

/-! ## `CreateTrapezoidalQuadrature` -/

theorem getD_map_affine (l : List ℚ) (g : ℚ → ℚ) (j : Nat) (hj : j < l.length) :
    (l.map g).getD j 0 = g (l.getD j 0) := by
  rw [List.getD_eq_getElem _ _ (by simpa using hj), List.getD_eq_getElem _ _ hj,
    List.getElem_map]

/-- The rule returned for an input with distinct first and last locations. -/
theorem CreateTrapezoidalQuadrature_ok (l : List ℚ) (hne : l ≠ [])
    (hdist : l.head hne ≠ l.getLast hne) :
    CreateTrapezoidalQuadrature l = .ok (tab l.length fun i =>
      (affineImage (l.head hne) (l.getLast hne) (l.getD i 0),
        ((if 0 < i then affineImage (l.head hne) (l.getLast hne) (l.getD i 0) -
            affineImage (l.head hne) (l.getLast hne) (l.getD (i - 1) 0) else 0) +
          (if i + 1 < l.length then affineImage (l.head hne) (l.getLast hne) (l.getD (i + 1) 0) -
            affineImage (l.head hne) (l.getLast hne) (l.getD i 0) else 0)) / 2)) := by
  unfold CreateTrapezoidalQuadrature
  rw [MapGeometricLocations_ok l hne hdist, ok_bind]
  simp only [pure, Except.pure, List.length_map]
  congr 1
  unfold tab
  apply List.map_congr_left
  intro i hi
  have hi' : i < l.length := List.mem_range.mp hi
  rw [getD_map_affine l _ i hi']
  congr 2
  · congr 1
    · by_cases h0 : 0 < i
      · rw [if_pos h0, if_pos h0, getD_map_affine l _ (i - 1) (by omega)]
      · rw [if_neg h0, if_neg h0]
    · by_cases h1 : i + 1 < l.length
      · rw [if_pos h1, if_pos h1, getD_map_affine l _ (i + 1) h1]
      · rw [if_neg h1, if_neg h1]

theorem snd_sum_tab (n : Nat) (G : Nat → ℚ × ℚ) :
    ((tab n G).map Prod.snd).sum = ∑ i in Finset.range n, (G i).2 := by
  unfold tab
  have hr : (List.range n).toFinset = Finset.range n := by
    ext a
    simp
  rw [List.map_map, ← List.sum_toFinset _ (List.nodup_range n), hr]
  rfl

/-- Half the sums of the gaps to the neighbours telescope to the distance between
the last and the first location. -/
theorem trapezoid_telescope (y : Nat → ℚ) (k : Nat) :
    ∑ i in Finset.range (k + 1),
      ((if 0 < i then y i - y (i - 1) else 0) +
        (if i + 1 < k + 1 then y (i + 1) - y i else 0)) / 2 = y k - y 0 := by
  have h1 : ∑ i in Finset.range (k + 1), (if 0 < i then y i - y (i - 1) else 0) = y k - y 0 := by
    rw [Finset.sum_range_succ']
    simp only [Nat.zero_lt_succ, if_true, Nat.add_sub_cancel, lt_irrefl, if_false, add_zero]
    exact Finset.sum_range_sub y k
  have h2 : ∑ i in Finset.range (k + 1), (if i + 1 < k + 1 then y (i + 1) - y i else 0) =
      y k - y 0 := by
    rw [Finset.sum_range_succ]
    simp only [lt_irrefl, if_false, add_zero]
    rw [← Finset.sum_range_sub y k]
    apply Finset.sum_congr rfl
    intro i hi
    have : i + 1 < k + 1 := by
      have := Finset.mem_range.mp hi
      omega
    rw [if_pos this]
  rw [← Finset.sum_div, Finset.sum_add_distrib, h1, h2]
  ring

theorem affineImage_sub (first last a b : ℚ) :
    affineImage first last a - affineImage first last b = 2 * (a - b) / (last - first) := by
  unfold affineImage
  ring

theorem head_eq_getD (l : List ℚ) (hne : l ≠ []) : l.head hne = l.getD 0 0 := by
  cases l with
  | nil => exact absurd rfl hne
  | cons a t => rfl

theorem getLast_eq_getD (l : List ℚ) (hne : l ≠ []) :
    l.getLast hne = l.getD (l.length - 1) 0 := by
  have hpos : 0 < l.length := List.length_pos.mpr hne
  rw [List.getLast_eq_getElem, List.getD_eq_getElem _ _ (by omega)]

/-- A strictly ascending vector of at least two locations is not empty, is
ascending, and its first location is below its last one. -/
theorem strictly_ascending_facts (l : List ℚ) (hlen : 2 ≤ l.length)
    (hasc : ∀ i (h : i + 1 < l.length), l[i] < l[i + 1]) :
    ∃ hne : l ≠ [], l.head hne < l.getLast hne ∧
      ∀ i j, i ≤ j → j < l.length → l.getD i 0 ≤ l.getD j 0 := by
  have hne : l ≠ [] := by
    intro h
    rw [h] at hlen
    simp at hlen
  have hle : ∀ i (h : i + 1 < l.length), l[i] ≤ l[i + 1] := fun i h => le_of_lt (hasc i h)
  have hmono : ∀ i j, i ≤ j → j < l.length → l.getD i 0 ≤ l.getD j 0 := by
    intro i j hij hj
    rw [List.getD_eq_getElem _ _ (by omega), List.getD_eq_getElem _ _ hj]
    exact ascending_le l hle i j hij (by omega) hj
  refine ⟨hne, ?_, hmono⟩
  rw [head_eq_getD l hne, getLast_eq_getD l hne]
  have h01 : l.getD 0 0 < l.getD 1 0 := by
    rw [List.getD_eq_getElem _ _ (by omega), List.getD_eq_getElem _ _ (by omega)]
    exact hasc 0 (by omega)
  exact lt_of_lt_of_le h01 (hmono 1 (l.length - 1) (by omega) (by omega))

/-- C14: for a strictly ascending sequence of at least two locations the weights
of the rule returned by `CreateTrapezoidalQuadrature` are non-negative and sum to
`2`. -/
theorem CreateTrapezoidalQuadrature_weights (l : List ℚ) (hlen : 2 ≤ l.length)
    (hasc : ∀ i (h : i + 1 < l.length), l[i] < l[i + 1]) :
    ∃ q, CreateTrapezoidalQuadrature l = .ok q ∧ (∀ e ∈ q, 0 ≤ e.2) ∧
      (q.map Prod.snd).sum = 2 := by
  obtain ⟨hne, hlt, hmono⟩ := strictly_ascending_facts l hlen hasc
  refine ⟨_, CreateTrapezoidalQuadrature_ok l hne (ne_of_lt hlt), ?_, ?_⟩
  · intro e he
    unfold tab at he
    obtain ⟨i, hi, rfl⟩ := List.mem_map.mp he
    have hi' : i < l.length := List.mem_range.mp hi
    have g1 : 0 ≤ (if 0 < i then affineImage (l.head hne) (l.getLast hne) (l.getD i 0) -
        affineImage (l.head hne) (l.getLast hne) (l.getD (i - 1) 0) else 0) := by
      split
      · exact sub_nonneg.mpr (affineImage_mono _ _ _ _ hlt (hmono (i - 1) i (by omega) hi'))
      · exact le_refl _
    have g2 : 0 ≤ (if i + 1 < l.length then
        affineImage (l.head hne) (l.getLast hne) (l.getD (i + 1) 0) -
        affineImage (l.head hne) (l.getLast hne) (l.getD i 0) else 0) := by
      split
      · rename_i h
        exact sub_nonneg.mpr (affineImage_mono _ _ _ _ hlt (hmono i (i + 1) (by omega) h))
      · exact le_refl _
    show 0 ≤ (_ + _) / 2
    linarith
  · rw [snd_sum_tab]
    obtain ⟨k, hk⟩ : ∃ k, l.length = k + 1 := ⟨l.length - 1, by omega⟩
    rw [hk]
    have := trapezoid_telescope
      (fun i => affineImage (l.head hne) (l.getLast hne) (l.getD i 0)) k
    simp only [] at this
    rw [this]
    have hk' : k = l.length - 1 := by omega
    rw [hk', ← getLast_eq_getD l hne, ← head_eq_getD l hne,
      affineImage_last _ _ (ne_of_lt hlt), affineImage_first]
    norm_num

/-- The test `CheckCreateTrapezoidalQuadrature_2`: `{-5, -3, -1, 0, 3, 4, 5}` gives
the weights `0.2, 0.4, 0.3, 0.4, 0.4, 0.2, 0.1`. -/
theorem CreateTrapezoidalQuadrature_weights_witness :
    ∃ q, CreateTrapezoidalQuadrature [-5, -3, -1, 0, 3, 4, 5] = .ok q ∧
      q.map Prod.snd = [1 / 5, 2 / 5, 3 / 10, 2 / 5, 2 / 5, 1 / 5, 1 / 10] ∧
      (∀ e ∈ q, 0 ≤ e.2) ∧ (q.map Prod.snd).sum = 2 := by
  have hasc : ∀ i (h : i + 1 < [(-5 : ℚ), -3, -1, 0, 3, 4, 5].length),
      [(-5 : ℚ), -3, -1, 0, 3, 4, 5][i] < [(-5 : ℚ), -3, -1, 0, 3, 4, 5][i + 1] := by
    intro i h
    have hi : i < 6 := by
      have : i + 1 < 7 := h
      omega
    interval_cases i <;> norm_num
  obtain ⟨q, h, h1, h2⟩ :=
    CreateTrapezoidalQuadrature_weights [-5, -3, -1, 0, 3, 4, 5] (by decide) hasc
  refine ⟨q, h, ?_, h1, h2⟩
  have h' : CreateTrapezoidalQuadrature [-5, -3, -1, 0, 3, 4, 5] =
      .ok [(-1, 1 / 5), (-3 / 5, 2 / 5), (-1 / 5, 3 / 10), (0, 2 / 5), (3 / 5, 2 / 5),
        (4 / 5, 1 / 5), (1, 1 / 10)] := by decide!
  rw [h'] at h
  injection h with h
  rw [← h]
  decide!

/-- C15: for a strictly ascending sequence `x` of `m ≥ 2` locations,
`CreateTrapezoidalQuadrature` returns exactly `m` pairs in input order; the
location of pair `i` is `2*(x[i]-x[0])/(x[m-1]-x[0]) - 1`, `-1` for the first pair
and `1` for the last, and its weight is `(x[1]-x[0])/(x[m-1]-x[0])` for the first
pair, `(x[m-1]-x[m-2])/(x[m-1]-x[0])` for the last and
`(x[i+1]-x[i-1])/(x[m-1]-x[0])` for an interior one. -/
theorem CreateTrapezoidalQuadrature_rule (l : List ℚ) (hlen : 2 ≤ l.length)
    (hasc : ∀ i (h : i + 1 < l.length), l[i] < l[i + 1]) :
    ∃ q, CreateTrapezoidalQuadrature l = .ok q ∧ q.length = l.length ∧
      ∀ i, i < l.length → ∃ e, q[i]? = some e ∧
        e.1 = 2 * (l.getD i 0 - l.getD 0 0) / (l.getD (l.length - 1) 0 - l.getD 0 0) - 1 ∧
        (i = 0 → e.1 = -1) ∧ (i = l.length - 1 → e.1 = 1) ∧
        e.2 = (if i = 0 then
            (l.getD 1 0 - l.getD 0 0) / (l.getD (l.length - 1) 0 - l.getD 0 0)
          else if i = l.length - 1 then
            (l.getD (l.length - 1) 0 - l.getD (l.length - 2) 0) /
              (l.getD (l.length - 1) 0 - l.getD 0 0)
          else
            (l.getD (i + 1) 0 - l.getD (i - 1) 0) /
              (l.getD (l.length - 1) 0 - l.getD 0 0)) := by
  obtain ⟨hne, hlt, _⟩ := strictly_ascending_facts l hlen hasc
  refine ⟨_, CreateTrapezoidalQuadrature_ok l hne (ne_of_lt hlt), length_tab _ _, ?_⟩
  intro i hi
  refine ⟨_, by rw [getElem?_tab, if_pos hi], ?_, ?_, ?_, ?_⟩
  · show affineImage _ _ _ = _
    rw [head_eq_getD l hne, getLast_eq_getD l hne]
    rfl
  · intro h0
    show affineImage _ _ _ = _
    rw [h0, ← head_eq_getD l hne]
    exact affineImage_first _ _
  · intro h1
    show affineImage _ _ _ = _
    rw [h1, ← getLast_eq_getD l hne]
    exact affineImage_last _ _ (ne_of_lt hlt)
  · show (_ + _) / 2 = _
    rw [head_eq_getD l hne, getLast_eq_getD l hne]
    by_cases h0 : i = 0
    · subst h0
      have h1 : 0 + 1 < l.length := by omega
      rw [if_neg (lt_irrefl 0), if_pos h1, if_pos rfl, affineImage_sub]
      ring
    · rw [if_pos (Nat.pos_of_ne_zero h0), if_neg h0]
      by_cases h1 : i = l.length - 1
      · have h2 : ¬ (i + 1 < l.length) := by omega
        rw [if_neg h2, if_pos h1, affineImage_sub, h1]
        have : l.length - 1 - 1 = l.length - 2 := by omega
        rw [this]
        ring
      · have h2 : i + 1 < l.length := by omega
        rw [if_pos h2, if_neg h1, affineImage_sub, affineImage_sub]
        ring

/-- The test `CheckCreateTrapezoidalQuadrature_1`: `{0, 0.2, 0.4, 0.6, 0.8, 1.0}`
gives `{(-1,0.2),(-0.6,0.4),(-0.2,0.4),(0.2,0.4),(0.6,0.4),(1,0.2)}`. -/
theorem CreateTrapezoidalQuadrature_rule_witness :
    ∃ q, CreateTrapezoidalQuadrature [0, 1 / 5, 2 / 5, 3 / 5, 4 / 5, 1] = .ok q ∧
      q = [(-1, 1 / 5), (-3 / 5, 2 / 5), (-1 / 5, 2 / 5), (1 / 5, 2 / 5), (3 / 5, 2 / 5),
        (1, 1 / 5)] ∧ q.length = 6 := by
  have hasc : ∀ i (h : i + 1 < [(0 : ℚ), 1 / 5, 2 / 5, 3 / 5, 4 / 5, 1].length),
      [(0 : ℚ), 1 / 5, 2 / 5, 3 / 5, 4 / 5, 1][i] <
        [(0 : ℚ), 1 / 5, 2 / 5, 3 / 5, 4 / 5, 1][i + 1] := by
    intro i h
    have hi : i < 5 := by
      have : i + 1 < 6 := h
      omega
    interval_cases i <;> norm_num
  obtain ⟨q, h, h1, _⟩ :=
    CreateTrapezoidalQuadrature_rule [0, 1 / 5, 2 / 5, 3 / 5, 4 / 5, 1] (by decide) hasc
  refine ⟨q, h, ?_, h1⟩
  have h' : CreateTrapezoidalQuadrature [0, 1 / 5, 2 / 5, 3 / 5, 4 / 5, 1] =
      .ok [(-1, 1 / 5), (-3 / 5, 2 / 5), (-1 / 5, 2 / 5), (1 / 5, 2 / 5), (3 / 5, 2 / 5),
        (1, 1 / 5)] := by decide!
  rw [h'] at h
  injection h with h
  exact h.symm

/-! ## `GenerateGLLPoints`: the exact node set -/

open Polynomial in
theorem rodrigues_base_monic (k : Nat) : ((X ^ 2 - C 1 : ℝ[X]) ^ k).Monic :=
  (monic_X_pow_sub_C 1 (by norm_num)).pow k

open Polynomial in
theorem rodrigues_base_natDegree (k : Nat) : ((X ^ 2 - C 1 : ℝ[X]) ^ k).natDegree = 2 * k := by
  rw [(monic_X_pow_sub_C (1 : ℝ) (by norm_num : (2 : ℕ) ≠ 0)).natDegree_pow,
    natDegree_X_pow_sub_C, mul_comm]

open Polynomial in
/-- The iterated derivatives of `(x² - 1)^k` up to order `2k` do not vanish. -/
theorem rodrigues_derivative_ne_zero (k j : Nat) (hj : j ≤ 2 * k) :
    derivative^[j] ((X ^ 2 - C 1 : ℝ[X]) ^ k) ≠ 0 := by
  intro h
  have hc := coeff_iterate_derivative (k := j) ((X ^ 2 - C 1 : ℝ[X]) ^ k) (2 * k - j)
  rw [h, coeff_zero, show 2 * k - j + j = 2 * k by omega] at hc
  have hlead : ((X ^ 2 - C 1 : ℝ[X]) ^ k).coeff (2 * k) = 1 := by
    have := (rodrigues_base_monic k).coeff_natDegree
    rwa [rodrigues_base_natDegree] at this
  rw [hlead, nsmul_eq_mul, mul_one] at hc
  have hne : (2 * k).descFactorial j ≠ 0 := by
    intro h0
    have := Nat.descFactorial_eq_zero_iff_lt.mp h0
    omega
  have : ((2 * k).descFactorial j : ℝ) ≠ 0 := by
    exact_mod_cast hne
  exact this hc.symm

open Polynomial in
/-- The points `-1` and `1` are roots of the derivatives of `(x² - 1)^k` of order
below `k`. -/
theorem rodrigues_endpoint_root (k j : Nat) (hj : j < k) (a : ℝ) (ha : a = -1 ∨ a = 1) :
    (derivative^[j] ((X ^ 2 - C 1 : ℝ[X]) ^ k)).IsRoot a := by
  have hdvd : (X - C a) ^ k ∣ (X ^ 2 - C 1 : ℝ[X]) ^ k := by
    apply pow_dvd_pow_of_dvd
    rcases ha with rfl | rfl
    · exact ⟨X - C 1, by simp only [map_neg, map_one]; ring⟩
    · exact ⟨X + C 1, by simp only [map_one]; ring⟩
  have h := pow_sub_dvd_iterate_derivative_of_pow_dvd j hdvd
  have h1 : (X - C a) ∣ (X - C a) ^ (k - j) := dvd_pow_self _ (by omega)
  exact dvd_iff_isRoot.mp (h1.trans h)

theorem mem_interiorRoots (f : Polynomial ℝ) (hf : f ≠ 0) (z : ℝ) :
    z ∈ interiorRoots f ↔ f.IsRoot z ∧ -1 < z ∧ z < 1 := by
  unfold interiorRoots
  rw [Finset.mem_filter, Multiset.mem_toFinset, Polynomial.mem_roots hf]

/-- Rolle's theorem, counted: if the roots in `S` of `f` lie in `[-1, 1]`, the
derivative of `f` has at least `|S| - 1` distinct roots in `(-1, 1)`. -/
theorem rolle_count (f : Polynomial ℝ) (hf' : Polynomial.derivative f ≠ 0) (S : Finset ℝ)
    (hroot : ∀ s ∈ S, f.IsRoot s) (hS : ∀ s ∈ S, -1 ≤ s ∧ s ≤ 1) :
    S.card ≤ (interiorRoots (Polynomial.derivative f)).card + 1 := by
  have h := Finset.card_le_diff_of_interleaved (s := S)
    (t := interiorRoots (Polynomial.derivative f)) (by
      intro x hx y hy hxy _
      have hfx : f.eval x = f.eval y := by
        rw [(hroot x hx).eq_zero, (hroot y hy).eq_zero]
      obtain ⟨z, hz1, hz2⟩ := exists_deriv_eq_zero hxy f.continuousOn hfx
      refine ⟨z, ?_, hz1.1, hz1.2⟩
      rw [mem_interiorRoots _ hf']
      refine ⟨?_, by linarith [(hS x hx).1, hz1.1], by linarith [(hS y hy).2, hz1.2]⟩
      rwa [Polynomial.IsRoot, ← f.deriv])
  exact h.trans (Nat.add_le_add_right (Finset.card_le_card Finset.sdiff_subset) 1)

open Polynomial in
/-- The derivative of order `j ≤ k` of `(x² - 1)^k` has at least `j` distinct roots
in `(-1, 1)`. -/
theorem rodrigues_interior_roots (k j : Nat) (hj : j ≤ k) :
    j ≤ (interiorRoots (derivative^[j] ((X ^ 2 - C 1 : ℝ[X]) ^ k))).card := by
  induction j with
  | zero => exact Nat.zero_le _
  | succ j ih =>
    have ihj := ih (by omega)
    have hnz := rodrigues_derivative_ne_zero k j (by omega)
    have hnz' := rodrigues_derivative_ne_zero k (j + 1) (by omega)
    rw [Function.iterate_succ_apply'] at hnz' ⊢
    -- the roots of the derivative of order `j`: the interior ones and the endpoints
    have hm1 : (-1 : ℝ) ∉ interiorRoots (derivative^[j] ((X ^ 2 - C 1 : ℝ[X]) ^ k)) := by
      rw [mem_interiorRoots _ hnz]
      intro h
      exact lt_irrefl _ h.2.1
    have hp1 : (1 : ℝ) ∉ insert (-1 : ℝ)
        (interiorRoots (derivative^[j] ((X ^ 2 - C 1 : ℝ[X]) ^ k))) := by
      rw [Finset.mem_insert, mem_interiorRoots _ hnz]
      rintro (h | h)
      · norm_num at h
      · exact lt_irrefl _ h.2.2
    have hcard := rolle_count (derivative^[j] ((X ^ 2 - C 1 : ℝ[X]) ^ k)) hnz'
      (insert (1 : ℝ) (insert (-1 : ℝ)
        (interiorRoots (derivative^[j] ((X ^ 2 - C 1 : ℝ[X]) ^ k)))))
      (by
        intro s hs
        rw [Finset.mem_insert, Finset.mem_insert] at hs
        rcases hs with rfl | rfl | hs
        · exact rodrigues_endpoint_root k j (by omega) 1 (Or.inr rfl)
        · exact rodrigues_endpoint_root k j (by omega) (-1) (Or.inl rfl)
        · exact ((mem_interiorRoots _ hnz s).mp hs).1)
      (by
        intro s hs
        rw [Finset.mem_insert, Finset.mem_insert] at hs
        rcases hs with rfl | rfl | hs
        · norm_num
        · norm_num
        · have := ((mem_interiorRoots _ hnz s).mp hs).2
          exact ⟨this.1.le, this.2.le⟩)
    rw [Finset.card_insert_of_not_mem hp1, Finset.card_insert_of_not_mem hm1] at hcard
    omega

open Polynomial in
/-- The roots of the derivative of order `k + 1` of `(x² - 1)^k`, `k ≥ 1`: there are
`k - 1` of them, all simple and all in `(-1, 1)`. -/
theorem rodrigues_top_roots (k : Nat) (hk : 1 ≤ k) :
    Multiset.card (derivative^[k + 1] ((X ^ 2 - C 1 : ℝ[X]) ^ k)).roots = k - 1 ∧
      (derivative^[k + 1] ((X ^ 2 - C 1 : ℝ[X]) ^ k)).roots.Nodup ∧
      ∀ r ∈ (derivative^[k + 1] ((X ^ 2 - C 1 : ℝ[X]) ^ k)).roots, -1 < r ∧ r < 1 := by
  have hnz := rodrigues_derivative_ne_zero k k (by omega)
  have hnz' := rodrigues_derivative_ne_zero k (k + 1) (by omega)
  have hdeg : (derivative^[k + 1] ((X ^ 2 - C 1 : ℝ[X]) ^ k)).natDegree ≤ k - 1 := by
    have := natDegree_iterate_derivative ((X ^ 2 - C 1 : ℝ[X]) ^ k) (k + 1)
    rw [rodrigues_base_natDegree] at this
    omega
  have hupper : Multiset.card (derivative^[k + 1] ((X ^ 2 - C 1 : ℝ[X]) ^ k)).roots ≤ k - 1 :=
    (card_roots' _).trans hdeg
  -- Rolle between the `k` interior roots of the derivative of order `k`
  have hlower : k ≤ (interiorRoots (derivative^[k + 1] ((X ^ 2 - C 1 : ℝ[X]) ^ k))).card + 1 := by
    have h1 := rodrigues_interior_roots k k (le_refl k)
    have hnz2 := hnz'
    rw [Function.iterate_succ_apply'] at hnz2 ⊢
    have h2 := rolle_count (derivative^[k] ((X ^ 2 - C 1 : ℝ[X]) ^ k)) hnz2
      (interiorRoots (derivative^[k] ((X ^ 2 - C 1 : ℝ[X]) ^ k)))
      (fun s hs => ((mem_interiorRoots _ hnz s).mp hs).1)
      (fun s hs => ⟨((mem_interiorRoots _ hnz s).mp hs).2.1.le,
        ((mem_interiorRoots _ hnz s).mp hs).2.2.le⟩)
    omega
  have hsub : interiorRoots (derivative^[k + 1] ((X ^ 2 - C 1 : ℝ[X]) ^ k)) ⊆
      (derivative^[k + 1] ((X ^ 2 - C 1 : ℝ[X]) ^ k)).roots.toFinset :=
    Finset.filter_subset _ _
  have htf : (derivative^[k + 1] ((X ^ 2 - C 1 : ℝ[X]) ^ k)).roots.toFinset.card ≤
      Multiset.card (derivative^[k + 1] ((X ^ 2 - C 1 : ℝ[X]) ^ k)).roots :=
    Multiset.toFinset_card_le _
  have hle := Finset.card_le_card hsub
  have hcard : Multiset.card (derivative^[k + 1] ((X ^ 2 - C 1 : ℝ[X]) ^ k)).roots = k - 1 := by
    omega
  have heq : interiorRoots (derivative^[k + 1] ((X ^ 2 - C 1 : ℝ[X]) ^ k)) =
      (derivative^[k + 1] ((X ^ 2 - C 1 : ℝ[X]) ^ k)).roots.toFinset :=
    Finset.eq_of_subset_of_card_le hsub (by omega)
  refine ⟨hcard, ?_, ?_⟩
  · rw [← Multiset.toFinset_card_eq_card_iff_nodup]
    omega
  · intro r hr
    have : r ∈ interiorRoots (derivative^[k + 1] ((X ^ 2 - C 1 : ℝ[X]) ^ k)) := by
      rw [heq]
      exact Multiset.mem_toFinset.mpr hr
    exact ((mem_interiorRoots _ hnz' r).mp this).2

open Polynomial in
theorem legendre_derivative_roots (k : Nat) :
    (derivative (legendre k)).roots = (derivative^[k + 1] ((X ^ 2 - C 1 : ℝ[X]) ^ k)).roots := by
  unfold legendre
  rw [derivative_C_mul, Function.iterate_succ_apply']
  apply roots_C_mul
  have h1 : (2 : ℝ) ^ k ≠ 0 := pow_ne_zero _ (by norm_num)
  have h2 : (k.factorial : ℝ) ≠ 0 := by exact_mod_cast Nat.factorial_ne_zero k
  exact inv_ne_zero (mul_ne_zero h1 h2)

/-- The head of an ascending vector that contains `a` and has no entry below `a`
is `a`. -/
theorem sorted_head (l : List ℝ) (hs : l.Sorted (· ≤ ·)) (a : ℝ) (ha : a ∈ l)
    (hlow : ∀ b ∈ l, a ≤ b) : l.head? = some a := by
  cases l with
  | nil => simp at ha
  | cons x t =>
    simp only [List.head?_cons, Option.some.injEq]
    have h1 : a ≤ x := hlow x (List.mem_cons_self _ _)
    have h2 : x ≤ a := by
      rcases List.mem_cons.mp ha with h | h
      · exact h.symm.le
      · exact List.rel_of_sorted_cons hs a h
    exact le_antisymm h2 h1

/-- The last entry of an ascending vector that contains `a` and has no entry above
`a` is `a`. -/
theorem sorted_getLast (l : List ℝ) (hs : l.Sorted (· ≤ ·)) (a : ℝ) (ha : a ∈ l)
    (hup : ∀ b ∈ l, b ≤ a) : l.getLast? = some a := by
  have hrev : l.reverse.Sorted (· ≥ ·) := List.pairwise_reverse.mpr hs
  cases hl : l.reverse with
  | nil =>
    rw [List.reverse_eq_nil_iff] at hl
    rw [hl] at ha
    simp at ha
  | cons x t =>
    rw [← List.head?_reverse, hl]
    simp only [List.head?_cons, Option.some.injEq]
    rw [hl] at hrev
    have hx : x ∈ l := by
      rw [← List.mem_reverse, hl]
      exact List.mem_cons_self _ _
    have h1 : x ≤ a := hup x hx
    have h2 : a ≤ x := by
      have : a ∈ x :: t := by
        rw [← hl]
        exact List.mem_reverse.mpr ha
      rcases List.mem_cons.mp this with h | h
      · exact h.le
      · exact List.rel_of_sorted_cons hrev a h
    exact le_antisymm h1 h2

/-- C16: for `p ≥ 2` the node set `GenerateGLLPoints(p-1)` has exactly `p` pairwise
distinct nodes, sorted ascending, with first node `-1` and last node `1`. -/
theorem GenerateGLLPoints_nodes (p : Nat) (hp : 2 ≤ p) :
    (GenerateGLLPoints (p - 1)).length = p ∧
      (GenerateGLLPoints (p - 1)).Nodup ∧
      (GenerateGLLPoints (p - 1)).Sorted (· < ·) ∧
      (GenerateGLLPoints (p - 1)).head? = some (-1) ∧
      (GenerateGLLPoints (p - 1)).getLast? = some 1 := by
  obtain ⟨hcard, hnd, hint⟩ := rodrigues_top_roots (p - 1) (by omega)
  rw [← legendre_derivative_roots] at hcard hnd hint
  have hsorted : (GenerateGLLPoints (p - 1)).Sorted (· ≤ ·) := Multiset.sort_sorted _ _
  have hmem : ∀ b, b ∈ GenerateGLLPoints (p - 1) ↔
      b = -1 ∨ b = 1 ∨ b ∈ (Polynomial.derivative (legendre (p - 1))).roots := by
    intro b
    unfold GenerateGLLPoints
    rw [Multiset.mem_sort, Multiset.mem_cons, Multiset.mem_cons]
  have hbound : ∀ b ∈ GenerateGLLPoints (p - 1), -1 ≤ b ∧ b ≤ 1 := by
    intro b hb
    rcases (hmem b).mp hb with rfl | rfl | h
    · norm_num
    · norm_num
    · exact ⟨(hint b h).1.le, (hint b h).2.le⟩
  have hnodup : (GenerateGLLPoints (p - 1)).Nodup := by
    rw [← Multiset.coe_nodup]
    unfold GenerateGLLPoints
    rw [Multiset.sort_eq, Multiset.nodup_cons, Multiset.nodup_cons, Multiset.mem_cons]
    refine ⟨?_, ?_, hnd⟩
    · rintro (h | h)
      · norm_num at h
      · exact lt_irrefl _ (hint _ h).1
    · intro h
      exact lt_irrefl _ (hint _ h).2
  refine ⟨?_, hnodup, hsorted.lt_of_le hnodup, ?_, ?_⟩
  · unfold GenerateGLLPoints
    rw [Multiset.length_sort, Multiset.card_cons, Multiset.card_cons, hcard]
    omega
  · exact sorted_head _ hsorted (-1) ((hmem _).mpr (Or.inl rfl)) fun b hb => (hbound b hb).1
  · exact sorted_getLast _ hsorted 1 ((hmem _).mpr (Or.inr (Or.inl rfl)))
      fun b hb => (hbound b hb).2

theorem sort_eq_of_sorted (M : Multiset ℝ) (l : List ℝ) (hl : (l : Multiset ℝ) = M)
    (hs : l.Sorted (· ≤ ·)) : Multiset.sort (· ≤ ·) M = l := by
  apply List.eq_of_perm_of_sorted (r := (· ≤ ·)) _ (Multiset.sort_sorted _ _) hs
  rw [← Multiset.coe_eq_coe, Multiset.sort_eq, hl]

open Polynomial in
theorem legendre_one_derivative_roots : (derivative (legendre 1)).roots = 0 := by
  rw [legendre_derivative_roots]
  have h : derivative^[1 + 1] ((X ^ 2 - C 1 : ℝ[X]) ^ 1) = C 2 := by
    simp only [Function.iterate_succ, Function.iterate_zero, Function.comp_apply, id_eq, pow_one,
      derivative_sub, derivative_X_pow, derivative_C, sub_zero, Nat.cast_ofNat,
      Nat.add_one_sub_one, derivative_mul, derivative_X, mul_one, zero_mul, zero_add]
  rw [h, roots_C]

open Polynomial in
theorem legendre_two_derivative_roots : (derivative (legendre 2)).roots = {0} := by
  rw [legendre_derivative_roots]
  have h : derivative^[2 + 1] ((X ^ 2 - C 1 : ℝ[X]) ^ 2) = C 24 * X := by
    have c2 : (C 2 : ℝ[X]) = 2 := map_ofNat C 2
    have c3 : (C 3 : ℝ[X]) = 3 := map_ofNat C 3
    have c4 : (C 4 : ℝ[X]) = 4 := map_ofNat C 4
    have c24 : (C 24 : ℝ[X]) = 24 := map_ofNat C 24
    have e : ((X ^ 2 - C 1 : ℝ[X]) ^ 2) = X ^ 4 - 2 * X ^ 2 + 1 := by
      simp only [map_one]
      ring
    have d1 : derivative (X ^ 4 - 2 * X ^ 2 + 1 : ℝ[X]) = 4 * X ^ 3 - 4 * X := by
      simp
      rw [c2, c4]
      ring
    have d2 : derivative (4 * X ^ 3 - 4 * X : ℝ[X]) = 12 * X ^ 2 - 4 := by
      simp
      rw [c3]
      ring
    have d3 : derivative (12 * X ^ 2 - 4 : ℝ[X]) = 24 * X := by
      simp
      rw [c2]
      ring
    rw [e]
    simp only [Function.iterate_succ, Function.iterate_zero, Function.comp_apply, id_eq]
    rw [d1, d2, d3, c24]
  rw [h, roots_C_mul _ (by norm_num), roots_X]

/-- The node sets for `p = 2` and `p = 3`, as in the tests
`ShapeFunctionMatrices_FirstOrder` and `ShapeFunctionMatrices_SecondOrder`, and the
statement for `p = 4`. -/
theorem GenerateGLLPoints_nodes_witness :
    GenerateGLLPoints 1 = [-1, 1] ∧ GenerateGLLPoints 2 = [-1, 0, 1] ∧
      (GenerateGLLPoints 3).length = 4 ∧ (GenerateGLLPoints 3).Nodup ∧
      (GenerateGLLPoints 3).Sorted (· < ·) ∧ (GenerateGLLPoints 3).head? = some (-1) ∧
      (GenerateGLLPoints 3).getLast? = some 1 := by
  refine ⟨?_, ?_, GenerateGLLPoints_nodes 4 (by decide)⟩
  · unfold GenerateGLLPoints
    rw [legendre_one_derivative_roots]
    apply sort_eq_of_sorted
    · rfl
    · simp
  · unfold GenerateGLLPoints
    rw [legendre_two_derivative_roots]
    apply sort_eq_of_sorted
    · show ((([-1, 0, 1] : List ℝ) : Multiset ℝ)) = (-1 : ℝ) ::ₘ (1 : ℝ) ::ₘ {0}
      rw [← Multiset.cons_coe, ← Multiset.cons_coe, ← Multiset.cons_coe, Multiset.coe_nil,
        Multiset.cons_swap (0 : ℝ) (1 : ℝ)]
      rfl
    · simp

/-! ## Index safety of the assembly -/

/-- A fault ends the computation: what follows is not run. -/
theorem error_bind {α β : Type} (e : Fault) (f : α → Except Fault β) :
    ((Except.error e : Except Fault α) >>= f) = .error e := rfl

/-- A read of a vector returns normally exactly when the index is in bounds. -/
theorem vecRead_ok_iff {α : Type} (v : List α) (i : Nat) :
    (∃ x, vecRead v i = .ok x) ↔ i < v.length := by
  constructor
  · rintro ⟨x, hx⟩
    by_contra h
    rw [vecRead_fault v i (by omega)] at hx
    cases hx
  · intro h
    refine ⟨v[i], ?_⟩
    simp [vecRead, List.getElem?_eq_getElem h]

/-- An access to a view returns normally exactly when both indices are in bounds. -/
theorem view_access_ok_iff {e0 e1 : Nat} (V : HostView e0 e1) (i j : Nat) (x : ℚ) :
    ((∃ y, viewRead V i j = .ok y) ↔ (i < e0 ∧ j < e1)) ∧
      ((∃ W, viewWrite V i j x = .ok W) ↔ (i < e0 ∧ j < e1)) := by
  constructor
  · constructor
    · rintro ⟨y, hy⟩
      by_contra h
      simp [viewRead, h] at hy
    · intro h
      exact ⟨_, viewRead_ok V i j h.1 h.2⟩
  · constructor
    · rintro ⟨W, hW⟩
      by_contra h
      simp [viewWrite, h] at hW
    · intro h
      exact ⟨_, viewWrite_ok V i j x h.1 h.2⟩

/-- A read of a `std::array<double, 3>` returns normally exactly when the index is
below `3`. -/
theorem arrRead_ok_iff (a : Array3) (d : Nat) : (∃ x, arrRead a d = .ok x) ↔ d < 3 := by
  constructor
  · rintro ⟨x, hx⟩
    by_contra h
    simp [arrRead, h] at hx
  · intro h
    exact ⟨_, arrRead_ok a d h⟩

/-- A loop that returns normally has run every iteration to a normal return: a
fault in an iteration is the outcome of the loop. -/
theorem forLoop_ok_iterations {σ : Type} (lo hi : Nat) (init : σ)
    (body : Nat → σ → Except Fault σ) (s : σ) (h : forLoop lo hi init body = .ok s) :
    ∀ i, lo ≤ i → i < hi → ∃ si so, body i si = .ok so := by
  obtain ⟨d, hd⟩ : ∃ d, hi - lo = d := ⟨_, rfl⟩
  induction d generalizing lo init with
  | zero =>
    intro i h1 h2
    omega
  | succ d ih =>
    intro i h1 h2
    rw [forLoop_step lo hi init body (by omega)] at h
    cases hb : body lo init with
    | error e =>
      rw [hb, error_bind] at h
      cases h
    | ok s1 =>
      rw [hb, ok_bind] at h
      by_cases hi0 : i = lo
      · exact ⟨init, s1, by rw [hi0, hb]⟩
      · exact ih (lo + 1) s1 h (by omega) i (by omega) h2

/-- With no rows the write `A(0, 0) = 1.` of line 143 is outside the `0 × 0` view. -/
theorem assembleA_fault (n : Nat) (m : Matrix) :
    assembleA 0 n m = .error .out_of_bounds := by
  unfold assembleA
  dsimp only
  have h : viewWrite (viewZeros 0 0) 0 0 1 = .error .out_of_bounds := by
    simp [viewWrite]
  rw [h]
  rfl

/-- The read `points_to_fit[n - 1]` of line 159, or already `points_to_fit[0]` of
line 158, is past the end when the vector has at most `n - 1` entries, the
subtraction being the one of `size_t`. -/
theorem assembleB_fault (p n : Nat) (m : Matrix) (pts : List Array3) (hp : 1 ≤ p)
    (h : pts.length ≤ usub n 1) : assembleB p n m pts = .error .out_of_bounds := by
  unfold assembleB
  dsimp only
  rw [forLoop_step 0 3 _ _ (by omega)]
  by_cases h0 : pts.length = 0
  · rw [vecRead_fault pts 0 (by omega)]
    rfl
  · rw [vecRead_ok pts (fun _ => 0) 0 (by omega), ok_bind, arrRead_ok _ 0 (by omega), ok_bind,
      viewWrite_ok _ 0 0 _ (by omega) (by omega), ok_bind, vecRead_fault pts (usub n 1) h]
    rfl

/-- The fit passes its two checks and then makes an access out of bounds when
`points_to_fit` has at most `n - 1` entries (`size_t` subtraction). -/
theorem PerformLeastSquaresFitting_fault (dgesv : Dgesv) (p n : Nat) (m : Matrix)
    (pts : List Array3) (hp : 1 ≤ p) (hrows : m.length = p)
    (hcols : ∀ row ∈ m, row.length = n) (h : pts.length ≤ usub n 1) :
    PerformLeastSquaresFitting dgesv p m pts = .error .out_of_bounds := by
  unfold PerformLeastSquaresFitting
  obtain ⟨h1, h2⟩ := vecRead_row m n 0 (by omega) hcols
  have hany : (m.any fun row => decide ¬row.length = n) = false := by
    rw [List.any_eq_false]
    intro row hrow
    simp [hcols row hrow]
  simp only [hrows, ne_eq, not_true_eq_false, if_false]
  rw [h1]
  simp only [bind, Except.bind, pure, Except.pure, h2, hany, assembleA_ok p n m hp hrows hcols,
    assembleB_fault p n m pts hp h]
  rfl

/-- With `p = 0` the row-count check passes for the empty matrix and the read
`shape_functions[0]` of line 134 is out of bounds. -/
theorem PerformLeastSquaresFitting_no_rows (dgesv : Dgesv) (pts : List Array3) :
    PerformLeastSquaresFitting dgesv 0 [] pts = .error .out_of_bounds := by
  unfold PerformLeastSquaresFitting
  rfl

/-- C21: index safety of the fit. Every access of the model is checked and a
failed check is the outcome `out_of_bounds` of the whole call, so a normal return
of the assembly says that each access made on the way was in bounds. Let the
matrix have `p` rows of `n` columns each (the two checks at entry pass). If
`p ≥ 1`, `n ≥ 1` and `points_to_fit` has at least `n` entries, the assembly of
`A` and of `B` and the whole fit return normally, and the indices `i < p`,
`k < n` are in bounds of `shape_functions[i][k]` and `points_to_fit[k]`. If
`p = 0`, or `n = 0`, or `points_to_fit` has fewer than `n` entries, no exception
is thrown and an access is out of bounds (for `n = 0` the index `n - 1` is the one
of `size_t`, the vector being shorter than `2^64`). -/
theorem PerformLeastSquaresFitting_index_safety (dgesv : Dgesv) (p n : Nat) (m : Matrix)
    (pts : List Array3) (hrows : m.length = p) (hcols : ∀ row ∈ m, row.length = n) :
    (1 ≤ p → 1 ≤ n → n ≤ pts.length →
      (∃ A, assembleA p n m = .ok A) ∧ (∃ B, assembleB p n m pts = .ok B) ∧
      (∃ X, PerformLeastSquaresFitting dgesv p m pts = .ok X) ∧
      (∀ i k, i < p → k < n →
        (∃ row, vecRead m i = .ok row ∧ ∃ x, vecRead row k = .ok x) ∧
        (∃ pt, vecRead pts k = .ok pt))) ∧
    (p = 0 → assembleA p n m = .error .out_of_bounds ∧
      PerformLeastSquaresFitting dgesv p m pts = .error .out_of_bounds) ∧
    (1 ≤ p → n = 0 → pts.length < 2 ^ 64 →
      assembleB p n m pts = .error .out_of_bounds ∧
      PerformLeastSquaresFitting dgesv p m pts = .error .out_of_bounds) ∧
    (1 ≤ p → 1 ≤ n → pts.length < n →
      assembleB p n m pts = .error .out_of_bounds ∧
      PerformLeastSquaresFitting dgesv p m pts = .error .out_of_bounds) := by
  refine ⟨?_, ?_, ?_, ?_⟩
  · intro hp hn hpts
    refine ⟨⟨_, assembleA_ok p n m hp hrows hcols⟩,
      ⟨_, assembleB_ok p n m pts hp hrows hcols hn hpts⟩,
      ⟨_, PerformLeastSquaresFitting_ok dgesv p n m pts hp hrows hcols hn hpts⟩, ?_⟩
    intro i k hi hk
    obtain ⟨h1, h2⟩ := vecRead_row m n i (by omega) hcols
    exact ⟨⟨_, h1, _, vecRead_ok _ 0 k (by omega)⟩, ⟨_, vecRead_ok pts (fun _ => 0) k (by omega)⟩⟩
  · intro hp
    subst hp
    have hm : m = [] := List.length_eq_zero.mp hrows
    subst hm
    exact ⟨assembleA_fault n [], PerformLeastSquaresFitting_no_rows dgesv pts⟩
  · intro hp hn hlen
    have h : pts.length ≤ usub n 1 := by
      subst hn
      have : usub 0 1 = 2 ^ 64 - 1 := by simp [usub]
      omega
    exact ⟨assembleB_fault p n m pts hp h,
      PerformLeastSquaresFitting_fault dgesv p n m pts hp hrows hcols h⟩
  · intro hp hn hlen
    have h : pts.length ≤ usub n 1 := by
      rw [usub_one n hn]
      omega
    exact ⟨assembleB_fault p n m pts hp h,
      PerformLeastSquaresFitting_fault dgesv p n m pts hp hrows hcols h⟩

/-- The second-order shape functions with five samples return normally; the empty
matrix with `p = 0`, two rows without columns, and the second-order shape
functions with three samples only all pass the checks and end out of bounds. -/
theorem PerformLeastSquaresFitting_index_safety_witness :
    (∃ X, PerformLeastSquaresFitting dgesvRef 3 phi_second_order scattered_points = .ok X) ∧
    PerformLeastSquaresFitting dgesvRef 0 [] scattered_points = .error .out_of_bounds ∧
    PerformLeastSquaresFitting dgesvRef 2 [[], []] scattered_points = .error .out_of_bounds ∧
    PerformLeastSquaresFitting dgesvRef 3 phi_second_order parabola_coefficients =
      .error .out_of_bounds :=
  ⟨((PerformLeastSquaresFitting_index_safety dgesvRef 3 5 phi_second_order scattered_points
      (by decide) (by decide)).1 (by decide) (by decide) (by decide)).2.2.1,
    ((PerformLeastSquaresFitting_index_safety dgesvRef 0 0 [] scattered_points
      (by decide) (by decide)).2.1 rfl).2,
    ((PerformLeastSquaresFitting_index_safety dgesvRef 2 0 [[], []] scattered_points
      (by decide) (by decide)).2.2.1 (by decide) rfl (by decide)).2,
    ((PerformLeastSquaresFitting_index_safety dgesvRef 3 5 phi_second_order parabola_coefficients
      (by decide) (by decide)).2.2.2 (by decide) (by decide) (by decide)).2⟩

end openturbine
